import Mathlib

/-!
# img_get: acquire an image and persist it

A verification development for `GetImage` of `img_get.go`.

The function is pure glue around the Go standard library: `http.Get`, `os.Open`,
`filepath.Dir`, `os.MkdirAll`, `os.Create`, `io.Copy`, `Close` and `log.Printf`.
The first part of this file models those collaborators over an explicit world
state (a filesystem, a network, a table of open handles, injectable failures, a
trace of the calls made and the log output).  The second part is `GetImage`
itself, translated statement by statement.  The theorems follow.

Modelling decisions, all about the collaborators and none about `GetImage`:

* A filesystem is a tree of directories and regular files, without symbolic or
  hard links: a node is named by the list of its path components from the root.
* Every node carries its nine permission bits and the class the process falls
  in for that node (owner, group or other). The superuser passes every
  permission check. A node the process creates belongs to it and gets the mode
  asked for, less the bits of the umask.
* Path strings are resolved as a Unix kernel does, component by component,
  relative to the working directory unless they start with `/`; every component
  is looked up in a directory that must exist and that the process may search,
  `.` and the empty component stay where they are, `..` goes to the parent. A
  component is 255 bytes at most and a path is shorter than 4096 bytes (the
  limits of Linux), and neither holds a zero byte.
* `filepath.Dir` is the lexical function of the Go library: everything up to the
  last `/`, then `filepath.Clean`.
* A handle reads the file as it is at the moment of reading, not as it was at the
  moment of opening.
* Failures the tree does not explain (a full disk, a read-only device, a broken
  connection, a failing `Close`) are injected through `World.fault`.
-/

namespace ImgGet

/-! ## Permissions -/

/-- The permission bits of one class of users: read, write, and execute or
    search. -/
structure Bits where
  r : Bool
  w : Bool
  x : Bool
  deriving DecidableEq, Repr

/-- The nine permission bits of a node. -/
structure Mode where
  owner : Bits
  group : Bits
  other : Bits
  deriving DecidableEq, Repr

/-- The three bits an octal digit stands for. -/
def Bits.ofNat (d : Nat) : Bits :=
  ⟨decide (d / 4 % 2 = 1), decide (d / 2 % 2 = 1), decide (d % 2 = 1)⟩

/-- The mode a number stands for, as in `0o644`. -/
def Mode.ofNat (n : Nat) : Mode :=
  ⟨Bits.ofNat (n / 64 % 8), Bits.ofNat (n / 8 % 8), Bits.ofNat (n % 8)⟩

/-- The bits of `b` that are not in `mask`. -/
def Bits.clear (b mask : Bits) : Bits :=
  ⟨b.r && !mask.r, b.w && !mask.w, b.x && !mask.x⟩

/-- The mode a new node gets: the bits of `m` that are not in `umask`. -/
def Mode.clear (m umask : Mode) : Mode :=
  ⟨m.owner.clear umask.owner, m.group.clear umask.group, m.other.clear umask.other⟩

/-- Go's `os.ModePerm`, the permission bits `0o777`. -/
def os.ModePerm : Mode := Mode.ofNat 0o777

/-- The class the process falls in for a node. -/
inductive Who where
  | owner
  | group
  | other
  deriving DecidableEq, Repr

/-- The permissions of a node, as they bear on the process. -/
structure Perm where
  mode : Mode
  who : Who
  deriving DecidableEq, Repr

/-- The three bits that apply to the process. -/
def Perm.bits (p : Perm) : Bits :=
  match p.who with
  | Who.owner => p.mode.owner
  | Who.group => p.mode.group
  | Who.other => p.mode.other

/-- Whether the process may read the node. `su` says whether it runs as the
    superuser. -/
def Perm.readable (p : Perm) (su : Bool) : Bool := su || p.bits.r

/-- Whether the process may write the node; for a directory, whether it may
    make entries in it. -/
def Perm.writable (p : Perm) (su : Bool) : Bool := su || p.bits.w

/-- Whether the process may look names up in the directory. -/
def Perm.searchable (p : Perm) (su : Bool) : Bool := su || p.bits.x

/-- The permissions of a node the process makes with mode `m` under `umask`. -/
def Perm.made (m umask : Mode) : Perm := ⟨m.clear umask, Who.owner⟩

/-! ## Filesystem -/

/-- File contents: a sequence of bytes. -/
abbrev Bytes := List Nat

/-- The name of a node: its path components from the root. The root is `[]`. -/
abbrev Key := List String

/-- A node of the tree. -/
inductive Node where
  | file (content : Bytes) (perm : Perm)
  | dir (perm : Perm)
  deriving DecidableEq, Repr

/-- The nodes below the root, newest binding first. -/
abbrev FS := List (Key × Node)

/-- The newest binding of a key. -/
def FS.get : FS → Key → Option Node
  | [], _ => none
  | (k', n) :: rest, k => if k' = k then some n else FS.get rest k

/-- The permissions of the root directory: mode `0o755`, and the process is
    neither its owner nor in its group. -/
def rootPerm : Perm := ⟨Mode.ofNat 0o755, Who.other⟩

/-- The node a key names. The root always exists and is a directory. -/
def FS.node (fs : FS) (k : Key) : Option Node :=
  if k = [] then some (Node.dir rootPerm) else fs.get k

/-- Binds a key, shadowing any older binding. -/
def FS.set (fs : FS) (k : Key) (n : Node) : FS := (k, n) :: fs

/-- Whether a key names an existing directory. -/
def FS.isDir (fs : FS) (k : Key) : Bool :=
  match fs.node k with
  | some (Node.dir _) => true
  | _ => false

/-- Whether a key names a directory in which the process may look names up. -/
def FS.canSearch (fs : FS) (su : Bool) (k : Key) : Bool :=
  match fs.node k with
  | some (Node.dir p) => p.searchable su
  | _ => false

/-- Whether a key names a directory in which the process may make entries. -/
def FS.canWrite (fs : FS) (su : Bool) (k : Key) : Bool :=
  match fs.node k with
  | some (Node.dir p) => p.writable su
  | _ => false

/-! ## Path strings -/

/-- Cuts a character sequence at every `/`. -/
def splitChars : List Char → List (List Char)
  | [] => [[]]
  | c :: cs =>
    if c = '/' then [] :: splitChars cs
    else
      match splitChars cs with
      | [] => [[c]]
      | h :: t => (c :: h) :: t

/-- The components of a path string, empty ones included. -/
def splitPath (path : String) : List String :=
  (splitChars path.toList).map String.mk

/-- Components joined with `/`. -/
def joinPath : List String → String
  | [] => ""
  | [a] => a
  | a :: b :: rest => a ++ "/" ++ joinPath (b :: rest)

/-- Whether a path string is absolute. -/
def isAbs (path : String) : Bool :=
  match path.toList with
  | c :: _ => c = '/'
  | [] => false

/-- The stack discipline of `filepath.Clean` on components: empty and `.`
    components vanish; `..` removes the component before it, is kept at the
    front of a relative path and vanishes at the front of a rooted one.
    `acc` is the cleaned prefix, last component first. -/
def cleanComps (rooted : Bool) : List String → List String → List String
  | acc, [] => acc.reverse
  | acc, c :: rest =>
    if c = "" ∨ c = "." then cleanComps rooted acc rest
    else if c = ".." then
      match acc with
      | [] => if rooted then cleanComps rooted [] rest else cleanComps rooted [".."] rest
      | top :: below =>
        if top = ".." then cleanComps rooted (".." :: top :: below) rest
        else cleanComps rooted below rest
    else cleanComps rooted (c :: acc) rest

/-- Go's `filepath.Clean` on Unix: the shortest path name equivalent to `path` by
    purely lexical processing. The empty path cleans to `.`. -/
def filepath.Clean (path : String) : String :=
  let comps := cleanComps (isAbs path) [] (splitPath path)
  if isAbs path then "/" ++ joinPath comps
  else if comps = [] then "." else joinPath comps

/-- The characters of a path up to and including its last `/`. -/
def dirChars : List Char → List Char
  | [] => []
  | c :: cs =>
    if cs.contains '/' then c :: dirChars cs
    else if c = '/' then [c] else []

/-- Go's `filepath.Dir` on Unix: all but the last element of `path`, cleaned. -/
def filepath.Dir (path : String) : String :=
  filepath.Clean (String.mk (dirChars path.toList))

/-- The length of a string in bytes, as the system counts it. -/
def byteLen (s : String) : Nat := (s.toList.map Char.utf8Size).sum

/-- The longest name of a node, in bytes (`NAME_MAX`). -/
def nameMax : Nat := 255

/-- The length in bytes no path handed to the system reaches (`PATH_MAX`, which
    counts the terminating zero byte). -/
def pathMax : Nat := 4096

/-- The zero byte, which no path handed to the system may hold. -/
def nul : Char := Char.ofNat 0

/-- A component the system takes as a name: 255 bytes at most, and no zero
    byte. -/
def FitsName (c : String) : Prop :=
  byteLen c ≤ nameMax ∧ nul ∉ c.toList

instance (c : String) : Decidable (FitsName c) := by
  unfold FitsName
  infer_instance

/-- Whether the name `c` can be looked up in `cur`: `cur` is a directory the
    process may search and `c` is a name the system takes. -/
def canLookup (fs : FS) (su : Bool) (cur : Key) (c : String) : Prop :=
  fs.canSearch su cur = true ∧ FitsName c

instance (fs : FS) (su : Bool) (cur : Key) (c : String) : Decidable (canLookup fs su cur c) := by
  unfold canLookup
  infer_instance

/-- The error of a lookup that cannot be made. -/
def lookupError (fs : FS) (su : Bool) (cur : Key) (c : String) : String :=
  if nul ∈ c.toList then "invalid argument"
  else
    match fs.node cur with
    | none => "no such file or directory"
    | some (Node.file _ _) => "not a directory"
    | some (Node.dir p) =>
      if p.searchable su then "file name too long" else "permission denied"

/-- Kernel path resolution: walks `comps` from `cur`. Every component is looked up
    in `cur`, which must be an existing directory the process may search. The
    result names the place the path leads to, where there may or may not be a
    node. -/
def walk (fs : FS) (su : Bool) : Key → List String → Option Key
  | cur, [] => some cur
  | cur, c :: rest =>
    if canLookup fs su cur c then
      if c = "" ∨ c = "." then walk fs su cur rest
      else if c = ".." then walk fs su cur.dropLast rest
      else walk fs su (cur ++ [c]) rest
    else none

/-- The error of a walk that fails. -/
def walkError (fs : FS) (su : Bool) : Key → List String → String
  | _, [] => "no such file or directory"
  | cur, c :: rest =>
    if canLookup fs su cur c then
      if c = "" ∨ c = "." then walkError fs su cur rest
      else if c = ".." then walkError fs su cur.dropLast rest
      else walkError fs su (cur ++ [c]) rest
    else lookupError fs su cur c

/-- Where a path lookup starts. -/
def startDir (cwd : Key) (path : String) : Key :=
  if isAbs path then [] else cwd

/-- The key a path string leads to. The empty path leads nowhere, and neither
    does a path of `pathMax` bytes or more. -/
def resolve (fs : FS) (su : Bool) (cwd : Key) (path : String) : Option Key :=
  if path = "" ∨ pathMax ≤ byteLen path then none
  else walk fs su (startDir cwd path) (splitPath path)

/-- The error of a path string that leads nowhere. -/
def resolveError (fs : FS) (su : Bool) (cwd : Key) (path : String) : String :=
  if path = "" then "no such file or directory"
  else if nul ∈ path.toList then "invalid argument"
  else if pathMax ≤ byteLen path then "file name too long"
  else walkError fs su (startDir cwd path) (splitPath path)

/-- The node a path string names, as `stat` would find it. -/
def stat (fs : FS) (su : Bool) (cwd : Key) (path : String) : Option Node :=
  match resolve fs su cwd path with
  | some k => fs.node k
  | none => none

/-- The directory walk of `os.MkdirAll`: like `walk`, but a missing directory is
    made on the way, with the permissions `made`, and a regular file in the way
    is an error. `done` holds the components walked so far: the library hands
    the path up to each component to the system, and names it in the error. The
    directories made before an error stay. -/
def mkdirWalk (su : Bool) (made : Perm) : FS → Key → List String → List String →
    Option String × FS
  | fs, _, _, [] => (none, fs)
  | fs, cur, done, c :: rest =>
    let fail := fun (e : String) =>
      (some ("mkdir " ++ joinPath (done ++ [c]) ++ ": " ++ e), fs)
    if pathMax ≤ byteLen (joinPath (done ++ [c])) then fail "file name too long"
    else if canLookup fs su cur c then
      if c = "" ∨ c = "." then mkdirWalk su made fs cur (done ++ [c]) rest
      else if c = ".." then mkdirWalk su made fs cur.dropLast (done ++ [c]) rest
      else
        match fs.node (cur ++ [c]) with
        | some (Node.dir _) => mkdirWalk su made fs (cur ++ [c]) (done ++ [c]) rest
        | some (Node.file _ _) => fail "not a directory"
        | none =>
          if fs.canWrite su cur then
            mkdirWalk su made (fs.set (cur ++ [c]) (Node.dir made)) (cur ++ [c])
              (done ++ [c]) rest
          else fail "permission denied"
    else fail (lookupError fs su cur c)

/-! ## World -/

/-- What `http.Get` finds at a URL: a transport failure, or a response (the last
    one, after any redirects the client followed). -/
inductive HttpResult where
  | failed (err : String)
  | response (status : Int) (body : Bytes)
  deriving DecidableEq, Repr

/-- What an open handle is attached to. -/
inductive Stream where
  | body (data : Bytes)
  | file (name : String) (key : Key) (pos : Nat) (writable : Bool)
  deriving DecidableEq, Repr

/-- A call to a collaborator. Handles are numbers. -/
inductive Call where
  | httpGet (url : String)
  | osOpen (name : String)
  | osMkdirAll (path : String)
  | osCreate (name : String)
  | ioCopy (dst src : Nat)
  | close (handle : Nat)
  deriving DecidableEq, Repr

/-- A call that was made, and the error it reported, if any. -/
structure Event where
  call : Call
  err : Option String
  deriving DecidableEq, Repr

/-- The state `GetImage` runs in. -/
structure World where
  /-- The filesystem tree. -/
  fs : FS
  /-- The working directory of the process. -/
  cwd : Key
  /-- Whether the process runs as the superuser. -/
  superuser : Bool
  /-- The file mode creation mask of the process. -/
  umask : Mode
  /-- The network, as `http.Get` sees it. -/
  net : String → HttpResult
  /-- The open handles. -/
  handles : List (Nat × Stream)
  /-- Injected failures: the error text a call fails with, whatever the tree says. -/
  fault : Call → Option String
  /-- How many bytes get through before an injected `io.Copy` failure. -/
  partialCopy : Nat
  /-- The collaborator calls made so far, oldest first. -/
  trace : List Event
  /-- The lines written by `log.Printf`, oldest first. -/
  log : List String

/-- Appends a call and its outcome to the trace. -/
def World.record (w : World) (c : Call) (err : Option String) : World :=
  { w with trace := w.trace ++ [⟨c, err⟩] }

/-- A handle number that is not in use. -/
def freshHandle (hs : List (Nat × Stream)) : Nat :=
  (hs.map Prod.fst).foldr max 0 + 1

/-- The stream of an open handle. -/
def findHandle : List (Nat × Stream) → Nat → Option Stream
  | [], _ => none
  | (h', s) :: rest, h => if h' = h then some s else findHandle rest h

/-- Replaces the stream of a handle. -/
def setHandle (hs : List (Nat × Stream)) (h : Nat) (s : Stream) : List (Nat × Stream) :=
  hs.map (fun e => if e.1 = h then (h, s) else e)

/-- Removes a handle from the table. -/
def dropHandle (hs : List (Nat × Stream)) (h : Nat) : List (Nat × Stream) :=
  hs.filter (fun e => e.1 ≠ h)

/-! ## Collaborators -/

/-- The fields of `http.Response` that `GetImage` uses. -/
structure Response where
  StatusCode : Int
  Body : Nat

/-- The status code `http.StatusOK`. -/
def http.StatusOK : Int := 200

/-- Go's `http.Get`: a transport failure is an error and acquires nothing; a response,
    of any status, comes with an open body. -/
def http.Get (url : String) (w : World) : Except String Response × World :=
  match w.net url with
  | HttpResult.failed e =>
    let err := "Get \"" ++ url ++ "\": " ++ e
    (Except.error err, w.record (Call.httpGet url) (some err))
  | HttpResult.response status body =>
    let h := freshHandle w.handles
    (Except.ok ⟨status, h⟩,
      { w.record (Call.httpGet url) none with handles := (h, Stream.body body) :: w.handles })

/-- Go's `os.Open`: opens whatever the name leads to, a file or a directory, for
    reading. The process must be allowed to read it. -/
def os.Open (name : String) (w : World) : Except String Nat × World :=
  let fail := fun (e : String) =>
    let err := "open " ++ name ++ ": " ++ e
    ((Except.error err : Except String Nat), w.record (Call.osOpen name) (some err))
  let succeed := fun (k : Key) =>
    let h := freshHandle w.handles
    ((Except.ok h : Except String Nat),
      { w.record (Call.osOpen name) none with
        handles := (h, Stream.file name k 0 false) :: w.handles })
  match w.fault (Call.osOpen name) with
  | some e => fail e
  | none =>
    match resolve w.fs w.superuser w.cwd name with
    | none => fail (resolveError w.fs w.superuser w.cwd name)
    | some k =>
      match w.fs.node k with
      | none => fail "no such file or directory"
      | some (Node.file _ p) =>
        if p.readable w.superuser then succeed k else fail "permission denied"
      | some (Node.dir p) =>
        if p.readable w.superuser then succeed k else fail "permission denied"

/-- Go's `os.MkdirAll`: makes the named directory and every missing parent, with
    the mode `perm` less the umask; a directory that exists already is left
    alone. -/
def os.MkdirAll (path : String) (perm : Mode) (w : World) : Option String × World :=
  match w.fault (Call.osMkdirAll path) with
  | some e =>
    let err := "mkdir " ++ path ++ ": " ++ e
    (some err, w.record (Call.osMkdirAll path) (some err))
  | none =>
    if path = "" then
      let err := "mkdir : no such file or directory"
      (some err, w.record (Call.osMkdirAll path) (some err))
    else
      let (err, fs) := mkdirWalk w.superuser (Perm.made perm w.umask) w.fs
        (startDir w.cwd path) [] (splitPath path)
      (err, { w.record (Call.osMkdirAll path) err with fs := fs })

/-- The mode `os.Create` asks for, `0o666`. -/
def os.createMode : Mode := Mode.ofNat 0o666

/-- Go's `os.Create`, that is `OpenFile(name, O_RDWR|O_CREATE|O_TRUNC, 0666)`: makes the
    named file in an existing directory the process may write, with mode `0o666`
    less the umask, or truncates it when it exists and the process may read and
    write it, and opens it for reading and writing. -/
def os.Create (name : String) (w : World) : Except String Nat × World :=
  let fail := fun (e : String) =>
    let err := "open " ++ name ++ ": " ++ e
    ((Except.error err : Except String Nat), w.record (Call.osCreate name) (some err))
  let succeed := fun (k : Key) (p : Perm) =>
    let h := freshHandle w.handles
    ((Except.ok h : Except String Nat),
      { w.record (Call.osCreate name) none with
        fs := w.fs.set k (Node.file [] p),
        handles := (h, Stream.file name k 0 true) :: w.handles })
  match w.fault (Call.osCreate name) with
  | some e => fail e
  | none =>
    match resolve w.fs w.superuser w.cwd name with
    | none => fail (resolveError w.fs w.superuser w.cwd name)
    | some k =>
      match w.fs.node k with
      | some (Node.dir _) => fail "is a directory"
      | some (Node.file _ p) =>
        if p.readable w.superuser ∧ p.writable w.superuser then succeed k p
        else fail "permission denied"
      | none =>
        if k ≠ [] ∧ w.fs.isDir k.dropLast then
          if w.fs.canWrite w.superuser k.dropLast then
            succeed k (Perm.made os.createMode w.umask)
          else fail "permission denied"
        else fail "no such file or directory"

/-- Everything a stream yields from where it stands until the end. A file is read
    as it is now. -/
def sourceBytes (fs : FS) (s : Stream) : Except String Bytes :=
  match s with
  | Stream.body data => Except.ok data
  | Stream.file name k pos _ =>
    match fs.node k with
    | some (Node.file c _) => Except.ok (c.drop pos)
    | some (Node.dir _) => Except.error ("read " ++ name ++ ": is a directory")
    | none => Except.error ("read " ++ name ++ ": bad file descriptor")

/-- Everything an open handle yields from where it stands until the end. -/
def readAll (w : World) (src : Nat) : Except String Bytes :=
  match findHandle w.handles src with
  | none => Except.error "read: file already closed"
  | some s => sourceBytes w.fs s

/-- The content of a file after `data` is written at offset `pos`. -/
def writeAt (old : Bytes) (pos : Nat) (data : Bytes) : Bytes :=
  old.take pos ++ List.replicate (pos - old.length) 0 ++ data ++ old.drop (pos + data.length)

/-- A reader after `n` bytes were taken from it. -/
def advance (s : Stream) (n : Nat) : Stream :=
  match s with
  | Stream.body data => Stream.body (data.drop n)
  | Stream.file name k pos wr => Stream.file name k (pos + n) wr

/-- The handle table after `n` bytes were taken from the reader `h`. -/
def advanceHandle (hs : List (Nat × Stream)) (h n : Nat) : List (Nat × Stream) :=
  hs.map (fun e => if e.1 = h then (h, advance e.2 n) else e)

/-- Go's `io.Copy`: moves everything the reader yields into the writer. With a failure
    injected, `partialCopy` bytes at most get through first. -/
def io.Copy (dst src : Nat) (w : World) : Except String Nat × World :=
  let fail := fun (err : String) =>
    ((Except.error err : Except String Nat), w.record (Call.ioCopy dst src) (some err))
  match readAll w src with
  | Except.error e => fail e
  | Except.ok all =>
    let fault := w.fault (Call.ioCopy dst src)
    let data := if fault.isSome then all.take w.partialCopy else all
    match findHandle w.handles dst with
    | some (Stream.file name k pos true) =>
      match w.fs.node k with
      | some (Node.file old p) =>
        let w1 : World :=
          { w with
            fs := w.fs.set k (Node.file (writeAt old pos data) p),
            handles := setHandle (advanceHandle w.handles src data.length) dst
              (Stream.file name k (pos + data.length) true) }
        (match fault with
          | some e => Except.error e
          | none => Except.ok data.length,
         w1.record (Call.ioCopy dst src) fault)
      | _ => fail ("write " ++ name ++ ": bad file descriptor")
    | _ => fail "write: bad file descriptor"

/-- The `Close` of a response body or a file: the handle is released in every case,
    also when an error is reported. -/
def close (h : Nat) (w : World) : Option String × World :=
  let err : Option String :=
    match findHandle w.handles h with
    | none => some "close: file already closed"
    | some _ => w.fault (Call.close h)
  (err, { w.record (Call.close h) err with handles := dropHandle w.handles h })

/-- Go's `log.Printf`: one line on the log. -/
def log.Printf (line : String) (w : World) : World :=
  { w with log := w.log ++ [line] }

/-! ## The program -/

/-- Lines 68 to 88 of `GetImage`, which both sources share: the directory of
    `outputPath` is created, then the file, then `reader` is copied into it.
    `outputFile.Close()` is deferred from the moment the file is created, so it
    runs on both ways out after that, and what it returns is dropped. -/
def GetImage.save (reader : Nat) (outputPath : String) (w : World) :
    Option String × World :=
  let dir := filepath.Dir outputPath
  match os.MkdirAll dir os.ModePerm w with
  | (some err, w1) => (some ("error creating directory: " ++ err), w1)
  | (none, w1) =>
    match os.Create outputPath w1 with
    | (Except.error err, w2) => (some ("error creating the file: " ++ err), w2)
    | (Except.ok outputFile, w2) =>
      let (result, w3) :=
        match io.Copy outputFile reader w2 with
        | (Except.error err, w3) => (some ("error saving the image: " ++ err), w3)
        | (Except.ok _, w3) =>
          (none, log.Printf ("Image downloaded/saved as \x27" ++ outputPath ++ "\x27\n") w3)
      (result, (close outputFile w3).2)

/-- The function `GetImage` of `img_get.go`. The result is the returned error (`none` for
    `nil`) and the world the call leaves. A deferred `Close` runs when the
    function returns, whatever the way out, and what it returns is dropped. -/
def GetImage (sourceURL localPath outputPath : String) (w : World) :
    Option String × World :=
  if sourceURL ≠ "" then
    match http.Get sourceURL w with
    | (Except.error err, w1) => (some ("error making the request: " ++ err), w1)
    | (Except.ok response, w1) =>
      let (result, w2) :=
        if response.StatusCode ≠ http.StatusOK then
          (some ("error: status code " ++ toString response.StatusCode), w1)
        else GetImage.save response.Body outputPath w1
      (result, (close response.Body w2).2)
  else if localPath ≠ "" then
    match os.Open localPath w with
    | (Except.error err, w1) => (some ("error opening the local file: " ++ err), w1)
    | (Except.ok file, w1) =>
      let (result, w2) := GetImage.save file outputPath w1
      (result, (close file w2).2)
  else (some "both source URL and local path are empty", w)

/-! ## Vocabulary of the statements -/

/-- The calls made between two worlds, the second one reached from the first. -/
def newEvents (w w' : World) : List Event :=
  w'.trace.drop w.trace.length

/-- The stages of `GetImage` that can fail. -/
inductive Stage where
  | noSource
  | fetch
  | sourceOpen
  | dirCreate
  | destCreate
  | copy
  deriving DecidableEq, Repr

/-- The stage a collaborator call belongs to. `Close` belongs to none: what it
    returns is dropped. -/
def Call.stage : Call → Option Stage
  | Call.httpGet _ => some Stage.fetch
  | Call.osOpen _ => some Stage.sourceOpen
  | Call.osMkdirAll _ => some Stage.dirCreate
  | Call.osCreate _ => some Stage.destCreate
  | Call.ioCopy _ _ => some Stage.copy
  | Call.close _ => none

/-- The text `GetImage` puts in front of the error of a collaborator, per stage;
    for the stage without a collaborator, the whole message. -/
def Stage.label : Stage → String
  | Stage.noSource => "both source URL and local path are empty"
  | Stage.fetch => "error making the request: "
  | Stage.sourceOpen => "error opening the local file: "
  | Stage.dirCreate => "error creating directory: "
  | Stage.destCreate => "error creating the file: "
  | Stage.copy => "error saving the image: "

/-- Whether `s` starts with `p`. -/
def startsWith (p s : String) : Bool :=
  p.toList.isPrefixOf s.toList

/-- Reads the failing stage off an error message. -/
def stageOf (msg : String) : Option Stage :=
  if msg = "both source URL and local path are empty" then some Stage.noSource
  else if startsWith "error making the request: " msg then some Stage.fetch
  else if startsWith "error: status code " msg then some Stage.fetch
  else if startsWith "error opening the local file: " msg then some Stage.sourceOpen
  else if startsWith "error creating directory: " msg then some Stage.dirCreate
  else if startsWith "error creating the file: " msg then some Stage.destCreate
  else if startsWith "error saving the image: " msg then some Stage.copy
  else none

/-- The first call, other than a `Close`, that reported an error: its stage and
    the error text. -/
def firstFailure (evs : List Event) : Option (Stage × String) :=
  evs.findSome? (fun e =>
    match e.call.stage, e.err with
    | some st, some m => some (st, m)
    | _, _ => none)

/-- The stage a failed run failed in, read off the calls it made: the stage of
    the first failing call, and when no call failed, the source selection (no
    source given) or the fetch (the status check). -/
def failedStage (sourceURL : String) (evs : List Event) : Stage :=
  match firstFailure evs with
  | some (st, _) => st
  | none => if sourceURL = "" then Stage.noSource else Stage.fetch

/-- The segments of a path that name something: all but the empty ones and `.`. -/
def namesOf (segs : List String) : List String :=
  segs.filter (fun s => s ≠ "" ∧ s ≠ ".")

/-- An ordinary file or directory name: not empty, not `.` or `..`, no `/`, and a
    name the system takes (255 bytes at most, no zero byte). -/
def PlainName (name : String) : Prop :=
  name ≠ "" ∧ name ≠ "." ∧ name ≠ ".." ∧ '/' ∉ name.toList ∧ FitsName name

instance (name : String) : Decidable (PlainName name) := by
  unfold PlainName
  infer_instance

/-- No failure is injected into a call whose error `GetImage` looks at, that is
    into any call but `Close`: a call fails only when the tree, its permissions
    or the limits on names say so. -/
def Undisturbed (w : World) : Prop :=
  ∀ c : Call, c.stage ≠ none → w.fault c = none

/-! ## Sample worlds -/

/-- The permissions of a directory of the user the process runs as, mode `0o755`. -/
def userDir : Perm := ⟨Mode.ofNat 0o755, Who.owner⟩

/-- The permissions of a file of the user the process runs as, mode `0o644`. -/
def userFile : Perm := ⟨Mode.ofNat 0o644, Who.owner⟩

/-- The permissions of a file its owner may write and not read, mode `0o200`. -/
def writeOnly : Perm := ⟨Mode.ofNat 0o200, Who.owner⟩

/-- A world with two pictures, `a.png` and `old.png`, and a file `drop.png` that can
    be written and not read, in the working directory `/home`, which belongs to
    the user the process runs as and not to the superuser; the umask is `0o022`; a
    server with one picture and one missing page, no open handle and no injected
    failure. -/
def sampleWorld : World where
  fs := [(["home"], Node.dir userDir),
         (["home", "a.png"], Node.file [1, 2, 3] userFile),
         (["home", "old.png"], Node.file [4, 5, 6, 7] userFile),
         (["home", "drop.png"], Node.file [9] writeOnly)]
  cwd := ["home"]
  superuser := false
  umask := Mode.ofNat 0o022
  net := fun url =>
    if url = "http://example.com/image.jpg" then HttpResult.response 200 [7, 8]
    else if url = "http://example.com/missing.jpg" then HttpResult.response 404 [9]
    else HttpResult.failed "dial tcp: connection refused"
  handles := []
  fault := fun _ => none
  partialCopy := 0
  trace := []
  log := []

/-- The sample world, where every `Close` reports an error. -/
def closeFailsWorld : World :=
  { sampleWorld with
    fault := fun c =>
      match c with
      | Call.close _ => some "input/output error"
      | _ => none }

/-- The sample world under the umask `0o222`: what the process makes, nobody may
    write. -/
def readOnlyUmaskWorld : World :=
  { sampleWorld with umask := Mode.ofNat 0o222 }

/-- A name of 256 bytes. -/
def longName : String := String.mk (List.replicate 256 'a')

/-! ## Descriptions of a run, used in the proofs -/

/-- The calls after the source was selected, on each way through lines 68 to 88,
    with the error returned. -/
def SaveShape (reader : Nat) (outputPath : String) (r : Option String) (evs : List Event) :
    Prop :=
  (∃ m, r = some ("error creating directory: " ++ m)
    ∧ evs = [⟨Call.osMkdirAll (filepath.Dir outputPath), some m⟩])
  ∨ (∃ m, r = some ("error creating the file: " ++ m)
    ∧ evs = [⟨Call.osMkdirAll (filepath.Dir outputPath), none⟩,
             ⟨Call.osCreate outputPath, some m⟩])
  ∨ (∃ f m ce, r = some ("error saving the image: " ++ m)
    ∧ evs = [⟨Call.osMkdirAll (filepath.Dir outputPath), none⟩,
             ⟨Call.osCreate outputPath, none⟩,
             ⟨Call.ioCopy f reader, some m⟩, ⟨Call.close f, ce⟩])
  ∨ (∃ f ce, r = none
    ∧ evs = [⟨Call.osMkdirAll (filepath.Dir outputPath), none⟩,
             ⟨Call.osCreate outputPath, none⟩,
             ⟨Call.ioCopy f reader, none⟩, ⟨Call.close f, ce⟩])

/-- The calls of a whole run of `GetImage`, on each way through it, with the
    error returned. -/
def RunShape (sourceURL localPath outputPath : String) (w : World) (r : Option String)
    (evs : List Event) : Prop :=
  (sourceURL = "" ∧ localPath = ""
    ∧ r = some "both source URL and local path are empty" ∧ evs = [])
  ∨ (sourceURL ≠ "" ∧ ∃ m, r = some ("error making the request: " ++ m)
    ∧ evs = [⟨Call.httpGet sourceURL, some m⟩])
  ∨ (sourceURL ≠ "" ∧ ∃ status body h ce,
      w.net sourceURL = HttpResult.response status body ∧ status ≠ 200
    ∧ r = some ("error: status code " ++ toString status)
    ∧ evs = [⟨Call.httpGet sourceURL, none⟩, ⟨Call.close h, ce⟩])
  ∨ (sourceURL ≠ "" ∧ ∃ h ce sevs, SaveShape h outputPath r sevs
    ∧ evs = ⟨Call.httpGet sourceURL, none⟩ :: (sevs ++ [⟨Call.close h, ce⟩]))
  ∨ (sourceURL = "" ∧ localPath ≠ "" ∧ ∃ m, r = some ("error opening the local file: " ++ m)
    ∧ evs = [⟨Call.osOpen localPath, some m⟩])
  ∨ (sourceURL = "" ∧ localPath ≠ "" ∧ ∃ h ce sevs, SaveShape h outputPath r sevs
    ∧ evs = ⟨Call.osOpen localPath, none⟩ :: (sevs ++ [⟨Call.close h, ce⟩]))

/-- The parts of the world no collaborator changes: the working directory, the
    user and the umask of the process, the network and the injected failures. -/
def SameEnv (w w' : World) : Prop :=
  w'.cwd = w.cwd ∧ w'.superuser = w.superuser ∧ w'.umask = w.umask ∧ w'.net = w.net
    ∧ w'.fault = w.fault ∧ w'.partialCopy = w.partialCopy

/-- The permissions of a node. -/
def Node.perm : Node → Perm
  | Node.file _ p => p
  | Node.dir p => p

/-- A place where `os.Create` can put a file, and the permissions `p` the file has
    then: there is a regular file already, with the permissions `p`, which the
    process may read and write; or there is nothing, the process may make
    entries in the directory above, and `p` is what the umask leaves of `0o666`. -/
def Creatable (fs : FS) (su : Bool) (umask : Mode) (k : Key) (p : Perm) : Prop :=
  (∃ c, fs.node k = some (Node.file c p) ∧ p.readable su = true ∧ p.writable su = true)
  ∨ (fs.node k = none ∧ k ≠ [] ∧ fs.canWrite su k.dropLast = true
      ∧ p = Perm.made os.createMode umask)

/-- The conditions under which lines 68 to 88 succeed when the reader is the
    stream `s`, and the tree `fs'` they leave: the directory of `outputPath` can
    be made, which gives the tree `fs1`; there `outputPath` leads to a place `k`
    where a file can be created; the reader yields `data` once that file is
    created; and no failure is injected. -/
def Saves (w : World) (s : Stream) (outputPath : String) (fs' : FS) : Prop :=
  ∃ fs1 k p data,
    w.fault (Call.osMkdirAll (filepath.Dir outputPath)) = none
    ∧ filepath.Dir outputPath ≠ ""
    ∧ mkdirWalk w.superuser (Perm.made os.ModePerm w.umask) w.fs
        (startDir w.cwd (filepath.Dir outputPath)) []
        (splitPath (filepath.Dir outputPath)) = (none, fs1)
    ∧ w.fault (Call.osCreate outputPath) = none
    ∧ resolve fs1 w.superuser w.cwd outputPath = some k
    ∧ Creatable fs1 w.superuser w.umask k p
    ∧ w.fault (Call.ioCopy (freshHandle w.handles + 1) (freshHandle w.handles)) = none
    ∧ sourceBytes (fs1.set k (Node.file [] p)) s = Except.ok data
    ∧ fs' = (fs1.set k (Node.file [] p)).set k (Node.file data p)

/-- The conditions under which `GetImage` returns `nil`, and the tree it leaves. -/
def Succeeds (sourceURL localPath outputPath : String) (w : World) (fs' : FS) : Prop :=
  (sourceURL ≠ "" ∧ ∃ body, w.net sourceURL = HttpResult.response 200 body
    ∧ Saves w (Stream.body body) outputPath fs')
  ∨ (sourceURL = "" ∧ localPath ≠ "" ∧ ∃ ks nd, w.fault (Call.osOpen localPath) = none
    ∧ resolve w.fs w.superuser w.cwd localPath = some ks ∧ w.fs.node ks = some nd
    ∧ nd.perm.readable w.superuser = true
    ∧ Saves w (Stream.file localPath ks 0 false) outputPath fs')

/-- The cleaned components of the directory part of a path: what `filepath.Dir`
    renders. -/
def dirComps (path : String) : List String :=
  cleanComps (isAbs path) [] (splitPath path).dropLast

/-- The components `os.MkdirAll` has behind it when it reaches the cleaned
    components of a directory part: the empty one in front of the first `/` of
    a rooted path. -/
def dirDone (path : String) : List String :=
  if isAbs path then [""] else []

/-- The bytes a list of components takes in a path: each component and the `/`
    after it. -/
def pathWeight : List String → Nat
  | [] => 0
  | c :: rest => byteLen c + 1 + pathWeight rest

/-! ## Handles -/

theorem le_foldr_max (l : List Nat) (x : Nat) (hx : x ∈ l) : x ≤ l.foldr max 0 := by
  induction l with
  | nil => cases hx
  | cons a t ih =>
    rcases List.mem_cons.mp hx with h | h
    · subst h
      exact Nat.le_max_left _ _
    · exact Nat.le_trans (ih h) (Nat.le_max_right _ _)

theorem freshHandle_ne (hs : List (Nat × Stream)) (e : Nat × Stream) (he : e ∈ hs) :
    e.1 ≠ freshHandle hs := by
  have h1 : e.1 ≤ (hs.map Prod.fst).foldr max 0 :=
    le_foldr_max _ _ (List.mem_map_of_mem Prod.fst he)
  unfold freshHandle
  omega

theorem dropHandle_fresh (hs : List (Nat × Stream)) : dropHandle hs (freshHandle hs) = hs := by
  unfold dropHandle
  apply List.filter_eq_self.mpr
  intro e he
  simpa using freshHandle_ne hs e he

theorem dropHandle_cons_self (hs : List (Nat × Stream)) (h : Nat) (s : Stream) :
    dropHandle ((h, s) :: hs) h = dropHandle hs h := by
  simp [dropHandle]

theorem dropHandle_setHandle (hs : List (Nat × Stream)) (h : Nat) (s : Stream) :
    dropHandle (setHandle hs h s) h = dropHandle hs h := by
  induction hs with
  | nil => rfl
  | cons e t ih =>
    have ih2 : List.filter (fun e => !decide (e.1 = h))
        (List.map (fun e => if e.1 = h then (h, s) else e) t)
        = List.filter (fun e => !decide (e.1 = h)) t := by
      simpa [dropHandle, setHandle] using ih
    by_cases he : e.1 = h
    · simp [dropHandle, setHandle, he, ih2]
    · simp [dropHandle, setHandle, he, ih2]

theorem dropHandle_advanceHandle (hs : List (Nat × Stream)) (h n : Nat) :
    dropHandle (advanceHandle hs h n) h = dropHandle hs h := by
  induction hs with
  | nil => rfl
  | cons e t ih =>
    have ih2 : List.filter (fun e => !decide (e.1 = h))
        (List.map (fun e => if e.1 = h then (h, advance e.2 n) else e) t)
        = List.filter (fun e => !decide (e.1 = h)) t := by
      simpa [dropHandle, advanceHandle] using ih
    by_cases he : e.1 = h
    · simp [dropHandle, advanceHandle, he, ih2]
    · simp [dropHandle, advanceHandle, he, ih2]

theorem dropHandle_comm (hs : List (Nat × Stream)) (a b : Nat) :
    dropHandle (dropHandle hs a) b = dropHandle (dropHandle hs b) a := by
  simp only [dropHandle, List.filter_filter]
  congr 1
  funext e
  exact Bool.and_comm _ _


/-! ## The collaborators, case by case -/

theorem Get_failed {url : String} {w : World} {e : String}
    (h : w.net url = HttpResult.failed e) :
    http.Get url w = (Except.error ("Get \"" ++ url ++ "\": " ++ e),
      w.record (Call.httpGet url) (some ("Get \"" ++ url ++ "\": " ++ e))) := by
  simp [http.Get, h]

theorem Get_response {url : String} {w : World} {status : Int} {body : Bytes}
    (h : w.net url = HttpResult.response status body) :
    http.Get url w = (Except.ok ⟨status, freshHandle w.handles⟩,
      { w.record (Call.httpGet url) none with
        handles := (freshHandle w.handles, Stream.body body) :: w.handles }) := by
  simp [http.Get, h]

theorem Open_cases (name : String) (w : World) :
    (∃ m, os.Open name w = (Except.error m, w.record (Call.osOpen name) (some m)))
    ∨ (∃ k nd, w.fault (Call.osOpen name) = none
        ∧ resolve w.fs w.superuser w.cwd name = some k
        ∧ w.fs.node k = some nd ∧ nd.perm.readable w.superuser = true
        ∧ os.Open name w = (Except.ok (freshHandle w.handles),
            { w.record (Call.osOpen name) none with
              handles := (freshHandle w.handles, Stream.file name k 0 false) :: w.handles })) := by
  unfold os.Open
  simp only
  split
  · exact Or.inl ⟨_, rfl⟩
  · split
    · exact Or.inl ⟨_, rfl⟩
    · split
      · exact Or.inl ⟨_, rfl⟩
      · next hf _ k hr _ c p hn =>
        split
        · next hp => exact Or.inr ⟨k, _, hf, hr, hn, hp, rfl⟩
        · exact Or.inl ⟨_, rfl⟩
      · next hf _ k hr _ p hn =>
        split
        · next hp => exact Or.inr ⟨k, _, hf, hr, hn, hp, rfl⟩
        · exact Or.inl ⟨_, rfl⟩

/-- What `os.MkdirAll` returns: it fails before it walks, and leaves the tree
    alone, or it walks, and leaves the tree the walk leaves with the error the
    walk ends in. -/
theorem MkdirAll_cases (path : String) (perm : Mode) (w : World) :
    (∃ m, os.MkdirAll path perm w = (some m, w.record (Call.osMkdirAll path) (some m)))
    ∨ (∃ r fs, w.fault (Call.osMkdirAll path) = none ∧ path ≠ ""
        ∧ mkdirWalk w.superuser (Perm.made perm w.umask) w.fs (startDir w.cwd path) []
            (splitPath path) = (r, fs)
        ∧ os.MkdirAll path perm w
            = (r, { w.record (Call.osMkdirAll path) r with fs := fs })) := by
  unfold os.MkdirAll
  split
  · exact Or.inl ⟨_, rfl⟩
  · next hf =>
    split
    · exact Or.inl ⟨_, rfl⟩
    · next hp => exact Or.inr ⟨_, _, hf, hp, rfl, rfl⟩

theorem Create_cases (name : String) (w : World) :
    (∃ m, os.Create name w = (Except.error m, w.record (Call.osCreate name) (some m)))
    ∨ (∃ k p, w.fault (Call.osCreate name) = none
        ∧ resolve w.fs w.superuser w.cwd name = some k
        ∧ Creatable w.fs w.superuser w.umask k p
        ∧ os.Create name w = (Except.ok (freshHandle w.handles),
            { w.record (Call.osCreate name) none with
              fs := w.fs.set k (Node.file [] p),
              handles := (freshHandle w.handles, Stream.file name k 0 true) :: w.handles })) := by
  unfold os.Create
  simp only
  split
  · exact Or.inl ⟨_, rfl⟩
  · split
    · exact Or.inl ⟨_, rfl⟩
    · split
      · exact Or.inl ⟨_, rfl⟩
      · next hf _ k hr _ c p hn =>
        split
        · next hp => exact Or.inr ⟨k, p, hf, hr, Or.inl ⟨c, hn, hp.1, hp.2⟩, rfl⟩
        · exact Or.inl ⟨_, rfl⟩
      · next hf _ k hr _ hn =>
        split
        · next hk =>
          split
          · next hw => exact Or.inr ⟨k, _, hf, hr, Or.inr ⟨hn, hk.1, hw, rfl⟩, rfl⟩
          · exact Or.inl ⟨_, rfl⟩
        · exact Or.inl ⟨_, rfl⟩

theorem Copy_cases (dst src : Nat) (w : World) :
    (∃ m, io.Copy dst src w = (Except.error m, w.record (Call.ioCopy dst src) (some m)))
    ∨ (∃ all name k pos old p, readAll w src = Except.ok all
        ∧ findHandle w.handles dst = some (Stream.file name k pos true)
        ∧ w.fs.node k = some (Node.file old p)
        ∧ io.Copy dst src w =
          (match w.fault (Call.ioCopy dst src) with
            | some e => Except.error e
            | none => Except.ok
                (if (w.fault (Call.ioCopy dst src)).isSome
                  then all.take w.partialCopy else all).length,
           World.record
            { w with
              fs := w.fs.set k (Node.file (writeAt old pos
                (if (w.fault (Call.ioCopy dst src)).isSome then all.take w.partialCopy else all)) p),
              handles := setHandle (advanceHandle w.handles src
                  (if (w.fault (Call.ioCopy dst src)).isSome
                    then all.take w.partialCopy else all).length) dst
                (Stream.file name k (pos + (if (w.fault (Call.ioCopy dst src)).isSome
                  then all.take w.partialCopy else all).length) true) }
            (Call.ioCopy dst src) (w.fault (Call.ioCopy dst src)))) := by
  unfold io.Copy
  simp only
  split
  · exact Or.inl ⟨_, rfl⟩
  · next all hr =>
    split
    · next name k pos hd =>
      split
      · next old p hn => exact Or.inr ⟨all, name, k, pos, old, p, hr, hd, hn, rfl⟩
      · exact Or.inl ⟨_, rfl⟩
    · exact Or.inl ⟨_, rfl⟩

/-! ## The ways through `GetImage` -/

theorem save_cases (reader : Nat) (outputPath : String) (w : World) :
    (∃ m w1, os.MkdirAll (filepath.Dir outputPath) os.ModePerm w = (some m, w1)
      ∧ GetImage.save reader outputPath w = (some ("error creating directory: " ++ m), w1))
    ∨ (∃ w1 m w2, os.MkdirAll (filepath.Dir outputPath) os.ModePerm w = (none, w1)
      ∧ os.Create outputPath w1 = (Except.error m, w2)
      ∧ GetImage.save reader outputPath w = (some ("error creating the file: " ++ m), w2))
    ∨ (∃ w1 f w2 m w3, os.MkdirAll (filepath.Dir outputPath) os.ModePerm w = (none, w1)
      ∧ os.Create outputPath w1 = (Except.ok f, w2)
      ∧ io.Copy f reader w2 = (Except.error m, w3)
      ∧ GetImage.save reader outputPath w
          = (some ("error saving the image: " ++ m), (close f w3).2))
    ∨ (∃ w1 f w2 n w3, os.MkdirAll (filepath.Dir outputPath) os.ModePerm w = (none, w1)
      ∧ os.Create outputPath w1 = (Except.ok f, w2)
      ∧ io.Copy f reader w2 = (Except.ok n, w3)
      ∧ GetImage.save reader outputPath w
          = (none, (close f (log.Printf
              ("Image downloaded/saved as \x27" ++ outputPath ++ "\x27\n") w3)).2)) := by
  unfold GetImage.save
  simp only
  split
  · next m w1 h1 => exact Or.inl ⟨m, w1, h1, rfl⟩
  · next w1 h1 =>
    split
    · next m w2 h2 => exact Or.inr (Or.inl ⟨w1, m, w2, h1, h2, rfl⟩)
    · next f w2 h2 =>
      split
      · next m w3 h3 => exact Or.inr (Or.inr (Or.inl ⟨w1, f, w2, m, w3, h1, h2, h3, rfl⟩))
      · next n w3 h3 => exact Or.inr (Or.inr (Or.inr ⟨w1, f, w2, n, w3, h1, h2, h3, rfl⟩))

theorem GetImage_cases (sourceURL localPath outputPath : String) (w : World) :
    (sourceURL = "" ∧ localPath = ""
      ∧ GetImage sourceURL localPath outputPath w
          = (some "both source URL and local path are empty", w))
    ∨ (∃ m w1, sourceURL ≠ "" ∧ http.Get sourceURL w = (Except.error m, w1)
      ∧ GetImage sourceURL localPath outputPath w
          = (some ("error making the request: " ++ m), w1))
    ∨ (∃ response w1, sourceURL ≠ "" ∧ http.Get sourceURL w = (Except.ok response, w1)
      ∧ response.StatusCode ≠ 200
      ∧ GetImage sourceURL localPath outputPath w
          = (some ("error: status code " ++ toString response.StatusCode),
              (close response.Body w1).2))
    ∨ (∃ response w1, sourceURL ≠ "" ∧ http.Get sourceURL w = (Except.ok response, w1)
      ∧ response.StatusCode = 200
      ∧ GetImage sourceURL localPath outputPath w
          = ((GetImage.save response.Body outputPath w1).1,
              (close response.Body (GetImage.save response.Body outputPath w1).2).2))
    ∨ (∃ m w1, sourceURL = "" ∧ localPath ≠ "" ∧ os.Open localPath w = (Except.error m, w1)
      ∧ GetImage sourceURL localPath outputPath w
          = (some ("error opening the local file: " ++ m), w1))
    ∨ (∃ file w1, sourceURL = "" ∧ localPath ≠ "" ∧ os.Open localPath w = (Except.ok file, w1)
      ∧ GetImage sourceURL localPath outputPath w
          = ((GetImage.save file outputPath w1).1,
              (close file (GetImage.save file outputPath w1).2).2)) := by
  unfold GetImage
  split
  · next hu =>
    split
    · next m w1 h1 => exact Or.inr (Or.inl ⟨m, w1, hu, h1, rfl⟩)
    · next r w1 h1 =>
      by_cases hs : r.StatusCode = 200
      · refine Or.inr (Or.inr (Or.inr (Or.inl ⟨r, w1, hu, h1, hs, ?_⟩)))
        simp [hs, http.StatusOK]
      · refine Or.inr (Or.inr (Or.inl ⟨r, w1, hu, h1, hs, ?_⟩))
        simp [hs, http.StatusOK]
  · next hu =>
    have hu2 : sourceURL = "" := not_not.mp hu
    split
    · next hl =>
      split
      · next m w1 h1 =>
        exact Or.inr (Or.inr (Or.inr (Or.inr (Or.inl ⟨m, w1, hu2, hl, h1, rfl⟩))))
      · next f w1 h1 =>
        exact Or.inr (Or.inr (Or.inr (Or.inr (Or.inr ⟨f, w1, hu2, hl, h1, rfl⟩))))
    · next hl => exact Or.inl ⟨hu2, not_not.mp hl, rfl⟩

/-! ## Traces -/

theorem newEvents_append (w w' : World) (evs : List Event) (h : w'.trace = w.trace ++ evs) :
    newEvents w w' = evs := by
  simp [newEvents, h]

theorem MkdirAll_trace {path : String} {perm : Mode} {w w1 : World} {r : Option String}
    (h : os.MkdirAll path perm w = (r, w1)) :
    w1.trace = w.trace ++ [⟨Call.osMkdirAll path, r⟩] := by
  rcases MkdirAll_cases path perm w with ⟨m, hm⟩ | ⟨r0, fs, _, _, _, hm⟩ <;>
    · rw [hm] at h
      cases h
      rfl

theorem Create_trace {name : String} {w w1 : World} {r : Except String Nat}
    (h : os.Create name w = (r, w1)) :
    w1.trace = w.trace ++ [⟨Call.osCreate name,
      match r with
      | Except.error m => some m
      | Except.ok _ => none⟩] := by
  rcases Create_cases name w with ⟨m, hm⟩ | ⟨k, p, _, _, _, hm⟩ <;>
    · rw [hm] at h
      cases h
      rfl

theorem Copy_trace {dst src : Nat} {w w1 : World} {r : Except String Nat}
    (h : io.Copy dst src w = (r, w1)) :
    w1.trace = w.trace ++ [⟨Call.ioCopy dst src,
      match r with
      | Except.error m => some m
      | Except.ok _ => none⟩] := by
  rcases Copy_cases dst src w with ⟨m, hm⟩ | ⟨all, name, k, pos, old, p, _, _, _, hm⟩
  · rw [hm] at h
    cases h
    rfl
  · cases hf : w.fault (Call.ioCopy dst src) <;>
      · rw [hf] at hm
        simp only at hm
        rw [hm] at h
        cases h
        rfl

theorem Open_trace {name : String} {w w1 : World} {r : Except String Nat}
    (h : os.Open name w = (r, w1)) :
    w1.trace = w.trace ++ [⟨Call.osOpen name,
      match r with
      | Except.error m => some m
      | Except.ok _ => none⟩] := by
  rcases Open_cases name w with ⟨m, hm⟩ | ⟨k, nd, _, _, _, _, hm⟩ <;>
    · rw [hm] at h
      cases h
      rfl

theorem Get_trace {url : String} {w w1 : World} {r : Except String Response}
    (h : http.Get url w = (r, w1)) :
    w1.trace = w.trace ++ [⟨Call.httpGet url,
      match r with
      | Except.error m => some m
      | Except.ok _ => none⟩] := by
  cases hn : w.net url with
  | failed e =>
    rw [Get_failed hn] at h
    cases h
    rfl
  | response status body =>
    rw [Get_response hn] at h
    cases h
    rfl

theorem close_trace (h : Nat) (w : World) :
    (close h w).2.trace = w.trace ++ [⟨Call.close h, (close h w).1⟩] := rfl

theorem Printf_trace (line : String) (w : World) : (log.Printf line w).trace = w.trace := rfl

theorem save_trace (reader : Nat) (outputPath : String) (w : World) :
    ∃ evs, (GetImage.save reader outputPath w).2.trace = w.trace ++ evs
      ∧ SaveShape reader outputPath (GetImage.save reader outputPath w).1 evs := by
  rcases save_cases reader outputPath w with ⟨m, w1, h1, hs⟩ | ⟨w1, m, w2, h1, h2, hs⟩
      | ⟨w1, f, w2, m, w3, h1, h2, h3, hs⟩ | ⟨w1, f, w2, n, w3, h1, h2, h3, hs⟩
  · refine ⟨_, ?_, Or.inl ⟨m, by rw [hs], rfl⟩⟩
    rw [hs]
    exact MkdirAll_trace h1
  · refine ⟨_, ?_, Or.inr (Or.inl ⟨m, by rw [hs], rfl⟩)⟩
    rw [hs]
    simp only
    rw [Create_trace h2, MkdirAll_trace h1]
    simp
  · refine ⟨_, ?_, Or.inr (Or.inr (Or.inl ⟨f, m, (close f w3).1, by rw [hs], rfl⟩))⟩
    rw [hs]
    simp only
    rw [close_trace, Copy_trace h3, Create_trace h2, MkdirAll_trace h1]
    simp
  · refine ⟨_, ?_, Or.inr (Or.inr (Or.inr ⟨f, (close f (log.Printf
      ("Image downloaded/saved as \x27" ++ outputPath ++ "\x27\n") w3)).1, by rw [hs], rfl⟩))⟩
    rw [hs]
    simp only
    rw [close_trace, Printf_trace, Copy_trace h3, Create_trace h2, MkdirAll_trace h1]
    simp

theorem GetImage_trace (sourceURL localPath outputPath : String) (w : World) :
    ∃ evs, (GetImage sourceURL localPath outputPath w).2.trace = w.trace ++ evs
      ∧ RunShape sourceURL localPath outputPath w
          (GetImage sourceURL localPath outputPath w).1 evs := by
  rcases GetImage_cases sourceURL localPath outputPath w with ⟨hu, hl, hg⟩ | ⟨m, w1, hu, h1, hg⟩
      | ⟨r, w1, hu, h1, hs, hg⟩ | ⟨r, w1, hu, h1, hs, hg⟩ | ⟨m, w1, hu, hl, h1, hg⟩
      | ⟨f, w1, hu, hl, h1, hg⟩
  · exact ⟨[], by rw [hg]; simp, Or.inl ⟨hu, hl, by rw [hg], rfl⟩⟩
  · refine ⟨_, ?_, Or.inr (Or.inl ⟨hu, m, by rw [hg], rfl⟩)⟩
    rw [hg]
    exact Get_trace h1
  · have hb : ∃ body, w.net sourceURL = HttpResult.response r.StatusCode body := by
      cases hn : w.net sourceURL with
      | failed e =>
        rw [Get_failed hn] at h1
        cases h1
      | response status body =>
        rw [Get_response hn] at h1
        cases h1
        exact ⟨body, rfl⟩
    obtain ⟨body, hn⟩ := hb
    refine ⟨[⟨Call.httpGet sourceURL, none⟩, ⟨Call.close r.Body, (close r.Body w1).1⟩], ?_,
      Or.inr (Or.inr (Or.inl ⟨hu, r.StatusCode, body, r.Body, _, hn, hs, by rw [hg], rfl⟩))⟩
    rw [hg]
    simp only
    rw [close_trace, Get_trace h1]
    simp
  · obtain ⟨sevs, ht, hshape⟩ := save_trace r.Body outputPath w1
    refine ⟨_, ?_, Or.inr (Or.inr (Or.inr (Or.inl ⟨hu, r.Body,
      (close r.Body (GetImage.save r.Body outputPath w1).2).1, sevs,
      by rw [hg]; exact hshape, rfl⟩)))⟩
    rw [hg]
    simp only
    rw [close_trace, ht, Get_trace h1]
    simp
  · refine ⟨_, ?_, Or.inr (Or.inr (Or.inr (Or.inr (Or.inl ⟨hu, hl, m, by rw [hg], rfl⟩))))⟩
    rw [hg]
    exact Open_trace h1
  · obtain ⟨sevs, ht, hshape⟩ := save_trace f outputPath w1
    refine ⟨_, ?_, Or.inr (Or.inr (Or.inr (Or.inr (Or.inr ⟨hu, hl, f,
      (close f (GetImage.save f outputPath w1).2).1, sevs,
      by rw [hg]; exact hshape, rfl⟩))))⟩
    rw [hg]
    simp only
    rw [close_trace, ht, Open_trace h1]
    simp

/-! ## What every collaborator leaves alone -/

theorem SameEnv.rfl (w : World) : SameEnv w w :=
  ⟨Eq.refl _, Eq.refl _, Eq.refl _, Eq.refl _, Eq.refl _, Eq.refl _⟩

theorem SameEnv.trans {a b c : World} (h1 : SameEnv a b) (h2 : SameEnv b c) : SameEnv a c := by
  obtain ⟨a1, a2, a3, a4, a5, a6⟩ := h1
  obtain ⟨b1, b2, b3, b4, b5, b6⟩ := h2
  exact ⟨b1.trans a1, b2.trans a2, b3.trans a3, b4.trans a4, b5.trans a5, b6.trans a6⟩

theorem Get_env {url : String} {w w1 : World} {r : Except String Response}
    (h : http.Get url w = (r, w1)) : SameEnv w w1 := by
  cases hn : w.net url with
  | failed e =>
    rw [Get_failed hn] at h
    cases h
    exact SameEnv.rfl w
  | response status body =>
    rw [Get_response hn] at h
    cases h
    exact SameEnv.rfl w

theorem Open_env {name : String} {w w1 : World} {r : Except String Nat}
    (h : os.Open name w = (r, w1)) : SameEnv w w1 := by
  rcases Open_cases name w with ⟨m, hm⟩ | ⟨k, nd, _, _, _, _, hm⟩ <;>
    · rw [hm] at h
      cases h
      exact SameEnv.rfl w

theorem MkdirAll_env {path : String} {perm : Mode} {w w1 : World} {r : Option String}
    (h : os.MkdirAll path perm w = (r, w1)) : SameEnv w w1 := by
  rcases MkdirAll_cases path perm w with ⟨m, hm⟩ | ⟨r0, fs, _, _, _, hm⟩ <;>
    · rw [hm] at h
      cases h
      exact SameEnv.rfl w

theorem Create_env {name : String} {w w1 : World} {r : Except String Nat}
    (h : os.Create name w = (r, w1)) : SameEnv w w1 := by
  rcases Create_cases name w with ⟨m, hm⟩ | ⟨k, p, _, _, _, hm⟩ <;>
    · rw [hm] at h
      cases h
      exact SameEnv.rfl w

theorem Copy_env {dst src : Nat} {w w1 : World} {r : Except String Nat}
    (h : io.Copy dst src w = (r, w1)) : SameEnv w w1 := by
  rcases Copy_cases dst src w with ⟨m, hm⟩ | ⟨all, name, k, pos, old, p, _, _, _, hm⟩ <;>
    · rw [hm] at h
      cases h
      exact SameEnv.rfl w

theorem close_env (h : Nat) (w : World) : SameEnv w (close h w).2 := SameEnv.rfl w

theorem Printf_env (line : String) (w : World) : SameEnv w (log.Printf line w) := SameEnv.rfl w

theorem save_env (reader : Nat) (outputPath : String) (w : World) :
    SameEnv w (GetImage.save reader outputPath w).2 := by
  rcases save_cases reader outputPath w with ⟨m, w1, h1, hs⟩ | ⟨w1, m, w2, h1, h2, hs⟩
      | ⟨w1, f, w2, m, w3, h1, h2, h3, hs⟩ | ⟨w1, f, w2, n, w3, h1, h2, h3, hs⟩
  · rw [hs]
    exact MkdirAll_env h1
  · rw [hs]
    exact (MkdirAll_env h1).trans (Create_env h2)
  · rw [hs]
    exact ((MkdirAll_env h1).trans (Create_env h2)).trans ((Copy_env h3).trans (close_env f w3))
  · rw [hs]
    exact ((MkdirAll_env h1).trans (Create_env h2)).trans
      ((Copy_env h3).trans ((Printf_env _ w3).trans (close_env f _)))

theorem GetImage_env (sourceURL localPath outputPath : String) (w : World) :
    SameEnv w (GetImage sourceURL localPath outputPath w).2 := by
  rcases GetImage_cases sourceURL localPath outputPath w with ⟨hu, hl, hg⟩ | ⟨m, w1, hu, h1, hg⟩
      | ⟨r, w1, hu, h1, hs, hg⟩ | ⟨r, w1, hu, h1, hs, hg⟩ | ⟨m, w1, hu, hl, h1, hg⟩
      | ⟨f, w1, hu, hl, h1, hg⟩
  · rw [hg]
    exact SameEnv.rfl w
  · rw [hg]
    exact Get_env h1
  · rw [hg]
    exact (Get_env h1).trans (close_env _ w1)
  · rw [hg]
    exact (Get_env h1).trans ((save_env _ _ w1).trans (close_env _ _))
  · rw [hg]
    exact Open_env h1
  · rw [hg]
    exact (Open_env h1).trans ((save_env _ _ w1).trans (close_env _ _))

/-! ## Handles -/

theorem MkdirAll_handles {path : String} {perm : Mode} {w w1 : World} {r : Option String}
    (h : os.MkdirAll path perm w = (r, w1)) : w1.handles = w.handles := by
  rcases MkdirAll_cases path perm w with ⟨m, hm⟩ | ⟨r0, fs, _, _, _, hm⟩ <;>
    · rw [hm] at h
      cases h
      rfl

theorem Create_handles_error {name : String} {w w1 : World} {m : String}
    (h : os.Create name w = (Except.error m, w1)) : w1.handles = w.handles := by
  rcases Create_cases name w with ⟨m, hm⟩ | ⟨k, p, _, _, _, hm⟩
  · rw [hm] at h
    cases h
    rfl
  · rw [hm] at h
    cases h

theorem Create_handles_ok {name : String} {w w1 : World} {f : Nat}
    (h : os.Create name w = (Except.ok f, w1)) :
    f = freshHandle w.handles ∧ ∃ s, w1.handles = (f, s) :: w.handles := by
  rcases Create_cases name w with ⟨m, hm⟩ | ⟨k, p, _, _, _, hm⟩
  · rw [hm] at h
    cases h
  · rw [hm] at h
    cases h
    exact ⟨rfl, _, rfl⟩

theorem Copy_handles {dst src : Nat} {w w1 : World} {r : Except String Nat}
    (h : io.Copy dst src w = (r, w1)) :
    dropHandle (dropHandle w1.handles dst) src = dropHandle (dropHandle w.handles dst) src := by
  rcases Copy_cases dst src w with ⟨m, hm⟩ | ⟨all, name, k, pos, old, p, _, _, _, hm⟩
  · rw [hm] at h
    cases h
    rfl
  · rw [hm] at h
    cases h
    simp only [World.record, dropHandle_setHandle]
    rw [dropHandle_comm, dropHandle_advanceHandle, dropHandle_comm]

theorem close_handles (h : Nat) (w : World) :
    (close h w).2.handles = dropHandle w.handles h := rfl

theorem save_handles (reader : Nat) (outputPath : String) (w : World) :
    dropHandle (GetImage.save reader outputPath w).2.handles reader
      = dropHandle w.handles reader := by
  rcases save_cases reader outputPath w with ⟨m, w1, h1, hs⟩ | ⟨w1, m, w2, h1, h2, hs⟩
      | ⟨w1, f, w2, m, w3, h1, h2, h3, hs⟩ | ⟨w1, f, w2, n, w3, h1, h2, h3, hs⟩
  · rw [hs]
    simp only
    rw [MkdirAll_handles h1]
  · rw [hs]
    simp only
    rw [Create_handles_error h2, MkdirAll_handles h1]
  · rw [hs]
    obtain ⟨hf, s, hh⟩ := Create_handles_ok h2
    simp only
    rw [close_handles, Copy_handles h3, hh, dropHandle_cons_self, hf, dropHandle_fresh,
      MkdirAll_handles h1]
  · rw [hs]
    obtain ⟨hf, s, hh⟩ := Create_handles_ok h2
    simp only
    rw [close_handles]
    show dropHandle (dropHandle w3.handles f) reader = _
    rw [Copy_handles h3, hh, dropHandle_cons_self, hf, dropHandle_fresh, MkdirAll_handles h1]

theorem GetImage_handles (sourceURL localPath outputPath : String) (w : World) :
    (GetImage sourceURL localPath outputPath w).2.handles = w.handles := by
  rcases GetImage_cases sourceURL localPath outputPath w with ⟨hu, hl, hg⟩ | ⟨m, w1, hu, h1, hg⟩
      | ⟨r, w1, hu, h1, hs, hg⟩ | ⟨r, w1, hu, h1, hs, hg⟩ | ⟨m, w1, hu, hl, h1, hg⟩
      | ⟨f, w1, hu, hl, h1, hg⟩
  · rw [hg]
  · rw [hg]
    cases hn : w.net sourceURL with
    | failed e =>
      rw [Get_failed hn] at h1
      cases h1
      rfl
    | response status body =>
      rw [Get_response hn] at h1
      cases h1
  · rw [hg]
    cases hn : w.net sourceURL with
    | failed e =>
      rw [Get_failed hn] at h1
      cases h1
    | response status body =>
      rw [Get_response hn] at h1
      cases h1
      simp only [close_handles, World.record, dropHandle_cons_self, dropHandle_fresh]
  · rw [hg]
    cases hn : w.net sourceURL with
    | failed e =>
      rw [Get_failed hn] at h1
      cases h1
    | response status body =>
      rw [Get_response hn] at h1
      cases h1
      simp only [close_handles, save_handles, World.record, dropHandle_cons_self,
        dropHandle_fresh]
  · rw [hg]
    rcases Open_cases localPath w with ⟨m, hm⟩ | ⟨k, nd, _, _, _, _, hm⟩
    · rw [hm] at h1
      cases h1
      rfl
    · rw [hm] at h1
      cases h1
  · rw [hg]
    rcases Open_cases localPath w with ⟨m, hm⟩ | ⟨k, nd, _, _, _, _, hm⟩
    · rw [hm] at h1
      cases h1
    · rw [hm] at h1
      cases h1
      simp only [close_handles, save_handles, World.record, dropHandle_cons_self,
        dropHandle_fresh]

/-! ## The tree -/

theorem node_set_self (fs : FS) {k : Key} (n : Node) (hk : k ≠ []) :
    (fs.set k n).node k = some n := by
  simp [FS.node, FS.set, FS.get, hk]

theorem node_set_other (fs : FS) {k k' : Key} (n : Node) (h : k ≠ k') :
    (fs.set k n).node k' = fs.node k' := by
  simp [FS.node, FS.set, FS.get, h]

theorem node_root (fs : FS) : fs.node [] = some (Node.dir rootPerm) := by
  simp [FS.node]

theorem isDir_root (fs : FS) : fs.isDir [] = true := by
  simp [FS.isDir, FS.node]

theorem canSearch_root (fs : FS) (su : Bool) : fs.canSearch su [] = true := by
  have h : rootPerm.bits.x = true := by decide
  simp [FS.canSearch, FS.node, Perm.searchable, h]

theorem ne_nil_of_not_isDir {fs : FS} {k : Key} (h : fs.isDir k = false) : k ≠ [] := by
  intro hk
  rw [hk, isDir_root] at h
  cases h

theorem isDir_iff {fs : FS} {k : Key} :
    fs.isDir k = true ↔ ∃ p, fs.node k = some (Node.dir p) := by
  unfold FS.isDir
  split
  · next p h => simp [h]
  · next h =>
    constructor
    · intro h2
      cases h2
    · rintro ⟨p, h2⟩
      exact absurd h2 (h p)

theorem canSearch_iff {fs : FS} {su : Bool} {k : Key} :
    fs.canSearch su k = true ↔ ∃ p, fs.node k = some (Node.dir p) ∧ p.searchable su = true := by
  unfold FS.canSearch
  split
  · next p h => simp [h]
  · next h =>
    constructor
    · intro h2
      cases h2
    · rintro ⟨p, h2, _⟩
      exact absurd h2 (h p)

theorem canWrite_iff {fs : FS} {su : Bool} {k : Key} :
    fs.canWrite su k = true ↔ ∃ p, fs.node k = some (Node.dir p) ∧ p.writable su = true := by
  unfold FS.canWrite
  split
  · next p h => simp [h]
  · next h =>
    constructor
    · intro h2
      cases h2
    · rintro ⟨p, h2, _⟩
      exact absurd h2 (h p)

theorem isDir_of_canSearch {fs : FS} {su : Bool} {k : Key} (h : fs.canSearch su k = true) :
    fs.isDir k = true := by
  obtain ⟨p, hp, _⟩ := canSearch_iff.mp h
  exact isDir_iff.mpr ⟨p, hp⟩

theorem isDir_of_canWrite {fs : FS} {su : Bool} {k : Key} (h : fs.canWrite su k = true) :
    fs.isDir k = true := by
  obtain ⟨p, hp, _⟩ := canWrite_iff.mp h
  exact isDir_iff.mpr ⟨p, hp⟩

/-- Two trees with the same directories, permissions included, at a key. -/
theorem dirs_eq_of_node {fs fs' : FS} {k : Key}
    (h : fs'.node k = fs.node k ∨ (fs.isDir k = false ∧ fs'.isDir k = false)) (su : Bool) :
    fs'.isDir k = fs.isDir k ∧ fs'.canSearch su k = fs.canSearch su k
      ∧ fs'.canWrite su k = fs.canWrite su k := by
  rcases h with h | ⟨h1, h2⟩
  · simp [FS.isDir, FS.canSearch, FS.canWrite, h]
  · refine ⟨by rw [h1, h2], ?_, ?_⟩
    · cases hs : fs.canSearch su k
      · cases hs' : fs'.canSearch su k
        · rfl
        · rw [isDir_of_canSearch hs'] at h2
          cases h2
      · rw [isDir_of_canSearch hs] at h1
        cases h1
    · cases hs : fs.canWrite su k
      · cases hs' : fs'.canWrite su k
        · rfl
        · rw [isDir_of_canWrite hs'] at h2
          cases h2
      · rw [isDir_of_canWrite hs] at h1
        cases h1

/-- Putting a regular file where there is no directory changes no directory. -/
theorem dirs_set_file (fs : FS) {k : Key} (c : Bytes) (p : Perm) (h : fs.isDir k = false)
    (su : Bool) (k' : Key) :
    (fs.set k (Node.file c p)).isDir k' = fs.isDir k'
      ∧ (fs.set k (Node.file c p)).canSearch su k' = fs.canSearch su k'
      ∧ (fs.set k (Node.file c p)).canWrite su k' = fs.canWrite su k' := by
  apply dirs_eq_of_node
  by_cases hk : k = k'
  · subst hk
    right
    refine ⟨h, ?_⟩
    simp [FS.isDir, node_set_self fs _ (ne_nil_of_not_isDir h)]
  · left
    exact node_set_other fs _ hk

theorem isDir_set_file (fs : FS) {k : Key} (c : Bytes) (p : Perm) (h : fs.isDir k = false)
    (k' : Key) : (fs.set k (Node.file c p)).isDir k' = fs.isDir k' :=
  (dirs_set_file fs c p h false k').1

theorem canSearch_set_file (fs : FS) {k : Key} (c : Bytes) (p : Perm) (h : fs.isDir k = false)
    (su : Bool) (k' : Key) :
    (fs.set k (Node.file c p)).canSearch su k' = fs.canSearch su k' :=
  (dirs_set_file fs c p h su k').2.1

theorem canWrite_set_file (fs : FS) {k : Key} (c : Bytes) (p : Perm) (h : fs.isDir k = false)
    (su : Bool) (k' : Key) :
    (fs.set k (Node.file c p)).canWrite su k' = fs.canWrite su k' :=
  (dirs_set_file fs c p h su k').2.2

theorem walk_congr {fs fs' : FS} {su : Bool}
    (h : ∀ k, fs'.canSearch su k = fs.canSearch su k) (cur : Key)
    (comps : List String) : walk fs' su cur comps = walk fs su cur comps := by
  induction comps generalizing cur with
  | nil => rfl
  | cons c rest ih =>
    simp only [walk, canLookup, h cur, ih]

theorem walk_mono {fs fs' : FS} {su : Bool}
    (h : ∀ k, fs.canSearch su k = true → fs'.canSearch su k = true) (cur : Key)
    (comps : List String) (r : Key) (hw : walk fs su cur comps = some r) :
    walk fs' su cur comps = some r := by
  induction comps generalizing cur with
  | nil => exact hw
  | cons c rest ih =>
    simp only [walk] at hw ⊢
    by_cases hd : canLookup fs su cur c
    · rw [if_pos hd] at hw
      have hd' : canLookup fs' su cur c := ⟨h cur hd.1, hd.2⟩
      rw [if_pos hd']
      split
      · next hc =>
        rw [if_pos hc] at hw
        exact ih _ hw
      · next hc =>
        rw [if_neg hc] at hw
        split
        · next hc2 =>
          rw [if_pos hc2] at hw
          exact ih _ hw
        · next hc2 =>
          rw [if_neg hc2] at hw
          exact ih _ hw
    · rw [if_neg hd] at hw
      cases hw

/-- What `mkdirWalk` does to the tree, whether it ends in an error or not: every
    node stays, and a node that is new is a directory with the permissions
    `made`. -/
theorem mkdirWalk_node (su : Bool) (made : Perm) (fs : FS) (cur : Key)
    (done comps : List String) (k : Key) :
    (mkdirWalk su made fs cur done comps).2.node k = fs.node k
      ∨ (fs.node k = none
        ∧ (mkdirWalk su made fs cur done comps).2.node k = some (Node.dir made)) := by
  induction comps generalizing fs cur done with
  | nil => exact Or.inl rfl
  | cons c rest ih =>
    simp only [mkdirWalk]
    split
    · exact Or.inl rfl
    · split
      · split
        · exact ih _ _ _
        · split
          · exact ih _ _ _
          · split
            · exact ih _ _ _
            · exact Or.inl rfl
            · next hnone =>
              split
              · rcases ih (fs.set (cur ++ [c]) (Node.dir made)) (cur ++ [c]) (done ++ [c])
                  with h1 | ⟨h1, h2⟩
                · by_cases hk : cur ++ [c] = k
                  · subst hk
                    right
                    refine ⟨hnone, ?_⟩
                    rw [h1]
                    exact node_set_self fs _ (by simp)
                  · left
                    rw [h1]
                    exact node_set_other fs _ hk
                · by_cases hk : cur ++ [c] = k
                  · subst hk
                    exact Or.inr ⟨hnone, h2⟩
                  · right
                    rw [node_set_other fs _ hk] at h1
                    exact ⟨h1, h2⟩
              · exact Or.inl rfl
      · exact Or.inl rfl

theorem mkdirWalk_keeps (su : Bool) (made : Perm) (fs : FS) (cur : Key)
    (done comps : List String) {k : Key} {n : Node} (hn : fs.node k = some n) :
    (mkdirWalk su made fs cur done comps).2.node k = some n := by
  rcases mkdirWalk_node su made fs cur done comps k with h1 | ⟨h1, _⟩
  · rw [h1, hn]
  · rw [hn] at h1
    cases h1

theorem mkdirWalk_isDir (su : Bool) (made : Perm) (fs : FS) (cur : Key)
    (done comps : List String) {k : Key} (hd : fs.isDir k = true) :
    (mkdirWalk su made fs cur done comps).2.isDir k = true := by
  obtain ⟨p, hp⟩ := isDir_iff.mp hd
  exact isDir_iff.mpr ⟨p, mkdirWalk_keeps su made fs cur done comps hp⟩

theorem mkdirWalk_canSearch (su : Bool) (made : Perm) (fs : FS) (cur : Key)
    (done comps : List String) {k : Key} (hd : fs.canSearch su k = true) :
    (mkdirWalk su made fs cur done comps).2.canSearch su k = true := by
  obtain ⟨p, hp, hs⟩ := canSearch_iff.mp hd
  exact canSearch_iff.mpr ⟨p, mkdirWalk_keeps su made fs cur done comps hp, hs⟩

theorem mkdirWalk_file (su : Bool) (made : Perm) (fs : FS) (cur : Key)
    (done comps : List String) {k : Key} {c : Bytes} {p : Perm}
    (hn : (mkdirWalk su made fs cur done comps).2.node k = some (Node.file c p)) :
    fs.node k = some (Node.file c p) := by
  rcases mkdirWalk_node su made fs cur done comps k with h1 | ⟨_, h2⟩
  · rw [← h1, hn]
  · rw [hn] at h2
    cases h2

theorem isDir_set_dir (fs : FS) (k : Key) (p : Perm) : (fs.set k (Node.dir p)).isDir k = true := by
  by_cases hk : k = []
  · rw [hk]
    exact isDir_root _
  · exact isDir_iff.mpr ⟨p, node_set_self fs _ hk⟩

theorem isDir_set_dir_mono (fs : FS) (k : Key) (p : Perm) {k' : Key} (h : fs.isDir k' = true) :
    (fs.set k (Node.dir p)).isDir k' = true := by
  by_cases hk : k = k'
  · subst hk
    exact isDir_set_dir fs k p
  · obtain ⟨q, hq⟩ := isDir_iff.mp h
    exact isDir_iff.mpr ⟨q, (node_set_other fs _ hk).trans hq⟩

/-- Making a directory next to a directory leaves the latter as it is. -/
theorem canSearch_set_other (fs : FS) {k k' : Key} (n : Node) (su : Bool) (hk : k ≠ k') :
    (fs.set k n).canSearch su k' = fs.canSearch su k' := by
  simp only [FS.canSearch, node_set_other fs n hk]

theorem canWrite_set_other (fs : FS) {k k' : Key} (n : Node) (su : Bool) (hk : k ≠ k') :
    (fs.set k n).canWrite su k' = fs.canWrite su k' := by
  simp only [FS.canWrite, node_set_other fs n hk]

theorem append_singleton_ne (cur : Key) (c : String) : cur ++ [c] ≠ cur := by
  intro h
  have := congrArg List.length h
  simp at this

/-- Once `mkdirWalk` has run without an error, running it again changes nothing,
    also in a tree that has every directory of the first result, as
    searchable as there. -/
theorem mkdirWalk_stable {su : Bool} {made : Perm} {fs fs' : FS} {cur : Key}
    {done comps : List String}
    (h : mkdirWalk su made fs cur done comps = (none, fs')) (fs2 : FS)
    (h2 : ∀ k, fs'.isDir k = true → fs2.isDir k = true)
    (h3 : ∀ k, fs'.canSearch su k = true → fs2.canSearch su k = true) :
    mkdirWalk su made fs2 cur done comps = (none, fs2) := by
  induction comps generalizing fs cur done with
  | nil => rfl
  | cons c rest ih =>
    simp only [mkdirWalk] at h ⊢
    split at h
    · cases h
    · next hlen =>
      rw [if_neg hlen]
      split at h
      · next hcur =>
        have hfs' : ∀ fs0 cur0 done0, fs' = (mkdirWalk su made fs0 cur0 done0 rest).2 →
            fs0.canSearch su cur = true → canLookup fs2 su cur c := by
          intro fs0 cur0 done0 he h0
          refine ⟨h3 _ ?_, hcur.2⟩
          rw [he]
          exact mkdirWalk_canSearch su made fs0 cur0 done0 rest h0
        split at h
        · next hc =>
          rw [if_pos (hfs' _ _ _ (by rw [h]) hcur.1), if_pos hc]
          exact ih h
        · next hc =>
          split at h
          · next hc2 =>
            rw [if_pos (hfs' _ _ _ (by rw [h]) hcur.1), if_neg hc, if_pos hc2]
            exact ih h
          · next hc2 =>
            split at h
            · next p hn =>
              rw [if_pos (hfs' _ _ _ (by rw [h]) hcur.1), if_neg hc, if_neg hc2]
              have hd : fs2.isDir (cur ++ [c]) = true := by
                apply h2
                have := mkdirWalk_isDir su made fs (cur ++ [c]) (done ++ [c]) rest
                  (isDir_iff.mpr ⟨p, hn⟩)
                rw [h] at this
                exact this
              obtain ⟨q, hq⟩ := isDir_iff.mp hd
              rw [hq]
              exact ih h
            · cases h
            · next hn =>
              split at h
              · have hcs : (fs.set (cur ++ [c]) (Node.dir made)).canSearch su cur = true := by
                  rw [canSearch_set_other fs _ su (append_singleton_ne cur c)]
                  exact hcur.1
                rw [if_pos (hfs' _ _ _ (by rw [h]) hcs), if_neg hc, if_neg hc2]
                have hd : fs2.isDir (cur ++ [c]) = true := by
                  apply h2
                  have := mkdirWalk_isDir su made (fs.set (cur ++ [c]) (Node.dir made))
                    (cur ++ [c]) (done ++ [c]) rest (isDir_set_dir fs _ made)
                  rw [h] at this
                  exact this
                obtain ⟨q, hq⟩ := isDir_iff.mp hd
                rw [hq]
                exact ih h
              · cases h
      · cases h

theorem mkdirWalk_keeps_of {su : Bool} {made : Perm} {fs fs' : FS} {cur : Key}
    {done comps : List String} {r : Option String}
    (h : mkdirWalk su made fs cur done comps = (r, fs')) {k : Key} {n : Node}
    (hn : fs.node k = some n) : fs'.node k = some n := by
  have := mkdirWalk_keeps su made fs cur done comps hn
  rw [h] at this
  exact this

theorem mkdirWalk_isDir_of {su : Bool} {made : Perm} {fs fs' : FS} {cur : Key}
    {done comps : List String} {r : Option String}
    (h : mkdirWalk su made fs cur done comps = (r, fs')) {k : Key}
    (hd : fs.isDir k = true) : fs'.isDir k = true := by
  have := mkdirWalk_isDir su made fs cur done comps hd
  rw [h] at this
  exact this

theorem mkdirWalk_canSearch_of {su : Bool} {made : Perm} {fs fs' : FS} {cur : Key}
    {done comps : List String} {r : Option String}
    (h : mkdirWalk su made fs cur done comps = (r, fs')) {k : Key}
    (hd : fs.canSearch su k = true) : fs'.canSearch su k = true := by
  have := mkdirWalk_canSearch su made fs cur done comps hd
  rw [h] at this
  exact this

theorem mkdirWalk_file_of {su : Bool} {made : Perm} {fs fs' : FS} {cur : Key}
    {done comps : List String} {r : Option String}
    (h : mkdirWalk su made fs cur done comps = (r, fs')) {k : Key} {c : Bytes} {p : Perm}
    (hn : fs'.node k = some (Node.file c p)) : fs.node k = some (Node.file c p) := by
  have := mkdirWalk_file su made fs cur done comps (k := k) (c := c) (p := p)
  rw [h] at this
  exact this hn

theorem mkdirWalk_canWrite_of {su : Bool} {made : Perm} {fs fs' : FS} {cur : Key}
    {done comps : List String} {r : Option String}
    (h : mkdirWalk su made fs cur done comps = (r, fs')) {k : Key}
    (hd : fs.canWrite su k = true) : fs'.canWrite su k = true := by
  obtain ⟨p, hp, hs⟩ := canWrite_iff.mp hd
  exact canWrite_iff.mpr ⟨p, mkdirWalk_keeps_of h hp, hs⟩

/-- A directory made under a umask that leaves its owner the write and search
    bits, or made by the superuser, can be searched and written by the
    process. -/
theorem made_dir_perm (su : Bool) (umask : Mode)
    (h : su = true ∨ (umask.owner.w = false ∧ umask.owner.x = false)) :
    (Perm.made os.ModePerm umask).searchable su = true
      ∧ (Perm.made os.ModePerm umask).writable su = true := by
  rcases h with h | ⟨h1, h2⟩
  · subst h
    simp [Perm.searchable, Perm.writable]
  · have hm : os.ModePerm.owner = ⟨true, true, true⟩ := by decide
    simp [Perm.made, Perm.searchable, Perm.writable, Perm.bits, Mode.clear, Bits.clear, hm, h1,
      h2]

/-! ## Collaborators that succeed -/

theorem findHandle_cons_self (hs : List (Nat × Stream)) (h : Nat) (s : Stream) :
    findHandle ((h, s) :: hs) h = some s := by
  simp [findHandle]

theorem findHandle_cons_ne (hs : List (Nat × Stream)) {h h' : Nat} (s : Stream) (hne : h' ≠ h) :
    findHandle ((h', s) :: hs) h = findHandle hs h := by
  simp [findHandle, hne]

theorem findHandle_mem {hs : List (Nat × Stream)} {h : Nat} {s : Stream}
    (hf : findHandle hs h = some s) : (h, s) ∈ hs := by
  induction hs with
  | nil => cases hf
  | cons e t ih =>
    obtain ⟨h', s'⟩ := e
    simp only [findHandle] at hf
    split at hf
    · next he =>
      cases hf
      subst he
      exact List.mem_cons_self _ _
    · exact List.mem_cons_of_mem _ (ih hf)

theorem ne_fresh_of_open {hs : List (Nat × Stream)} {h : Nat} {s : Stream}
    (hf : findHandle hs h = some s) : freshHandle hs ≠ h :=
  fun he => freshHandle_ne hs (h, s) (findHandle_mem hf) he.symm

theorem Open_ok {name : String} {w : World} {k : Key} {nd : Node}
    (hf : w.fault (Call.osOpen name) = none)
    (hr : resolve w.fs w.superuser w.cwd name = some k)
    (hn : w.fs.node k = some nd) (hp : nd.perm.readable w.superuser = true) :
    os.Open name w = (Except.ok (freshHandle w.handles),
      { w.record (Call.osOpen name) none with
        handles := (freshHandle w.handles, Stream.file name k 0 false) :: w.handles }) := by
  cases nd with
  | file c p =>
    have hp' : p.readable w.superuser = true := hp
    simp [os.Open, hf, hr, hn, hp']
  | dir p =>
    have hp' : p.readable w.superuser = true := hp
    simp [os.Open, hf, hr, hn, hp']

theorem MkdirAll_ok {path : String} {perm : Mode} {w : World} {fs : FS}
    (hf : w.fault (Call.osMkdirAll path) = none) (hp : path ≠ "")
    (hm : mkdirWalk w.superuser (Perm.made perm w.umask) w.fs (startDir w.cwd path) []
        (splitPath path) = (none, fs)) :
    os.MkdirAll path perm w
      = (none, { w.record (Call.osMkdirAll path) none with fs := fs }) := by
  simp [os.MkdirAll, hf, hp, hm]

theorem Create_ok {name : String} {w : World} {k : Key} {p : Perm}
    (hf : w.fault (Call.osCreate name) = none)
    (hr : resolve w.fs w.superuser w.cwd name = some k)
    (hc : Creatable w.fs w.superuser w.umask k p) :
    os.Create name w = (Except.ok (freshHandle w.handles),
      { w.record (Call.osCreate name) none with
        fs := w.fs.set k (Node.file [] p),
        handles := (freshHandle w.handles, Stream.file name k 0 true) :: w.handles }) := by
  rcases hc with ⟨c, hc, hpr, hpw⟩ | ⟨hn, hk, hd, hp⟩
  · simp [os.Create, hf, hr, hc, hpr, hpw]
  · simp [os.Create, hf, hr, hn, hk, hd, hp, isDir_of_canWrite hd]

theorem Create_creatable {name : String} {w w1 : World} {f : Nat}
    (h : os.Create name w = (Except.ok f, w1)) :
    ∃ k p, w.fault (Call.osCreate name) = none
      ∧ resolve w.fs w.superuser w.cwd name = some k
      ∧ Creatable w.fs w.superuser w.umask k p ∧ f = freshHandle w.handles
      ∧ w1 = { w.record (Call.osCreate name) none with
          fs := w.fs.set k (Node.file [] p),
          handles := (freshHandle w.handles, Stream.file name k 0 true) :: w.handles } := by
  rcases Create_cases name w with ⟨m, hm⟩ | ⟨k, p, hf, hr, hc, hm⟩
  · rw [hm] at h
    cases h
  · rw [hm] at h
    cases h
    exact ⟨k, p, hf, hr, hc, rfl, rfl⟩

theorem Creatable.not_isDir {fs : FS} {su : Bool} {umask : Mode} {k : Key} {p : Perm}
    (h : Creatable fs su umask k p) : fs.isDir k = false := by
  rcases h with ⟨c, hc, _, _⟩ | ⟨hn, _, _, _⟩
  · simp [FS.isDir, hc]
  · simp [FS.isDir, hn]

theorem writeAt_empty (data : Bytes) : writeAt [] 0 data = data := by
  simp [writeAt]

/-! ## Lines 68 to 88 when they succeed -/

theorem Copy_ok (dst src : Nat) (w : World) (s : Stream) (all : Bytes) (name : String) (k : Key)
    (pos : Nat) (old : Bytes) (p : Perm)
    (hf : w.fault (Call.ioCopy dst src) = none)
    (hs : findHandle w.handles src = some s) (hb : sourceBytes w.fs s = Except.ok all)
    (hd : findHandle w.handles dst = some (Stream.file name k pos true))
    (hn : w.fs.node k = some (Node.file old p)) :
    (io.Copy dst src w).1 = Except.ok all.length
    ∧ (io.Copy dst src w).2.fs = w.fs.set k (Node.file (writeAt old pos all) p) := by
  simp [io.Copy, readAll, hs, hb, hd, hn, hf, World.record]

theorem Copy_inv {dst src : Nat} {w w1 : World} {n : Nat}
    (h : io.Copy dst src w = (Except.ok n, w1)) :
    ∃ s all name k pos old p, w.fault (Call.ioCopy dst src) = none
      ∧ findHandle w.handles src = some s ∧ sourceBytes w.fs s = Except.ok all
      ∧ findHandle w.handles dst = some (Stream.file name k pos true)
      ∧ w.fs.node k = some (Node.file old p)
      ∧ w1.fs = w.fs.set k (Node.file (writeAt old pos all) p) := by
  rcases Copy_cases dst src w with ⟨m, hm⟩ | ⟨all, name, k, pos, old, p, hr, hd, hn, hm⟩
  · rw [hm] at h
    cases h
  · cases hf : w.fault (Call.ioCopy dst src) with
    | some e =>
      rw [hf] at hm
      rw [hm] at h
      cases h
    | none =>
      rw [hf] at hm
      rw [hm] at h
      cases h
      unfold readAll at hr
      split at hr
      · cases hr
      · next s hs =>
        exact ⟨s, all, name, k, pos, old, p, rfl, hs, hr, hd, hn, by simp [World.record]⟩

theorem save_ok (reader : Nat) (outputPath : String) (w : World) (s : Stream) (fs1 : FS)
    (k : Key) (p : Perm) (data : Bytes)
    (hr : findHandle w.handles reader = some s)
    (hf1 : w.fault (Call.osMkdirAll (filepath.Dir outputPath)) = none)
    (hd : filepath.Dir outputPath ≠ "")
    (hm : mkdirWalk w.superuser (Perm.made os.ModePerm w.umask) w.fs
        (startDir w.cwd (filepath.Dir outputPath)) []
        (splitPath (filepath.Dir outputPath)) = (none, fs1))
    (hf2 : w.fault (Call.osCreate outputPath) = none)
    (hk : resolve fs1 w.superuser w.cwd outputPath = some k)
    (hc : Creatable fs1 w.superuser w.umask k p)
    (hf3 : w.fault (Call.ioCopy (freshHandle w.handles) reader) = none)
    (hsrc : sourceBytes (fs1.set k (Node.file [] p)) s = Except.ok data) :
    (GetImage.save reader outputPath w).1 = none
    ∧ (GetImage.save reader outputPath w).2.fs
        = (fs1.set k (Node.file [] p)).set k (Node.file data p) := by
  have hkne : k ≠ [] := ne_nil_of_not_isDir hc.not_isDir
  have h1 := MkdirAll_ok hf1 hd hm
  have h2 : os.Create outputPath
      { w.record (Call.osMkdirAll (filepath.Dir outputPath)) none with fs := fs1 } = _ :=
    Create_ok (w := { w.record (Call.osMkdirAll (filepath.Dir outputPath)) none with fs := fs1 })
      hf2 hk hc
  have h3 := Copy_ok (freshHandle w.handles) reader
    { w.record (Call.osMkdirAll (filepath.Dir outputPath)) none with
      fs := fs1.set k (Node.file [] p),
      handles := (freshHandle w.handles, Stream.file outputPath k 0 true) :: w.handles,
      trace := w.trace ++ [⟨Call.osMkdirAll (filepath.Dir outputPath), none⟩]
        ++ [⟨Call.osCreate outputPath, none⟩] }
    s data outputPath k 0 [] p
    hf3 (by
      show findHandle ((freshHandle w.handles, _) :: w.handles) reader = some s
      rw [findHandle_cons_ne _ _ (ne_fresh_of_open hr)]
      exact hr)
    hsrc (findHandle_cons_self _ _ _) (node_set_self fs1 _ hkne)
  unfold GetImage.save
  simp only [h1]
  simp only [World.record] at h2 h3 ⊢
  simp only [h2]
  constructor
  · split
    · next err w3 h =>
      have := h3.1
      rw [h] at this
      cases this
    · rfl
  · split
    · next err w3 h =>
      have := h3.1
      rw [h] at this
      cases this
    · next n w3 h =>
      have := h3.2
      rw [h] at this
      simp only [close, log.Printf, World.record]
      rw [this, writeAt_empty]

theorem save_none {reader : Nat} {outputPath : String} {w : World} {s : Stream}
    (h : (GetImage.save reader outputPath w).1 = none)
    (hr : findHandle w.handles reader = some s) :
    ∃ fs1 k p data, w.fault (Call.osMkdirAll (filepath.Dir outputPath)) = none
      ∧ filepath.Dir outputPath ≠ ""
      ∧ mkdirWalk w.superuser (Perm.made os.ModePerm w.umask) w.fs
          (startDir w.cwd (filepath.Dir outputPath)) []
          (splitPath (filepath.Dir outputPath)) = (none, fs1)
      ∧ w.fault (Call.osCreate outputPath) = none
      ∧ resolve fs1 w.superuser w.cwd outputPath = some k
      ∧ Creatable fs1 w.superuser w.umask k p
      ∧ w.fault (Call.ioCopy (freshHandle w.handles) reader) = none
      ∧ sourceBytes (fs1.set k (Node.file [] p)) s = Except.ok data
      ∧ (GetImage.save reader outputPath w).2.fs
          = (fs1.set k (Node.file [] p)).set k (Node.file data p) := by
  rcases save_cases reader outputPath w with ⟨m, w1, h1, hs⟩ | ⟨w1, m, w2, h1, h2, hs⟩
      | ⟨w1, f, w2, m, w3, h1, h2, h3, hs⟩ | ⟨w1, f, w2, n, w3, h1, h2, h3, hs⟩
  · rw [hs] at h
    cases h
  · rw [hs] at h
    cases h
  · rw [hs] at h
    cases h
  · rcases MkdirAll_cases (filepath.Dir outputPath) os.ModePerm w with
      ⟨m, hm⟩ | ⟨r0, fs1, hf1, hd, hm, hmk⟩
    · rw [hm] at h1
      cases h1
    · rw [hmk] at h1
      cases h1
      obtain ⟨k, p, hf2, hk, hc, hf, hw2⟩ := Create_creatable h2
      subst hw2
      subst hf
      obtain ⟨s', all, name, k', pos, old, p', hf3, hs', hb, hdst, hn, hfs⟩ := Copy_inv h3
      have hkne : k ≠ [] := ne_nil_of_not_isDir hc.not_isDir
      simp only [World.record] at hs' hdst hb hn hfs hf3
      rw [findHandle_cons_ne _ _ (ne_fresh_of_open hr), hr] at hs'
      cases hs'
      rw [findHandle_cons_self] at hdst
      cases hdst
      rw [node_set_self fs1 _ hkne] at hn
      cases hn
      refine ⟨fs1, k, p, all, hf1, hd, hm, hf2, hk, hc, hf3, hb, ?_⟩
      rw [hs]
      simp only [close, log.Printf, World.record]
      rw [hfs, writeAt_empty]

/-! ## `GetImage` when it succeeds -/

theorem freshHandle_cons_fresh (hs : List (Nat × Stream)) (s : Stream) :
    freshHandle ((freshHandle hs, s) :: hs) = freshHandle hs + 1 := by
  simp [freshHandle]

theorem GetImage_succeeds {sourceURL localPath outputPath : String} {w : World} {fs' : FS}
    (h : Succeeds sourceURL localPath outputPath w fs') :
    (GetImage sourceURL localPath outputPath w).1 = none
    ∧ (GetImage sourceURL localPath outputPath w).2.fs = fs' := by
  rcases h with ⟨hu, body, hn, fs1, k, p, data, hf1, hd, hm, hf2, hk, hc, hf3, hsrc, hfs⟩
    | ⟨hu, hl, ks, nd, hfo, hr, hnd, hrd, fs1, k, p, data, hf1, hd, hm, hf2, hk, hc, hf3, hsrc,
        hfs⟩
  · have hs := save_ok (freshHandle w.handles) outputPath
      { w.record (Call.httpGet sourceURL) none with
        handles := (freshHandle w.handles, Stream.body body) :: w.handles }
      (Stream.body body) fs1 k p data
      (findHandle_cons_self _ _ _) hf1 hd hm hf2 hk hc
      (by
        show w.fault (Call.ioCopy (freshHandle ((freshHandle w.handles, _) :: w.handles))
          (freshHandle w.handles)) = none
        rw [freshHandle_cons_fresh]
        exact hf3)
      hsrc
    unfold GetImage
    rw [if_pos hu, Get_response hn]
    simp only [http.StatusOK, ne_eq, not_true_eq_false, if_false]
    exact ⟨hs.1, by rw [hfs]; exact hs.2⟩
  · have hs := save_ok (freshHandle w.handles) outputPath
      { w.record (Call.osOpen localPath) none with
        handles := (freshHandle w.handles, Stream.file localPath ks 0 false) :: w.handles }
      (Stream.file localPath ks 0 false) fs1 k p data
      (findHandle_cons_self _ _ _) hf1 hd hm hf2 hk hc
      (by
        show w.fault (Call.ioCopy (freshHandle ((freshHandle w.handles, _) :: w.handles))
          (freshHandle w.handles)) = none
        rw [freshHandle_cons_fresh]
        exact hf3)
      hsrc
    unfold GetImage
    rw [if_neg (not_not.mpr hu), if_pos hl, Open_ok hfo hr hnd hrd]
    exact ⟨hs.1, by rw [hfs]; exact hs.2⟩

theorem GetImage_none {sourceURL localPath outputPath : String} {w : World}
    (h : (GetImage sourceURL localPath outputPath w).1 = none) :
    Succeeds sourceURL localPath outputPath w
      (GetImage sourceURL localPath outputPath w).2.fs := by
  rcases GetImage_cases sourceURL localPath outputPath w with ⟨hu, hl, hg⟩ | ⟨m, w1, hu, h1, hg⟩
      | ⟨r, w1, hu, h1, hs, hg⟩ | ⟨r, w1, hu, h1, hs, hg⟩ | ⟨m, w1, hu, hl, h1, hg⟩
      | ⟨f, w1, hu, hl, h1, hg⟩
  · rw [hg] at h
    cases h
  · rw [hg] at h
    cases h
  · rw [hg] at h
    cases h
  · rw [hg] at h ⊢
    simp only at h ⊢
    cases hn : w.net sourceURL with
    | failed e =>
      rw [Get_failed hn] at h1
      cases h1
    | response status body =>
      rw [Get_response hn] at h1
      cases h1
      simp only at hs
      subst hs
      obtain ⟨fs1, k, p, data, hf1, hd, hm, hf2, hk, hc, hf3, hsrc, hfs⟩ :=
        save_none h (findHandle_cons_self _ _ _)
      refine Or.inl ⟨hu, body, hn, fs1, k, p, data, hf1, hd, hm, hf2, hk, hc, ?_, hsrc, hfs⟩
      have := hf3
      simp only [World.record] at this
      rw [freshHandle_cons_fresh] at this
      exact this
  · rw [hg] at h
    cases h
  · rw [hg] at h ⊢
    simp only at h ⊢
    rcases Open_cases localPath w with ⟨m, hm⟩ | ⟨ks, nd, hfo, hr, hnd, hrd, hm⟩
    · rw [hm] at h1
      cases h1
    · rw [hm] at h1
      cases h1
      obtain ⟨fs1, k, p, data, hf1, hd, hm, hf2, hk, hc, hf3, hsrc, hfs⟩ :=
        save_none h (findHandle_cons_self _ _ _)
      refine Or.inr ⟨hu, hl, ks, nd, hfo, hr, hnd, hrd, fs1, k, p, data, hf1, hd, hm, hf2, hk,
        hc, ?_, hsrc, hfs⟩
      have := hf3
      simp only [World.record] at this
      rw [freshHandle_cons_fresh] at this
      exact this

/-! ## Running twice -/

theorem sourceBytes_congr {fs fs' : FS} (h : ∀ k, fs'.node k = fs.node k) (s : Stream) :
    sourceBytes fs' s = sourceBytes fs s := by
  cases s with
  | body data => rfl
  | file name k pos wr => simp only [sourceBytes, h k]

/-- Creating and writing the destination changes no directory. -/
theorem saved_dirs {fs' fs1 : FS} {su : Bool} {umask : Mode} {k : Key} {p : Perm}
    {data : Bytes} (hc : Creatable fs1 su umask k p)
    (hfs : fs' = (fs1.set k (Node.file [] p)).set k (Node.file data p)) (su' : Bool) (k' : Key) :
    fs'.isDir k' = fs1.isDir k' ∧ fs'.canSearch su' k' = fs1.canSearch su' k'
      ∧ fs'.canWrite su' k' = fs1.canWrite su' k' := by
  have h1 := dirs_set_file fs1 [] p hc.not_isDir su'
  have h0 : (fs1.set k (Node.file [] p)).isDir k = false := by
    rw [(h1 k).1]
    exact hc.not_isDir
  have h2 := dirs_set_file (fs1.set k (Node.file [] p)) data p h0 su' k'
  rw [hfs]
  exact ⟨h2.1.trans (h1 k').1, h2.2.1.trans (h1 k').2.1, h2.2.2.trans (h1 k').2.2⟩

theorem resolve_congr {fs fs' : FS} {su : Bool}
    (h : ∀ k, fs'.canSearch su k = fs.canSearch su k) (cwd : Key) (path : String) :
    resolve fs' su cwd path = resolve fs su cwd path := by
  unfold resolve
  rw [walk_congr h]

/-- What `outputPath` names after a successful run: a regular file. -/
theorem Saves.result {w : World} {s : Stream} {outputPath : String} {fs' : FS}
    (h : Saves w s outputPath fs') :
    ∃ fs1 k p data, resolve fs1 w.superuser w.cwd outputPath = some k
      ∧ Creatable fs1 w.superuser w.umask k p
      ∧ sourceBytes (fs1.set k (Node.file [] p)) s = Except.ok data
      ∧ mkdirWalk w.superuser (Perm.made os.ModePerm w.umask) w.fs
          (startDir w.cwd (filepath.Dir outputPath)) []
          (splitPath (filepath.Dir outputPath)) = (none, fs1)
      ∧ fs' = (fs1.set k (Node.file [] p)).set k (Node.file data p)
      ∧ resolve fs' w.superuser w.cwd outputPath = some k
      ∧ stat fs' w.superuser w.cwd outputPath = some (Node.file data p) := by
  obtain ⟨fs1, k, p, data, hf1, hd, hm, hf2, hk, hc, hf3, hsrc, hfs⟩ := h
  have hkne : k ≠ [] := ne_nil_of_not_isDir hc.not_isDir
  have hres : resolve fs' w.superuser w.cwd outputPath = some k := by
    rw [resolve_congr (fun k' => (saved_dirs hc hfs w.superuser k').2.1)]
    exact hk
  refine ⟨fs1, k, p, data, hk, hc, hsrc, hm, hfs, hres, ?_⟩
  unfold stat
  rw [hres]
  simp only
  rw [hfs]
  exact node_set_self _ _ hkne

/-- After a successful run that leaves a destination the process may open for
    reading and writing, the same reader conditions hold in the tree the run
    left, and a second run leaves the same file. -/
theorem Saves.again {w w2 : World} {s : Stream} {outputPath : String} {fs' : FS}
    (h : Saves w s outputPath fs') (hfs2 : w2.fs = fs') (hcwd : w2.cwd = w.cwd)
    (hsu : w2.superuser = w.superuser) (hum : w2.umask = w.umask)
    (hfault : w2.fault = w.fault) (hh : w2.handles = w.handles)
    (hrw : ∀ c p, stat fs' w.superuser w.cwd outputPath = some (Node.file c p) →
      p.readable w.superuser = true ∧ p.writable w.superuser = true) :
    ∃ fs2, Saves w2 s outputPath fs2
      ∧ stat fs2 w.superuser w.cwd outputPath = stat fs' w.superuser w.cwd outputPath := by
  obtain ⟨fs1, k, p, data, hk, hc, hsrc, hm, hfs, hres, hstat⟩ := h.result
  obtain ⟨_, _, _, _, hf1, hd, _, hf2, _, _, hf3, _, _⟩ := h
  obtain ⟨hpr, hpw⟩ := hrw data p hstat
  have hkne : k ≠ [] := ne_nil_of_not_isDir hc.not_isDir
  have hdir := saved_dirs hc hfs w.superuser
  have hc' : Creatable fs' w.superuser w.umask k p :=
    Or.inl ⟨data, by rw [hfs]; exact node_set_self _ _ hkne, hpr, hpw⟩
  have hnode : ∀ k', (fs'.set k (Node.file [] p)).node k'
      = (fs1.set k (Node.file [] p)).node k' := by
    intro k'
    by_cases hkk : k = k'
    · subst hkk
      rw [node_set_self _ _ hkne, node_set_self _ _ hkne]
    · rw [node_set_other _ _ hkk, node_set_other _ _ hkk, hfs, node_set_other _ _ hkk,
        node_set_other _ _ hkk]
  have hsaves : Saves w2 s outputPath
      ((fs'.set k (Node.file [] p)).set k (Node.file data p)) := by
    refine ⟨fs', k, p, data, by rw [hfault]; exact hf1, hd, ?_, by rw [hfault]; exact hf2,
      by rw [hcwd, hsu]; exact hres, by rw [hsu, hum]; exact hc',
      by rw [hfault, hh]; exact hf3, ?_, rfl⟩
    · rw [hfs2, hcwd, hsu, hum]
      exact mkdirWalk_stable hm fs' (fun k' hk' => by rw [(hdir k').1]; exact hk')
        (fun k' hk' => by rw [(hdir k').2.1]; exact hk')
    · rw [sourceBytes_congr hnode]
      exact hsrc
  refine ⟨_, hsaves, ?_⟩
  rw [hstat]
  have hr : resolve ((fs'.set k (Node.file [] p)).set k (Node.file data p)) w.superuser w.cwd
      outputPath = some k := by
    rw [resolve_congr (fun k' => (saved_dirs hc' rfl w.superuser k').2.1)]
    exact hres
  unfold stat
  rw [hr]
  exact node_set_self _ _ hkne

theorem Succeeds.rerun {sourceURL localPath outputPath : String} {w w2 : World} {fs' : FS}
    (h : Succeeds sourceURL localPath outputPath w fs') (hfs2 : w2.fs = fs')
    (henv : SameEnv w w2) (hh : w2.handles = w.handles)
    (hrw : ∀ c p, stat fs' w.superuser w.cwd outputPath = some (Node.file c p) →
      p.readable w.superuser = true ∧ p.writable w.superuser = true) :
    ∃ fs2, Succeeds sourceURL localPath outputPath w2 fs2
      ∧ stat fs2 w.superuser w.cwd outputPath = stat fs' w.superuser w.cwd outputPath := by
  obtain ⟨hcwd, hsu, hum, hnet, hfault, _⟩ := henv
  rcases h with ⟨hu, body, hn, hs⟩ | ⟨hu, hl, ks, nd, hfo, hr, hnd, hrd, hs⟩
  · obtain ⟨fs2, hs2, hst⟩ := hs.again hfs2 hcwd hsu hum hfault hh hrw
    exact ⟨fs2, Or.inl ⟨hu, body, by rw [hnet]; exact hn, hs2⟩, hst⟩
  · obtain ⟨fs2, hs2, hst⟩ := hs.again hfs2 hcwd hsu hum hfault hh hrw
    obtain ⟨fs1, k, p, data, hk, hc, hsrc, hm, hfs, hres, hstat⟩ := hs.result
    have hkne : k ≠ [] := ne_nil_of_not_isDir hc.not_isDir
    have hdir := saved_dirs hc hfs w.superuser
    have hr2 : resolve fs' w.superuser w.cwd localPath = some ks := by
      unfold resolve at hr ⊢
      split
      · next h0 =>
        rw [if_pos h0] at hr
        cases hr
      · next h0 =>
        rw [if_neg h0] at hr
        exact walk_mono
          (fun k' hk' => by rw [(hdir k').2.1]; exact mkdirWalk_canSearch_of hm hk') _ _ _ hr
    have hnd2 : ∃ nd2, fs'.node ks = some nd2 ∧ nd2.perm.readable w.superuser = true := by
      by_cases hkk : k = ks
      · subst hkk
        exact ⟨Node.file data p, by rw [hfs]; exact node_set_self _ _ hkne,
          (hrw data p hstat).1⟩
      · refine ⟨nd, ?_, hrd⟩
        rw [hfs, node_set_other _ _ hkk, node_set_other _ _ hkk]
        exact mkdirWalk_keeps_of hm hnd
    obtain ⟨nd2, hnd2, hrd2⟩ := hnd2
    exact ⟨fs2, Or.inr ⟨hu, hl, ks, nd2, by rw [hfault]; exact hfo,
      by rw [hfs2, hcwd, hsu]; exact hr2, by rw [hfs2]; exact hnd2, by rw [hsu]; exact hrd2,
      hs2⟩, hst⟩

/-! ## Error messages -/

theorem toList_append (a b : String) : (a ++ b).toList = a.toList ++ b.toList := by
  simp [String.toList, String.data_append]

theorem startsWith_append (p m : String) : startsWith p (p ++ m) = true := by
  simp [startsWith, toList_append]

theorem not_startsWith_append (p q m : String)
    (h : (p.toList.take q.toList.length).isPrefixOf q.toList = false) :
    startsWith p (q ++ m) = false := by
  cases hs : startsWith p (q ++ m) with
  | false => rfl
  | true =>
    exfalso
    unfold startsWith at hs
    rw [toList_append, List.isPrefixOf_iff_prefix, List.prefix_iff_eq_take] at hs
    have h2 : (p.toList.take q.toList.length) <+: q.toList := by
      rw [hs, List.take_take]
      by_cases hle : q.toList.length ≤ p.toList.length
      · rw [Nat.min_eq_left hle, List.take_left']
        rfl
      · have hle2 : p.toList.length ≤ q.toList.length := by omega
        rw [Nat.min_eq_right hle2, List.take_append_of_le_length hle2]
        exact List.take_prefix _ _
    rw [← List.isPrefixOf_iff_prefix, h] at h2
    cases h2

theorem append_ne_of_mismatch (q m s : String)
    (h : (q.toList.take s.toList.length) ≠ s.toList.take q.toList.length) : q ++ m ≠ s := by
  intro he
  apply h
  have h1 : q.toList ++ m.toList = s.toList := by rw [← toList_append, he]
  have h2 : s.toList.take q.toList.length = q.toList := by
    rw [← h1, List.take_left']
    rfl
  rw [h2]
  apply List.take_of_length_le
  rw [← h1, List.length_append]
  omega

theorem stageOf_label (st : Stage) (m : String) (hst : st ≠ Stage.noSource) :
    stageOf (st.label ++ m) = some st := by
  cases st with
  | noSource => exact absurd rfl hst
  | fetch =>
    unfold stageOf Stage.label
    rw [if_neg (append_ne_of_mismatch _ _ _ (by decide)), startsWith_append]
    rfl
  | sourceOpen =>
    unfold stageOf Stage.label
    rw [if_neg (append_ne_of_mismatch _ _ _ (by decide)),
      not_startsWith_append "error making the request: " _ _ (by decide),
      not_startsWith_append "error: status code " _ _ (by decide),
      startsWith_append]
    rfl
  | dirCreate =>
    unfold stageOf Stage.label
    rw [if_neg (append_ne_of_mismatch _ _ _ (by decide)),
      not_startsWith_append "error making the request: " _ _ (by decide),
      not_startsWith_append "error: status code " _ _ (by decide),
      not_startsWith_append "error opening the local file: " _ _ (by decide),
      startsWith_append]
    rfl
  | destCreate =>
    unfold stageOf Stage.label
    rw [if_neg (append_ne_of_mismatch _ _ _ (by decide)),
      not_startsWith_append "error making the request: " _ _ (by decide),
      not_startsWith_append "error: status code " _ _ (by decide),
      not_startsWith_append "error opening the local file: " _ _ (by decide),
      not_startsWith_append "error creating directory: " _ _ (by decide),
      startsWith_append]
    rfl
  | copy =>
    unfold stageOf Stage.label
    rw [if_neg (append_ne_of_mismatch _ _ _ (by decide)),
      not_startsWith_append "error making the request: " _ _ (by decide),
      not_startsWith_append "error: status code " _ _ (by decide),
      not_startsWith_append "error opening the local file: " _ _ (by decide),
      not_startsWith_append "error creating directory: " _ _ (by decide),
      not_startsWith_append "error creating the file: " _ _ (by decide),
      startsWith_append]
    rfl

theorem stageOf_status (m : String) : stageOf ("error: status code " ++ m) = some Stage.fetch := by
  unfold stageOf
  rw [if_neg (append_ne_of_mismatch _ _ _ (by decide)),
    not_startsWith_append "error making the request: " _ _ (by decide),
    startsWith_append]
  rfl

theorem stageOf_noSource :
    stageOf "both source URL and local path are empty" = some Stage.noSource := by
  unfold stageOf
  rw [if_pos rfl]

/-! ## What lines 68 to 88 write when the reader is a response body -/

theorem MkdirAll_file {path : String} {perm : Mode} {w w1 : World} {r : Option String}
    (h : os.MkdirAll path perm w = (r, w1)) {k : Key} {c : Bytes} {p : Perm}
    (hn : w1.fs.node k = some (Node.file c p)) : w.fs.node k = some (Node.file c p) := by
  rcases MkdirAll_cases path perm w with ⟨m, hm⟩ | ⟨r0, fs, _, _, hw, hm⟩
  · rw [hm] at h
    cases h
    exact hn
  · rw [hm] at h
    cases h
    exact mkdirWalk_file_of hw hn

theorem Create_fs_error {name : String} {w w1 : World} {m : String}
    (h : os.Create name w = (Except.error m, w1)) : w1.fs = w.fs := by
  rcases Create_cases name w with ⟨m, hm⟩ | ⟨k, p, _, _, _, hm⟩
  · rw [hm] at h
    cases h
    rfl
  · rw [hm] at h
    cases h

theorem Copy_fs {dst src : Nat} {w w1 : World} {r : Except String Nat}
    (h : io.Copy dst src w = (r, w1)) :
    w1.fs = w.fs
    ∨ ∃ s all name k pos old p n, findHandle w.handles src = some s
        ∧ sourceBytes w.fs s = Except.ok all
        ∧ findHandle w.handles dst = some (Stream.file name k pos true)
        ∧ w.fs.node k = some (Node.file old p)
        ∧ w1.fs = w.fs.set k (Node.file (writeAt old pos (all.take n)) p) := by
  rcases Copy_cases dst src w with ⟨m, hm⟩ | ⟨all, name, k, pos, old, p, hr, hd, hn, hm⟩
  · rw [hm] at h
    cases h
    exact Or.inl rfl
  · right
    unfold readAll at hr
    split at hr
    · cases hr
    · next s hs =>
      rw [hm] at h
      cases h
      cases hf : w.fault (Call.ioCopy dst src) with
      | some e =>
        exact ⟨s, all, name, k, pos, old, p, w.partialCopy, hs, hr, hd, hn,
          by simp [World.record]⟩
      | none =>
        refine ⟨s, all, name, k, pos, old, p, all.length, hs, hr, hd, hn, ?_⟩
        simp [World.record]

theorem save_fs_body (reader : Nat) (outputPath : String) (w : World) (body : Bytes)
    (hr : findHandle w.handles reader = some (Stream.body body)) (k : Key) (c : Bytes)
    (p : Perm)
    (hn : (GetImage.save reader outputPath w).2.fs.node k = some (Node.file c p)) :
    w.fs.node k = some (Node.file c p) ∨ ∃ n, c = body.take n := by
  have after_create : ∀ {w1 w2 w3 : World} {f : Nat} {r : Except String Nat},
      os.MkdirAll (filepath.Dir outputPath) os.ModePerm w = (none, w1) →
      os.Create outputPath w1 = (Except.ok f, w2) →
      io.Copy f reader w2 = (r, w3) →
      w3.fs.node k = some (Node.file c p) →
      w.fs.node k = some (Node.file c p) ∨ ∃ n, c = body.take n := by
    intro w1 w2 w3 f r h1 h2 h3 h4
    obtain ⟨k0, p0, _, _, hc, hf, hw2⟩ := Create_creatable h2
    have hk0 : k0 ≠ [] := ne_nil_of_not_isDir hc.not_isDir
    have hh1 : w1.handles = w.handles := MkdirAll_handles h1
    subst hw2
    subst hf
    have hne : freshHandle w1.handles ≠ reader := by
      rw [hh1]
      exact ne_fresh_of_open hr
    rcases Copy_fs h3 with h5 | ⟨s, all, name, k', pos, old, p', n, hs, hb, hd, hold, h5⟩
    · rw [h5] at h4
      simp only [World.record] at h4
      by_cases hk : k0 = k
      · subst hk
        rw [node_set_self _ _ hk0] at h4
        cases h4
        exact Or.inr ⟨0, rfl⟩
      · rw [node_set_other _ _ hk] at h4
        exact Or.inl (MkdirAll_file h1 h4)
    · simp only [World.record] at hs hb hd hold h5
      rw [findHandle_cons_ne _ _ hne, hh1, hr] at hs
      cases hs
      rw [findHandle_cons_self] at hd
      cases hd
      rw [node_set_self _ _ hk0] at hold
      cases hold
      simp only [sourceBytes] at hb
      cases hb
      rw [h5, writeAt_empty] at h4
      by_cases hk : k0 = k
      · subst hk
        rw [node_set_self _ _ hk0] at h4
        cases h4
        exact Or.inr ⟨n, rfl⟩
      · rw [node_set_other _ _ hk, node_set_other _ _ hk] at h4
        exact Or.inl (MkdirAll_file h1 h4)
  rcases save_cases reader outputPath w with ⟨m, w1, h1, hs⟩ | ⟨w1, m, w2, h1, h2, hs⟩
      | ⟨w1, f, w2, m, w3, h1, h2, h3, hs⟩ | ⟨w1, f, w2, n, w3, h1, h2, h3, hs⟩
  · rw [hs] at hn
    exact Or.inl (MkdirAll_file h1 hn)
  · rw [hs] at hn
    simp only at hn
    rw [Create_fs_error h2] at hn
    exact Or.inl (MkdirAll_file h1 hn)
  · rw [hs] at hn
    exact after_create h1 h2 h3 hn
  · rw [hs] at hn
    exact after_create h1 h2 h3 hn

/-! ## The failing stage -/

/-- The message of a failed run: which stage it names, and how it is made from
    the error of the first failing call. -/
theorem message_of_run (sourceURL localPath outputPath : String) (w : World) (msg : String)
    (h : (GetImage sourceURL localPath outputPath w).1 = some msg) :
    stageOf msg
      = some (failedStage sourceURL (newEvents w (GetImage sourceURL localPath outputPath w).2))
    ∧ (match firstFailure (newEvents w (GetImage sourceURL localPath outputPath w).2) with
      | some (st, m) => msg = st.label ++ m
      | none =>
        (sourceURL = "" ∧ localPath = "" ∧ msg = Stage.noSource.label)
        ∨ (sourceURL ≠ "" ∧ ∃ status body, w.net sourceURL = HttpResult.response status body
            ∧ status ≠ 200 ∧ msg = "error: status code " ++ toString status)) := by
  obtain ⟨evs, ht, hshape⟩ := GetImage_trace sourceURL localPath outputPath w
  rw [newEvents_append _ _ _ ht]
  rw [h] at hshape
  have hsave : ∀ {hh : Nat} {sevs : List Event} (src ce : Event),
      SaveShape hh outputPath (some msg) sevs → src.err = none →
      stageOf msg = some (failedStage sourceURL (src :: (sevs ++ [ce])))
      ∧ (match firstFailure (src :: (sevs ++ [ce])) with
        | some (st, m) => msg = st.label ++ m
        | none =>
          (sourceURL = "" ∧ localPath = "" ∧ msg = Stage.noSource.label)
          ∨ (sourceURL ≠ "" ∧ ∃ status body, w.net sourceURL = HttpResult.response status body
              ∧ status ≠ 200 ∧ msg = "error: status code " ++ toString status)) := by
    intro hh sevs src ce hs hsrc
    rcases hs with ⟨m, hr, hev⟩ | ⟨m, hr, hev⟩ | ⟨f, m, ce2, hr, hev⟩ | ⟨f, ce2, hr, _⟩
    · cases hr
      subst hev
      have := stageOf_label Stage.dirCreate m (by decide)
      simp only [Stage.label] at this
      simp [firstFailure, failedStage, hsrc, Call.stage, this, Stage.label]
    · cases hr
      subst hev
      have := stageOf_label Stage.destCreate m (by decide)
      simp only [Stage.label] at this
      simp [firstFailure, failedStage, hsrc, Call.stage, this, Stage.label]
    · cases hr
      subst hev
      have := stageOf_label Stage.copy m (by decide)
      simp only [Stage.label] at this
      simp [firstFailure, failedStage, hsrc, Call.stage, this, Stage.label]
    · cases hr
  rcases hshape with ⟨hu, hl, hr, hev⟩ | ⟨hu, m, hr, hev⟩ | ⟨hu, st, body, hh, ce, hn, hst, hr, hev⟩
      | ⟨hu, hh, ce, sevs, hs, hev⟩ | ⟨hu, hl, m, hr, hev⟩ | ⟨hu, hl, hh, ce, sevs, hs, hev⟩
  · cases hr
    subst hev
    simp [firstFailure, failedStage, hu, hl, stageOf_noSource, Stage.label]
  · cases hr
    subst hev
    have := stageOf_label Stage.fetch m (by decide)
    simp only [Stage.label] at this
    simp [firstFailure, failedStage, Call.stage, this, Stage.label]
  · cases hr
    subst hev
    simp only [firstFailure, failedStage, Call.stage, List.findSome?_cons, List.findSome?_nil,
      hu, if_false, stageOf_status, true_and]
    exact Or.inr ⟨hu, st, body, hn, hst, rfl⟩
  · subst hev
    exact hsave _ _ hs rfl
  · cases hr
    subst hev
    have := stageOf_label Stage.sourceOpen m (by decide)
    simp only [Stage.label] at this
    simp [firstFailure, failedStage, Call.stage, this, Stage.label]
  · subst hev
    exact hsave _ _ hs rfl

/-! ## Path strings -/

theorem splitChars_ne_nil (l : List Char) : splitChars l ≠ [] := by
  cases l with
  | nil => simp [splitChars]
  | cons c cs =>
    simp only [splitChars]
    split
    · simp
    · split <;> simp

theorem splitChars_append (a b : List Char) :
    splitChars (a ++ '/' :: b) = splitChars a ++ splitChars b := by
  induction a with
  | nil => simp [splitChars]
  | cons c a ih =>
    show splitChars (c :: (a ++ '/' :: b)) = splitChars (c :: a) ++ splitChars b
    simp only [splitChars]
    rw [ih]
    split
    · rfl
    · cases hs : splitChars a with
      | nil => exact absurd hs (splitChars_ne_nil a)
      | cons x t => rfl

theorem splitChars_of_no_slash (l : List Char) (h : '/' ∉ l) : splitChars l = [l] := by
  induction l with
  | nil => rfl
  | cons c cs ih =>
    simp only [List.mem_cons, not_or] at h
    simp only [splitChars, ih h.2]
    rw [if_neg (fun hc => h.1 hc.symm)]

theorem mem_splitChars_no_slash (l x : List Char) (hx : x ∈ splitChars l) : '/' ∉ x := by
  induction l generalizing x with
  | nil =>
    simp only [splitChars, List.mem_singleton] at hx
    subst hx
    simp
  | cons c cs ih =>
    simp only [splitChars] at hx
    split at hx
    · simp only [List.mem_cons] at hx
      rcases hx with hx | hx
      · subst hx
        simp
      · exact ih x hx
    · next hc =>
      cases hs : splitChars cs with
      | nil => exact absurd hs (splitChars_ne_nil cs)
      | cons y t =>
        rw [hs] at hx
        simp only [List.mem_cons] at hx
        rcases hx with hx | hx
        · subst hx
          have hy := ih y (by rw [hs]; exact List.mem_cons_self _ _)
          simp only [List.mem_cons, not_or]
          exact ⟨fun h => hc h.symm, hy⟩
        · exact ih x (by rw [hs]; exact List.mem_cons_of_mem _ hx)

theorem dirChars_of_no_slash (l : List Char) (h : '/' ∉ l) : dirChars l = [] := by
  cases l with
  | nil => rfl
  | cons c cs =>
    simp only [List.mem_cons, not_or] at h
    simp only [dirChars]
    rw [if_neg (by simpa using h.2), if_neg (fun hc => h.1 hc.symm)]

theorem dirChars_append (a b : List Char) (h : '/' ∉ b) :
    dirChars (a ++ '/' :: b) = a ++ ['/'] := by
  induction a with
  | nil =>
    show dirChars ('/' :: b) = ['/']
    simp only [dirChars]
    rw [if_neg (by simpa using h)]
    rfl
  | cons c a ih =>
    show dirChars (c :: (a ++ '/' :: b)) = c :: (a ++ ['/'])
    simp only [dirChars]
    rw [ih, if_pos (by simp)]

theorem exists_last_slash (l : List Char) (h : '/' ∈ l) :
    ∃ a b, l = a ++ '/' :: b ∧ '/' ∉ b := by
  induction l with
  | nil => cases h
  | cons c cs ih =>
    by_cases hcs : '/' ∈ cs
    · obtain ⟨a, b, hab, hb⟩ := ih hcs
      exact ⟨c :: a, b, by rw [hab]; rfl, hb⟩
    · simp only [List.mem_cons] at h
      rcases h with h | h
      · exact ⟨[], cs, by rw [← h]; rfl, hcs⟩
      · exact absurd h hcs

theorem toList_mk (l : List Char) : (String.mk l).toList = l := rfl

theorem toList_joinPath_cons (a b : String) (rest : List String) :
    (joinPath (a :: b :: rest)).toList = a.toList ++ '/' :: (joinPath (b :: rest)).toList := by
  simp [joinPath, toList_append]

theorem splitChars_joinPath (comps : List String) (hne : comps ≠ [])
    (h : ∀ c ∈ comps, '/' ∉ c.toList) :
    splitChars (joinPath comps).toList = comps.map String.toList := by
  induction comps with
  | nil => exact absurd rfl hne
  | cons a rest ih =>
    cases rest with
    | nil =>
      simp only [joinPath, List.map_cons, List.map_nil]
      exact splitChars_of_no_slash _ (h a (List.mem_cons_self _ _))
    | cons b rest =>
      rw [toList_joinPath_cons, splitChars_append,
        splitChars_of_no_slash _ (h a (List.mem_cons_self _ _)),
        ih (by simp) (fun c hc => h c (List.mem_cons_of_mem _ hc))]
      rfl

theorem splitPath_joinPath (comps : List String) (hne : comps ≠ [])
    (h : ∀ c ∈ comps, '/' ∉ c.toList) : splitPath (joinPath comps) = comps := by
  unfold splitPath
  rw [splitChars_joinPath comps hne h, List.map_map]
  conv_rhs => rw [← List.map_id comps]
  apply List.map_congr_left
  intro c _
  rfl

/-! ## The length of a path -/

theorem byteLen_mk (l : List Char) : byteLen (String.mk l) = (l.map Char.utf8Size).sum := rfl

theorem byteLen_append (a b : String) : byteLen (a ++ b) = byteLen a + byteLen b := by
  simp [byteLen, toList_append]

theorem byteLen_slash : byteLen "/" = 1 := by decide

theorem byteLen_empty : byteLen "" = 0 := by decide

theorem pathWeight_append (a b : List String) :
    pathWeight (a ++ b) = pathWeight a + pathWeight b := by
  induction a with
  | nil => simp [pathWeight]
  | cons c rest ih =>
    show pathWeight (c :: (rest ++ b)) = _
    simp only [pathWeight, ih]
    omega

theorem pathWeight_reverse (a : List String) : pathWeight a.reverse = pathWeight a := by
  induction a with
  | nil => rfl
  | cons c rest ih =>
    rw [List.reverse_cons, pathWeight_append, ih]
    simp only [pathWeight]
    omega

/-- A joined path takes the bytes of its components and of the `/` between
    them. -/
theorem byteLen_joinPath (comps : List String) (hne : comps ≠ []) :
    byteLen (joinPath comps) + 1 = pathWeight comps := by
  induction comps with
  | nil => exact absurd rfl hne
  | cons a rest ih =>
    cases rest with
    | nil => simp [joinPath, pathWeight]
    | cons b rest =>
      have := ih (by simp)
      simp only [joinPath, byteLen_append, byteLen_slash, pathWeight] at this ⊢
      omega

theorem byteLen_joinPath_le (comps : List String) : byteLen (joinPath comps) ≤ pathWeight comps := by
  cases comps with
  | nil => simp [joinPath, byteLen_empty]
  | cons a rest =>
    have := byteLen_joinPath (a :: rest) (by simp)
    omega

/-- A path is at least as long as each of its beginnings. -/
theorem byteLen_joinPath_prefix (a b : List String) :
    byteLen (joinPath a) ≤ byteLen (joinPath (a ++ b)) := by
  cases a with
  | nil => simp [joinPath, byteLen_empty]
  | cons c rest =>
    have h1 := byteLen_joinPath (c :: rest) (by simp)
    have h2 := byteLen_joinPath (c :: rest ++ b) (by simp)
    rw [pathWeight_append] at h2
    omega

/-- What the pieces between the `/` of a character sequence weigh. -/
theorem pathWeight_splitChars (l : List Char) :
    pathWeight ((splitChars l).map String.mk) = (l.map Char.utf8Size).sum + 1 := by
  induction l with
  | nil => simp [splitChars, pathWeight, byteLen_empty]
  | cons c cs ih =>
    simp only [splitChars]
    split
    · next hc =>
      subst hc
      simp only [List.map_cons, pathWeight, byteLen_mk, List.map_nil, List.sum_nil, ih,
        List.sum_cons]
      have : Char.utf8Size '/' = 1 := by decide
      omega
    · split
      · next h0 => exact absurd h0 (splitChars_ne_nil cs)
      · next h t h0 =>
        rw [h0] at ih
        simp only [List.map_cons, pathWeight, byteLen_mk, List.sum_cons] at ih ⊢
        omega

theorem pathWeight_splitPath (path : String) :
    pathWeight (splitPath path) = byteLen path + 1 :=
  pathWeight_splitChars path.toList

theorem pathWeight_cleanComps (rooted : Bool) (acc xs : List String) :
    pathWeight (cleanComps rooted acc xs) ≤ pathWeight acc + pathWeight xs := by
  induction xs generalizing acc with
  | nil => simp [cleanComps, pathWeight_reverse, pathWeight]
  | cons c rest ih =>
    simp only [cleanComps]
    split
    · have := ih acc
      simp only [pathWeight]
      omega
    · split
      · next hdd =>
        split
        · split
          · have := ih []
            simp only [pathWeight] at this ⊢
            omega
          · have := ih [".."]
            simp only [pathWeight, hdd] at this ⊢
            omega
        · next top below =>
          split
          · have := ih (".." :: top :: below)
            simp only [pathWeight, hdd] at this ⊢
            omega
          · have := ih below
            simp only [pathWeight] at this ⊢
            omega
      · have := ih (c :: acc)
        simp only [pathWeight] at this ⊢
        omega

/-! ## `filepath.Dir` -/

theorem cleanComps_mem (rooted : Bool) (acc xs : List String) (x : String)
    (hx : x ∈ cleanComps rooted acc xs) : x ∈ acc ∨ (x ∈ xs ∧ x ≠ "" ∧ x ≠ ".") := by
  induction xs generalizing acc with
  | nil =>
    simp only [cleanComps, List.mem_reverse] at hx
    exact Or.inl hx
  | cons c rest ih =>
    simp only [cleanComps] at hx
    split at hx
    · rcases ih _ hx with h | ⟨h, h2⟩
      · exact Or.inl h
      · exact Or.inr ⟨List.mem_cons_of_mem _ h, h2⟩
    · next hc =>
      have hc1 : c ≠ "" := fun h => hc (Or.inl h)
      have hc2 : c ≠ "." := fun h => hc (Or.inr h)
      have lift : (x ∈ rest ∧ x ≠ "" ∧ x ≠ ".") → x ∈ acc ∨ (x ∈ c :: rest ∧ x ≠ "" ∧ x ≠ ".") :=
        fun h => Or.inr ⟨List.mem_cons_of_mem _ h.1, h.2⟩
      have here : x = c → x ∈ acc ∨ (x ∈ c :: rest ∧ x ≠ "" ∧ x ≠ ".") :=
        fun h => Or.inr ⟨by rw [h]; exact List.mem_cons_self _ _, by rw [h]; exact hc1,
          by rw [h]; exact hc2⟩
      split at hx
      · next hdd =>
        split at hx
        · split at hx
          · rcases ih _ hx with h | h
            · cases h
            · exact lift h
          · rcases ih _ hx with h | h
            · simp only [List.mem_singleton] at h
              exact here (h.trans hdd.symm)
            · exact lift h
        · next top below =>
          split at hx
          · rcases ih _ hx with h | h
            · simp only [List.mem_cons] at h
              rcases h with h | h | h
              · exact here (h.trans hdd.symm)
              · exact Or.inl (by rw [h]; exact List.mem_cons_self _ _)
              · exact Or.inl (List.mem_cons_of_mem _ h)
            · exact lift h
          · rcases ih _ hx with h | h
            · exact Or.inl (List.mem_cons_of_mem _ h)
            · exact lift h
      · rcases ih _ hx with h | h
        · simp only [List.mem_cons] at h
          rcases h with h | h
          · exact here h
          · exact Or.inl h
        · exact lift h

theorem cleanComps_append_empty (rooted : Bool) (acc xs : List String) :
    cleanComps rooted acc (xs ++ [""]) = cleanComps rooted acc xs := by
  induction xs generalizing acc with
  | nil => simp [cleanComps]
  | cons c rest ih =>
    show cleanComps rooted acc (c :: (rest ++ [""])) = cleanComps rooted acc (c :: rest)
    simp only [cleanComps, ih]

theorem mem_splitPath_no_slash (path x : String) (hx : x ∈ splitPath path) :
    '/' ∉ x.toList := by
  unfold splitPath at hx
  obtain ⟨l, hl, rfl⟩ := List.mem_map.mp hx
  exact mem_splitChars_no_slash _ _ hl

theorem dirComps_mem (path x : String) (hx : x ∈ dirComps path) :
    '/' ∉ x.toList ∧ x ≠ "" ∧ x ≠ "." := by
  rcases cleanComps_mem _ _ _ _ hx with h | ⟨h, h2⟩
  · cases h
  · exact ⟨mem_splitPath_no_slash path x (List.mem_of_mem_dropLast h), h2⟩

theorem isAbs_iff (s : String) : isAbs s = true ↔ ∃ t, s.toList = '/' :: t := by
  unfold isAbs
  split
  · next c t h =>
    constructor
    · intro hc
      exact ⟨t, by rw [h, of_decide_eq_true hc]⟩
    · rintro ⟨t', ht⟩
      rw [h] at ht
      cases ht
      simp
  · next h =>
    constructor
    · intro hc
      cases hc
    · rintro ⟨t', ht⟩
      rw [h] at ht
      cases ht

theorem isAbs_of_no_slash (s : String) (h : '/' ∉ s.toList) : isAbs s = false := by
  cases hs : isAbs s with
  | false => rfl
  | true =>
    obtain ⟨t, ht⟩ := (isAbs_iff s).mp hs
    rw [ht] at h
    simp at h

theorem isAbs_slash_append (s : String) : isAbs ("/" ++ s) = true :=
  (isAbs_iff _).mpr ⟨s.toList, by rw [toList_append]; rfl⟩

theorem isAbs_joinPath (comps : List String)
    (h : ∀ c ∈ comps, '/' ∉ c.toList ∧ c ≠ "" ∧ c ≠ ".") : isAbs (joinPath comps) = false := by
  cases hs : isAbs (joinPath comps) with
  | false => rfl
  | true =>
    exfalso
    obtain ⟨t, ht⟩ := (isAbs_iff _).mp hs
    cases comps with
    | nil => cases ht
    | cons a rest =>
      obtain ⟨h1, h2, _⟩ := h a (List.mem_cons_self _ _)
      have ha : ∃ t', a.toList ++ t' = '/' :: t := by
        cases rest with
        | nil => exact ⟨[], by simpa [joinPath] using ht⟩
        | cons b rest =>
          rw [toList_joinPath_cons] at ht
          exact ⟨_, ht⟩
      obtain ⟨t', ht'⟩ := ha
      cases hal : a.toList with
      | nil =>
        exact h2 (congrArg String.mk hal : String.mk a.toList = String.mk [])
      | cons c cs =>
        rw [hal] at ht' h1
        cases ht'
        simp at h1

/-- How `filepath.Dir` renders the directory part. -/
theorem Dir_eq (path : String) :
    filepath.Dir path
      = if isAbs path then "/" ++ joinPath (dirComps path)
        else if dirComps path = [] then "." else joinPath (dirComps path) := by
  by_cases hs : '/' ∈ path.toList
  · obtain ⟨a, b, hab, hb⟩ := exists_last_slash _ hs
    have hsplit : splitPath path = (splitChars a).map String.mk ++ [String.mk b] := by
      unfold splitPath
      rw [hab, splitChars_append, splitChars_of_no_slash b hb]
      simp
    have hdir : splitPath (String.mk (dirChars path.toList))
        = (splitChars a).map String.mk ++ [""] := by
      unfold splitPath
      rw [toList_mk, hab, dirChars_append a b hb]
      have : a ++ ['/'] = a ++ '/' :: [] := rfl
      rw [this, splitChars_append]
      simp [splitChars]
    have habs : isAbs (String.mk (dirChars path.toList)) = isAbs path := by
      unfold isAbs
      rw [toList_mk, hab, dirChars_append a b hb]
      cases a <;> rfl
    unfold filepath.Dir filepath.Clean dirComps
    simp only [habs, hdir, hsplit, cleanComps_append_empty, List.dropLast_concat]
  · have habs : isAbs path = false := isAbs_of_no_slash path hs
    have hsplit : splitPath path = [path] := by
      unfold splitPath
      rw [splitChars_of_no_slash _ hs]
      rfl
    unfold filepath.Dir dirComps
    rw [dirChars_of_no_slash _ hs, habs, hsplit]
    rfl

theorem Dir_ne_empty (path : String) : filepath.Dir path ≠ "" := by
  rw [Dir_eq]
  split
  · intro h
    have := congrArg String.toList h
    rw [toList_append] at this
    cases this
  · split
    · decide
    · next hne =>
      intro h
      cases hc : dirComps path with
      | nil => exact hne hc
      | cons a rest =>
        obtain ⟨_, h2, _⟩ := dirComps_mem path a (by rw [hc]; exact List.mem_cons_self _ _)
        rw [hc] at h
        have ht := congrArg String.toList h
        cases rest with
        | nil =>
          simp only [joinPath] at ht
          exact h2 (congrArg String.mk ht : String.mk a.toList = String.mk [])
        | cons b rest =>
          rw [toList_joinPath_cons] at ht
          have hl := congrArg List.length ht
          simp at hl

theorem isAbs_Dir (path : String) : isAbs (filepath.Dir path) = isAbs path := by
  rw [Dir_eq]
  split
  · next h =>
    rw [h]
    exact isAbs_slash_append _
  · next h =>
    rw [Bool.not_eq_true] at h
    rw [h]
    split
    · rfl
    · exact isAbs_joinPath _ (dirComps_mem path)

theorem startDir_Dir (cwd : Key) (path : String) :
    startDir cwd (filepath.Dir path) = startDir cwd path := by
  unfold startDir
  rw [isAbs_Dir]

theorem splitPath_isAbs (path : String) (h : isAbs path = true) :
    ∃ t, t ≠ [] ∧ splitPath path = "" :: t := by
  obtain ⟨t, ht⟩ := (isAbs_iff path).mp h
  refine ⟨(splitChars t).map String.mk, ?_, ?_⟩
  · intro h0
    exact splitChars_ne_nil t (List.map_eq_nil_iff.mp h0)
  · unfold splitPath
    rw [ht]
    simp [splitChars]

theorem pathWeight_dropLast (l : List String) (h : l ≠ []) :
    pathWeight l.dropLast + 1 ≤ pathWeight l := by
  rcases List.eq_nil_or_concat l with h0 | ⟨xs, last, h1⟩
  · exact absurd h0 h
  · rw [h1, List.concat_eq_append, List.dropLast_concat, pathWeight_append]
    simp only [pathWeight]
    omega

/-- The directory part of a path, as `os.MkdirAll` walks it, is not longer than the
    path. -/
theorem dirPrefix_len (path : String) :
    byteLen (joinPath (dirDone path ++ dirComps path)) ≤ byteLen path := by
  have hw := pathWeight_splitPath path
  have h3 := byteLen_joinPath_le (dirDone path ++ dirComps path)
  rw [pathWeight_append] at h3
  by_cases habs : isAbs path = true
  · obtain ⟨t, htne, ht⟩ := splitPath_isAbs path habs
    have hd : dirComps path = cleanComps true [] t.dropLast := by
      unfold dirComps
      rw [ht, habs, List.dropLast_cons_of_ne_nil htne]
      simp [cleanComps]
    have h1 := pathWeight_cleanComps true [] t.dropLast
    have h2 := pathWeight_dropLast t htne
    have hdone : dirDone path = [""] := by
      unfold dirDone
      rw [if_pos habs]
    rw [hdone, hd] at h3
    rw [hdone, hd]
    rw [ht] at hw
    simp only [pathWeight, byteLen_empty] at hw h1 h3
    omega
  · have h1 := pathWeight_cleanComps (isAbs path) [] (splitPath path).dropLast
    have h2 := pathWeight_dropLast (splitPath path) (by
      unfold splitPath
      intro h0
      exact splitChars_ne_nil _ (List.map_eq_nil_iff.mp h0))
    have hdone : dirDone path = [] := by
      unfold dirDone
      rw [if_neg habs]
    rw [hdone] at h3
    rw [hdone]
    unfold dirComps at h3 ⊢
    simp only [pathWeight] at h1 h3
    omega

theorem mkdirWalk_skip (su : Bool) (made : Perm) (fs : FS) (cur : Key) (done : List String)
    (c : String) (rest : List String) (hc : c = "" ∨ c = ".")
    (hlen : byteLen (joinPath (done ++ [c])) < pathMax)
    (hcur : fs.canSearch su cur = true) :
    mkdirWalk su made fs cur done (c :: rest) = mkdirWalk su made fs cur (done ++ [c]) rest := by
  have hl : canLookup fs su cur c := by
    refine ⟨hcur, ?_⟩
    rcases hc with hc | hc <;>
      · rw [hc]
        decide
  simp only [mkdirWalk]
  rw [if_neg (by omega), if_pos hl, if_pos hc]

/-- The directory walk of `os.MkdirAll` on the rendered directory part is the walk
    on its components. -/
theorem mkdirWalk_Dir (su : Bool) (made : Perm) (fs : FS) (cwd : Key) (path : String)
    (hstart : fs.canSearch su (startDir cwd path) = true) :
    mkdirWalk su made fs (startDir cwd (filepath.Dir path)) [] (splitPath (filepath.Dir path))
      = mkdirWalk su made fs (startDir cwd path) (dirDone path) (dirComps path) := by
  rw [startDir_Dir, Dir_eq]
  have hmem := dirComps_mem path
  by_cases habs : isAbs path = true
  · rw [if_pos habs]
    have hroot : startDir cwd path = [] := by
      unfold startDir
      rw [if_pos habs]
    have hdone : dirDone path = [""] := by
      unfold dirDone
      rw [if_pos habs]
    have hsp : splitPath ("/" ++ joinPath (dirComps path))
        = "" :: splitPath (joinPath (dirComps path)) := by
      unfold splitPath
      rw [toList_append]
      have : ("/" : String).toList ++ (joinPath (dirComps path)).toList
          = [] ++ '/' :: (joinPath (dirComps path)).toList := rfl
      rw [this, splitChars_append]
      rfl
    rw [hsp, hroot, hdone,
      mkdirWalk_skip su made fs [] [] "" _ (Or.inl rfl) (by decide) (canSearch_root fs su)]
    cases hc : dirComps path with
    | nil =>
      have h0 : splitPath (joinPath []) = [""] := by decide
      rw [h0, mkdirWalk_skip su made fs [] ([] ++ [""]) "" _ (Or.inl rfl) (by decide)
        (canSearch_root fs su)]
      rfl
    | cons a rest =>
      rw [← hc, splitPath_joinPath _ (by rw [hc]; simp) (fun c hcm => (hmem c hcm).1)]
      rfl
  · rw [if_neg habs]
    have hdone : dirDone path = [] := by
      unfold dirDone
      rw [if_neg habs]
    rw [hdone]
    split
    · next hnil =>
      rw [hnil]
      have : splitPath "." = ["."] := by decide
      rw [this, mkdirWalk_skip su made fs _ [] "." _ (Or.inr rfl) (by decide) hstart]
      rfl
    · next hne =>
      rw [splitPath_joinPath _ hne (fun c hcm => (hmem c hcm).1)]

/-! ## Walking a path that exists -/

theorem walk_append (fs : FS) (su : Bool) (cur : Key) (xs ys : List String) :
    walk fs su cur (xs ++ ys) = (walk fs su cur xs).bind (fun m => walk fs su m ys) := by
  induction xs generalizing cur with
  | nil => rfl
  | cons c rest ih =>
    show walk fs su cur (c :: (rest ++ ys)) = _
    simp only [walk, ih]
    split
    · split
      · rfl
      · split <;> rfl
    · rfl

theorem canLookup_of_walk_cons {fs : FS} {su : Bool} {cur d : Key} {c : String}
    {rest : List String} (h : walk fs su cur (c :: rest) = some d) : canLookup fs su cur c := by
  simp only [walk] at h
  split at h
  · next hd => exact hd
  · cases h

theorem walk_name {fs : FS} {su : Bool} {cur : Key} {c : String} (hd : canLookup fs su cur c)
    (h1 : c ≠ "") (h2 : c ≠ ".") (h3 : c ≠ "..") :
    walk fs su cur [c] = some (cur ++ [c]) := by
  simp [walk, hd, h1, h2, h3]

theorem walk_dotdot {fs : FS} {su : Bool} {cur : Key} (hd : canLookup fs su cur "..") :
    walk fs su cur [".."] = some cur.dropLast := by
  simp [walk, hd]

/-- A walk through directories that are there is a walk `os.MkdirAll` makes without
    making anything. -/
theorem mkdirWalk_through (su : Bool) (made : Perm) (fs : FS) (cur d : Key)
    (done xs ys : List String)
    (hw : walk fs su cur xs = some d) (hd : fs.isDir d = true)
    (hlen : byteLen (joinPath (done ++ xs)) < pathMax) :
    mkdirWalk su made fs cur done (xs ++ ys) = mkdirWalk su made fs d (done ++ xs) ys := by
  induction xs generalizing cur done with
  | nil =>
    simp only [walk] at hw
    cases hw
    simp
  | cons c rest ih =>
    have hcur := canLookup_of_walk_cons hw
    simp only [walk, if_pos hcur] at hw
    have hpre : ¬ (pathMax ≤ byteLen (joinPath (done ++ [c]))) := by
      have := byteLen_joinPath_prefix (done ++ [c]) rest
      rw [List.append_assoc] at this
      simp only [List.singleton_append] at this
      omega
    have hlen2 : byteLen (joinPath ((done ++ [c]) ++ rest)) < pathMax := by
      rw [List.append_assoc]
      exact hlen
    have hdone : done ++ c :: rest = (done ++ [c]) ++ rest := by simp
    show mkdirWalk su made fs cur done (c :: (rest ++ ys)) = _
    simp only [mkdirWalk]
    rw [if_neg hpre, if_pos hcur, hdone]
    split
    · next hc =>
      rw [if_pos hc] at hw
      exact ih _ _ hw hlen2
    · next hc =>
      rw [if_neg hc] at hw
      split
      · next hc2 =>
        rw [if_pos hc2] at hw
        exact ih _ _ hw hlen2
      · next hc2 =>
        rw [if_neg hc2] at hw
        have hnext : fs.isDir (cur ++ [c]) = true := by
          cases rest with
          | nil =>
            simp only [walk] at hw
            cases hw
            exact hd
          | cons c2 rest2 => exact isDir_of_canSearch (canLookup_of_walk_cons hw).1
        obtain ⟨p, hp⟩ := isDir_iff.mp hnext
        rw [hp]
        exact ih _ _ hw hlen2

/-- A walk that arrives in a directory makes `os.MkdirAll` find everything in
    place. -/
theorem mkdirWalk_of_walk (su : Bool) (made : Perm) (fs : FS) (cur d : Key)
    (done comps : List String)
    (hw : walk fs su cur comps = some d) (hd : fs.isDir d = true)
    (hlen : byteLen (joinPath (done ++ comps)) < pathMax) :
    mkdirWalk su made fs cur done comps = (none, fs) := by
  have := mkdirWalk_through su made fs cur d done comps [] hw hd hlen
  rw [List.append_nil] at this
  rw [this]
  rfl

/-- Cleaning a path lexically does not change where it leads, when the path as
    written leads somewhere. -/
theorem walk_cleanComps (fs : FS) (su : Bool) (rooted : Bool) (start : Key)
    (hroot : rooted = true → start = []) (acc xs : List String) (cur d : Key)
    (hplain : ∀ a ∈ acc, a ≠ "" ∧ a ≠ ".")
    (hacc : walk fs su start acc.reverse = some cur)
    (hw : walk fs su cur xs = some d) :
    walk fs su start (cleanComps rooted acc xs) = some d := by
  induction xs generalizing acc cur with
  | nil =>
    simp only [walk] at hw
    cases hw
    exact hacc
  | cons c rest ih =>
    have hcur := canLookup_of_walk_cons hw
    simp only [walk, if_pos hcur] at hw
    simp only [cleanComps]
    split
    · next hc =>
      rw [if_pos hc] at hw
      exact ih acc cur hplain hacc hw
    · next hc =>
      rw [if_neg hc] at hw
      split
      · next hc2 =>
        rw [if_pos hc2] at hw
        subst hc2
        split
        · simp only [List.reverse_nil, walk] at hacc
          cases hacc
          split
          · next hr =>
            have h0 := hroot hr
            subst h0
            exact ih [] [] hplain rfl hw
          · refine ih [".."] _ ?_ ?_ hw
            · intro a ha
              simp only [List.mem_singleton] at ha
              subst ha
              exact ⟨by decide, by decide⟩
            · exact walk_dotdot hcur
        · next top below =>
          split
          · next htop =>
            refine ih (".." :: top :: below) _ ?_ ?_ hw
            · intro a ha
              simp only [List.mem_cons] at ha
              rcases ha with ha | ha
              · subst ha
                exact ⟨by decide, by decide⟩
              · exact hplain a (by simpa using ha)
            · rw [List.reverse_cons, walk_append, hacc]
              exact walk_dotdot hcur
          · next htop =>
            refine ih below _ (fun a ha => hplain a (List.mem_cons_of_mem _ ha)) ?_ hw
            rw [List.reverse_cons, walk_append] at hacc
            cases hp : walk fs su start below.reverse with
            | none =>
              rw [hp] at hacc
              cases hacc
            | some p =>
              rw [hp] at hacc
              simp only [Option.bind] at hacc
              have hpd : canLookup fs su p top := canLookup_of_walk_cons hacc
              obtain ⟨ht1, ht2⟩ := hplain top (List.mem_cons_self _ _)
              rw [walk_name hpd ht1 ht2 htop] at hacc
              cases hacc
              simp
      · next hc2 =>
        rw [if_neg hc2] at hw
        refine ih (c :: acc) _ ?_ ?_ hw
        · intro a ha
          simp only [List.mem_cons] at ha
          rcases ha with ha | ha
          · subst ha
            exact ⟨fun h => hc (Or.inl h), fun h => hc (Or.inr h)⟩
          · exact hplain a ha
        · rw [List.reverse_cons, walk_append, hacc]
          exact walk_name hcur (fun h => hc (Or.inl h)) (fun h => hc (Or.inr h)) hc2

theorem splitPath_ne_nil (path : String) : splitPath path ≠ [] := by
  unfold splitPath
  intro h
  exact splitChars_ne_nil _ (List.map_eq_nil_iff.mp h)

theorem resolve_some {fs : FS} {su : Bool} {cwd k : Key} {path : String}
    (h : resolve fs su cwd path = some k) :
    path ≠ "" ∧ byteLen path < pathMax
      ∧ walk fs su (startDir cwd path) (splitPath path) = some k := by
  unfold resolve at h
  split at h
  · cases h
  · next h0 =>
    rw [not_or] at h0
    exact ⟨h0.1, by omega, h⟩

theorem resolve_of_walk {fs : FS} {su : Bool} {cwd k : Key} {path : String}
    (h1 : path ≠ "") (h2 : byteLen path < pathMax)
    (h : walk fs su (startDir cwd path) (splitPath path) = some k) :
    resolve fs su cwd path = some k := by
  unfold resolve
  rw [if_neg (by
    rw [not_or]
    exact ⟨h1, by omega⟩)]
  exact h

/-- When `outputPath` leads somewhere, its directory is there already: `os.MkdirAll`
    on `filepath.Dir outputPath` succeeds and changes nothing. -/
theorem mkdirWalk_Dir_of_resolve (su : Bool) (made : Perm) (fs : FS) (cwd : Key)
    (path : String) (k : Key)
    (h : resolve fs su cwd path = some k) :
    mkdirWalk su made fs (startDir cwd (filepath.Dir path)) []
      (splitPath (filepath.Dir path)) = (none, fs) := by
  obtain ⟨hne, hlen, h⟩ := resolve_some h
  obtain ⟨xs, last, hx⟩ : ∃ xs last, splitPath path = xs ++ [last] := by
    rcases List.eq_nil_or_concat (splitPath path) with h0 | ⟨xs, last, h1⟩
    · exact absurd h0 (splitPath_ne_nil path)
    · exact ⟨xs, last, by rw [h1, List.concat_eq_append]⟩
  have hstart : fs.canSearch su (startDir cwd path) = true := by
    cases hs : splitPath path with
    | nil => exact absurd hs (splitPath_ne_nil path)
    | cons c rest =>
      rw [hs] at h
      exact (canLookup_of_walk_cons h).1
  rw [mkdirWalk_Dir su made fs cwd path hstart]
  rw [hx, walk_append] at h
  cases hp : walk fs su (startDir cwd path) xs with
  | none =>
    rw [hp] at h
    cases h
  | some d =>
    rw [hp] at h
    simp only [Option.bind] at h
    have hd : fs.isDir d = true := isDir_of_canSearch (canLookup_of_walk_cons h).1
    refine mkdirWalk_of_walk su made fs _ d _ _ ?_ hd ?_
    · unfold dirComps
      rw [hx, List.dropLast_concat]
      refine walk_cleanComps fs su _ _ ?_ [] xs _ d (fun a ha => by cases ha) rfl hp
      intro habs
      unfold startDir
      rw [if_pos habs]
    · have := dirPrefix_len path
      omega

/-! ## Paths without `..` -/

theorem namesOf_cons_skip (c : String) (rest : List String) (h : c = "" ∨ c = ".") :
    namesOf (c :: rest) = namesOf rest := by
  unfold namesOf
  rw [List.filter_cons_of_neg]
  rcases h with h | h <;> simp [h]

theorem namesOf_cons_name (c : String) (rest : List String) (h : ¬(c = "" ∨ c = ".")) :
    namesOf (c :: rest) = c :: namesOf rest := by
  unfold namesOf
  rw [List.filter_cons_of_pos]
  have h1 : c ≠ "" := fun hc => h (Or.inl hc)
  have h2 : c ≠ "." := fun hc => h (Or.inr hc)
  simp [h1, h2]

theorem mem_namesOf {segs : List String} {n : String} (h : n ∈ namesOf segs) :
    n ∈ segs ∧ n ≠ "" ∧ n ≠ "." := by
  unfold namesOf at h
  simpa using h

theorem cleanComps_no_dotdot (rooted : Bool) (acc xs : List String) (h : ".." ∉ xs) :
    cleanComps rooted acc xs = acc.reverse ++ namesOf xs := by
  induction xs generalizing acc with
  | nil => simp [cleanComps, namesOf]
  | cons c rest ih =>
    simp only [List.mem_cons, not_or] at h
    simp only [cleanComps]
    split
    · next hc => rw [ih _ h.2, namesOf_cons_skip c rest hc]
    · next hc =>
      rw [if_neg (fun hd => h.1 hd.symm), ih _ h.2, namesOf_cons_name c rest hc]
      simp

theorem cleanComps_append (rooted : Bool) (acc xs ys : List String) :
    cleanComps rooted acc (xs ++ ys)
      = cleanComps rooted (cleanComps rooted acc xs).reverse ys := by
  induction xs generalizing acc with
  | nil => simp [cleanComps]
  | cons c rest ih =>
    show cleanComps rooted acc (c :: (rest ++ ys)) = _
    simp only [cleanComps]
    split
    · exact ih _
    · split
      · split
        · split
          · exact ih _
          · exact ih _
        · split
          · exact ih _
          · exact ih _
      · exact ih _

/-- A walk over segments without `..`, through directories that all exist and
    can be searched, leads to the place the names spell. -/
theorem walk_names (fs : FS) (su : Bool) (cur : Key) (xs : List String) (h : ".." ∉ xs)
    (hshort : ∀ s ∈ xs, FitsName s)
    (hdirs : ∀ i, i ≤ (namesOf xs).length →
      fs.canSearch su (cur ++ (namesOf xs).take i) = true) :
    walk fs su cur xs = some (cur ++ namesOf xs) := by
  induction xs generalizing cur with
  | nil => simp [walk, namesOf]
  | cons c rest ih =>
    simp only [List.mem_cons, not_or] at h
    have h0 := hdirs 0 (Nat.zero_le _)
    simp only [List.take_zero, List.append_nil] at h0
    have hl : canLookup fs su cur c := ⟨h0, hshort c (List.mem_cons_self _ _)⟩
    have hshort2 : ∀ s ∈ rest, FitsName s :=
      fun s hs => hshort s (List.mem_cons_of_mem _ hs)
    simp only [walk, if_pos hl]
    split
    · next hc =>
      rw [namesOf_cons_skip c rest hc] at hdirs ⊢
      exact ih cur h.2 hshort2 hdirs
    · next hc =>
      rw [if_neg (fun hd => h.1 hd.symm)]
      rw [namesOf_cons_name c rest hc] at hdirs ⊢
      rw [ih (cur ++ [c]) h.2 hshort2]
      · simp
      · intro i hi
        have := hdirs (i + 1) (by simpa using hi)
        simpa using this

theorem take_succ_ne (cur : Key) (c : String) (rest : List String) (i : Nat)
    (hi : i + 1 ≤ rest.length) : cur ++ [c] ++ rest.take (i + 1) ≠ cur ++ [c] := by
  intro he
  have := congrArg List.length he
  simp only [List.length_append, List.length_take, List.length_cons, List.length_nil] at this
  omega

/-- The walk of `os.MkdirAll` along plain names under which nothing exists, from a
    directory the process may search and write, with permissions for the new
    directories that let it search and write them: every directory on the way
    is made, and nothing else changes. -/
theorem mkdirWalk_missing (su : Bool) (made : Perm) (fs : FS) (cur : Key)
    (done comps : List String)
    (h : ∀ n ∈ comps, PlainName n) (hcur : fs.canSearch su cur = true)
    (hwr : comps ≠ [] → fs.canWrite su cur = true)
    (hmade : comps ≠ [] → made.searchable su = true ∧ made.writable su = true)
    (hmissing : ∀ i, 1 ≤ i → i ≤ comps.length → fs.node (cur ++ comps.take i) = none)
    (hlen : byteLen (joinPath (done ++ comps)) < pathMax) :
    ∃ fs1, mkdirWalk su made fs cur done comps = (none, fs1)
      ∧ (∀ i, 1 ≤ i → i ≤ comps.length →
          fs1.node (cur ++ comps.take i) = some (Node.dir made))
      ∧ (∀ k, (∀ i, 1 ≤ i → i ≤ comps.length → k ≠ cur ++ comps.take i) →
          fs1.node k = fs.node k) := by
  induction comps generalizing fs cur done with
  | nil =>
    refine ⟨fs, rfl, ?_, fun _ _ => rfl⟩
    intro i h1 h2
    simp only [List.length_nil] at h2
    omega
  | cons c rest ih =>
    obtain ⟨h1, h2, h3, _, h5⟩ := h c (List.mem_cons_self _ _)
    have hrest : ∀ n ∈ rest, PlainName n := fun n hn => h n (List.mem_cons_of_mem _ hn)
    obtain ⟨hms, hmw⟩ := hmade (by simp)
    have hpre : ¬ (pathMax ≤ byteLen (joinPath (done ++ [c]))) := by
      have := byteLen_joinPath_prefix (done ++ [c]) rest
      rw [List.append_assoc] at this
      simp only [List.singleton_append] at this
      omega
    have hnone : fs.node (cur ++ [c]) = none := by
      have := hmissing 1 (Nat.le_refl _) (by simp)
      simpa using this
    have hne : cur ++ [c] ≠ [] := by simp
    obtain ⟨fs1, hm, hall, hother⟩ := ih (fs.set (cur ++ [c]) (Node.dir made)) (cur ++ [c])
      (done ++ [c]) hrest
      (canSearch_iff.mpr ⟨made, node_set_self fs _ hne, hms⟩)
      (fun _ => canWrite_iff.mpr ⟨made, node_set_self fs _ hne, hmw⟩)
      (fun _ => ⟨hms, hmw⟩)
      (by
        intro i hi1 hi2
        obtain ⟨j, rfl⟩ : ∃ j, i = j + 1 := ⟨i - 1, by omega⟩
        rw [node_set_other fs _ (Ne.symm (take_succ_ne cur c rest j hi2))]
        have := hmissing (j + 2) (by omega) (by simp at hi2 ⊢; omega)
        simpa using this)
      (by
        rw [List.append_assoc]
        exact hlen)
    have hl : canLookup fs su cur c := ⟨hcur, h5⟩
    refine ⟨fs1, ?_, ?_, ?_⟩
    · simp only [mkdirWalk]
      rw [if_neg hpre, if_pos hl, if_neg (by simp [h1, h2]), if_neg h3, hnone]
      simp only
      rw [if_pos (hwr (by simp))]
      exact hm
    · intro i hi1 hi2
      obtain ⟨j, rfl⟩ : ∃ j, i = j + 1 := ⟨i - 1, by omega⟩
      cases j with
      | zero =>
        have : fs1.node (cur ++ [c]) = (fs.set (cur ++ [c]) (Node.dir made)).node (cur ++ [c]) := by
          apply hother
          intro i hi1 hi3
          obtain ⟨j, rfl⟩ : ∃ j, i = j + 1 := ⟨i - 1, by omega⟩
          exact Ne.symm (take_succ_ne cur c rest j hi3)
        simp only [List.take_succ_cons, List.take_zero]
        rw [this]
        exact node_set_self fs _ hne
      | succ j =>
        have := hall (j + 1) (by omega) (by simp at hi2 ⊢; omega)
        simpa using this
    · intro k hk
      rw [hother k (by
        intro i hi1 hi2
        have := hk (i + 1) (by omega) (by simp; omega)
        simpa using this)]
      apply node_set_other
      have := hk 1 (by omega) (by simp)
      simpa using Ne.symm this

/-- The directory part of a path that ends in segments without `..`: the
    cleaned beginning, then the names. -/
theorem dirComps_split (path : String) (lead segs : List String) (base : String)
    (hpath : splitPath path = lead ++ segs ++ [base]) (hsegs : ".." ∉ segs) :
    dirComps path = cleanComps (isAbs path) [] lead ++ namesOf segs := by
  unfold dirComps
  rw [hpath, List.dropLast_concat, cleanComps_append, cleanComps_no_dotdot _ _ _ hsegs,
    List.reverse_reverse]

theorem plain_namesOf (path : String) (lead segs : List String) (base : String)
    (hpath : splitPath path = lead ++ segs ++ [base]) (hsegs : ".." ∉ segs)
    (hshort : ∀ s ∈ segs, FitsName s) :
    ∀ n ∈ namesOf segs, PlainName n := by
  intro n hn
  obtain ⟨h1, h2, h3⟩ := mem_namesOf hn
  refine ⟨h2, h3, fun h => hsegs (h ▸ h1), ?_, hshort n h1⟩
  exact mem_splitPath_no_slash path n (by
    rw [hpath]
    exact List.mem_append_left _ (List.mem_append_right _ h1))

/-! ## The content of the destination -/

theorem stat_saved {fs1 : FS} {su : Bool} {umask : Mode} {cwd k : Key} {outputPath : String}
    {p : Perm} (data : Bytes)
    (hk : resolve fs1 su cwd outputPath = some k) (hc : Creatable fs1 su umask k p) :
    stat ((fs1.set k (Node.file [] p)).set k (Node.file data p)) su cwd outputPath
      = some (Node.file data p) := by
  have hkne : k ≠ [] := ne_nil_of_not_isDir hc.not_isDir
  have hres : resolve ((fs1.set k (Node.file [] p)).set k (Node.file data p)) su cwd outputPath
      = some k := by
    rw [resolve_congr (fun k' => (saved_dirs hc rfl su k').2.1)]
    exact hk
  unfold stat
  rw [hres]
  exact node_set_self _ _ hkne

theorem stat_some {fs : FS} {su : Bool} {cwd : Key} {path : String} {nd : Node}
    (h : stat fs su cwd path = some nd) :
    ∃ k, resolve fs su cwd path = some k ∧ fs.node k = some nd ∧ path ≠ "" := by
  unfold stat at h
  split at h
  · next k hk => exact ⟨k, hk, h, (resolve_some hk).1⟩
  · cases h

theorem resolve_mono {fs fs' : FS} {su : Bool}
    (h : ∀ k, fs.canSearch su k = true → fs'.canSearch su k = true)
    {cwd k : Key} {path : String} (hr : resolve fs su cwd path = some k) :
    resolve fs' su cwd path = some k := by
  obtain ⟨h1, h2, h3⟩ := resolve_some hr
  exact resolve_of_walk h1 h2 (walk_mono h _ _ _ h3)

/-! ## The claims -/

/-- C1: with no source at all, `GetImage("", "", outputPath)` returns the error
    "both source URL and local path are empty" and leaves the world exactly as
    it was: the tree, the open handles, the log and the trace of collaborator
    calls are unchanged, so no request was issued, nothing was opened and
    nothing was created or truncated. -/
theorem no_source_fails_without_io (outputPath : String) (w : World) :
    GetImage "" "" outputPath w = (some "both source URL and local path are empty", w) := by
  simp [GetImage]

/-- C2: with a non-empty `sourceURL` the run does not depend on `localPath`: any
    two local paths give the same error and the same final world; no call to
    `os.Open` is made; and every regular file of the final tree is either
    untouched or holds bytes of the response body, from its start. -/
theorem remote_source_ignores_local_path (sourceURL lp1 lp2 outputPath : String) (w : World)
    (h : sourceURL ≠ "") :
    GetImage sourceURL lp1 outputPath w = GetImage sourceURL lp2 outputPath w
    ∧ (∀ e ∈ newEvents w (GetImage sourceURL lp1 outputPath w).2,
        ∀ name, e.call ≠ Call.osOpen name)
    ∧ (∀ k c p, (GetImage sourceURL lp1 outputPath w).2.fs.node k = some (Node.file c p) →
        w.fs.node k = some (Node.file c p)
        ∨ ∃ status body n, w.net sourceURL = HttpResult.response status body
            ∧ c = body.take n) := by
  refine ⟨by simp [GetImage, h], ?_, ?_⟩
  · obtain ⟨evs, ht, hshape⟩ := GetImage_trace sourceURL lp1 outputPath w
    rw [newEvents_append _ _ _ ht]
    rcases hshape with ⟨hu, _⟩ | ⟨_, m, _, hev⟩ | ⟨_, st, body, hh, ce, _, _, _, hev⟩
        | ⟨_, hh, ce, sevs, hsave, hev⟩ | ⟨hu, _⟩ | ⟨hu, _⟩
    · exact absurd hu h
    · subst hev
      simp
    · subst hev
      simp
    · subst hev
      rcases hsave with ⟨m, _, hs⟩ | ⟨m, _, hs⟩ | ⟨f, m, ce2, _, hs⟩ | ⟨f, ce2, _, hs⟩ <;>
        · subst hs
          simp
    · exact absurd hu h
    · exact absurd hu h
  · intro k c p hn
    rcases GetImage_cases sourceURL lp1 outputPath w with ⟨hu, _, _⟩ | ⟨m, w1, _, h1, hg⟩
        | ⟨r, w1, _, h1, _, hg⟩ | ⟨r, w1, _, h1, _, hg⟩ | ⟨m, w1, hu, _⟩ | ⟨f, w1, hu, _⟩
    · exact absurd hu h
    · rw [hg] at hn
      cases hnet : w.net sourceURL with
      | failed e =>
        rw [Get_failed hnet] at h1
        cases h1
        exact Or.inl hn
      | response status body =>
        rw [Get_response hnet] at h1
        cases h1
    · rw [hg] at hn
      cases hnet : w.net sourceURL with
      | failed e =>
        rw [Get_failed hnet] at h1
        cases h1
      | response status body =>
        rw [Get_response hnet] at h1
        cases h1
        exact Or.inl hn
    · rw [hg] at hn
      cases hnet : w.net sourceURL with
      | failed e =>
        rw [Get_failed hnet] at h1
        cases h1
      | response status body =>
        rw [Get_response hnet] at h1
        cases h1
        rcases save_fs_body _ _ _ body (findHandle_cons_self _ _ _) k c p hn with
          h2 | ⟨n, h2⟩
        · exact Or.inl h2
        · exact Or.inr ⟨status, body, n, rfl, h2⟩
    · exact absurd hu h
    · exact absurd hu h

/-- C2, at the sample world: the picture is fetched with two different local
    paths given. -/
theorem remote_source_ignores_local_path_witness :
    GetImage "http://example.com/image.jpg" "a.png" "out/b.jpg" sampleWorld
      = GetImage "http://example.com/image.jpg" "" "out/b.jpg" sampleWorld :=
  (remote_source_ignores_local_path "http://example.com/image.jpg" "a.png" "" "out/b.jpg"
    sampleWorld (by decide)).1

/-- C3: when the GET gets a response whose status is not 200, `GetImage` returns
    "error: status code <code>", whatever the body; the only calls made are the
    GET and the deferred `Close` of the body, so neither `os.MkdirAll` nor
    `os.Create` runs; the tree after the call is the tree before it, and so is
    the log. -/
theorem bad_status_creates_nothing (sourceURL localPath outputPath : String) (w : World)
    (status : Int) (body : Bytes) (h : sourceURL ≠ "")
    (hn : w.net sourceURL = HttpResult.response status body) (hs : status ≠ 200) :
    (GetImage sourceURL localPath outputPath w).1
      = some ("error: status code " ++ toString status)
    ∧ (GetImage sourceURL localPath outputPath w).2.fs = w.fs
    ∧ (GetImage sourceURL localPath outputPath w).2.log = w.log
    ∧ newEvents w (GetImage sourceURL localPath outputPath w).2
      = [⟨Call.httpGet sourceURL, none⟩,
         ⟨Call.close (freshHandle w.handles), w.fault (Call.close (freshHandle w.handles))⟩] := by
  simp [GetImage, h, http.Get, hn, http.StatusOK, hs, close, World.record, findHandle, newEvents]

/-- C3, at the sample world: the page that answers 404. -/
theorem bad_status_creates_nothing_witness :
    (GetImage "http://example.com/missing.jpg" "" "out/b.jpg" sampleWorld).1
      = some "error: status code 404"
    ∧ (GetImage "http://example.com/missing.jpg" "" "out/b.jpg" sampleWorld).2.fs
      = sampleWorld.fs :=
  have h := bad_status_creates_nothing "http://example.com/missing.jpg" "" "out/b.jpg"
    sampleWorld 404 [9] (by decide) (by decide) (by decide)
  ⟨h.1, h.2.1⟩

/-- C4, as stated, fails in four ways. In each case `a.png` is a readable file
    with content `[1, 2, 3]`, the directories of `outputPath` do not exist and
    `os.MkdirAll` can make them, and no failure is injected.
    With `x/../out/b.png`: `filepath.Dir` cleans the directory part to `out`, which
    `os.MkdirAll` makes, but the system looks `x` up, so `os.Create` fails; `x` is
    still missing, `out` was made, and there is no file at `outputPath`.
    Under the umask `0o222` with `out/b.png`: `out` is made without the write bit,
    and `os.Create` is refused in it.
    With a file name of 256 bytes, and with a file name that holds a zero byte:
    `out` is made and `os.Create` is refused. -/
theorem local_copy_into_missing_directories_can_fail :
    (stat sampleWorld.fs false sampleWorld.cwd "a.png" = some (Node.file [1, 2, 3] userFile)
      ∧ userFile.readable false = true
      ∧ Undisturbed sampleWorld ∧ Undisturbed readOnlyUmaskWorld)
    ∧ (stat sampleWorld.fs false sampleWorld.cwd "x" = none
      ∧ stat sampleWorld.fs false sampleWorld.cwd "out" = none
      ∧ (os.MkdirAll "x" os.ModePerm sampleWorld).1 = none
      ∧ (os.MkdirAll "out" os.ModePerm sampleWorld).1 = none
      ∧ (GetImage "" "a.png" "x/../out/b.png" sampleWorld).1
          = some "error creating the file: open x/../out/b.png: no such file or directory"
      ∧ stat (GetImage "" "a.png" "x/../out/b.png" sampleWorld).2.fs false sampleWorld.cwd "x"
          = none
      ∧ stat (GetImage "" "a.png" "x/../out/b.png" sampleWorld).2.fs false sampleWorld.cwd "out"
          = some (Node.dir userDir)
      ∧ stat (GetImage "" "a.png" "x/../out/b.png" sampleWorld).2.fs false sampleWorld.cwd
          "x/../out/b.png" = none)
    ∧ (stat readOnlyUmaskWorld.fs false readOnlyUmaskWorld.cwd "a.png"
          = some (Node.file [1, 2, 3] userFile)
      ∧ stat readOnlyUmaskWorld.fs false readOnlyUmaskWorld.cwd "out" = none
      ∧ (os.MkdirAll "out" os.ModePerm readOnlyUmaskWorld).1 = none
      ∧ (GetImage "" "a.png" "out/b.png" readOnlyUmaskWorld).1
          = some "error creating the file: open out/b.png: permission denied"
      ∧ stat (GetImage "" "a.png" "out/b.png" readOnlyUmaskWorld).2.fs false
          readOnlyUmaskWorld.cwd "out/b.png" = none)
    ∧ (byteLen longName = 256
      ∧ (GetImage "" "a.png" ("out/" ++ longName) sampleWorld).1
          = some ("error creating the file: open out/" ++ longName ++ ": file name too long")
      ∧ (GetImage "" "a.png" "out/b\x00.png" sampleWorld).1
          = some "error creating the file: open out/b\x00.png: invalid argument") := by
  refine ⟨⟨by decide, by decide, fun _ _ => rfl, fun _ _ => rfl⟩, by decide, by decide, ?_⟩
  set_option maxRecDepth 100000 in decide

/-- C4, amended: let `localPath` name a regular file with content `c` that the
    process may read. Let `outputPath`, cut at its slashes, be: a beginning `lead`
    that leads to an existing directory `top`, which the process may search and
    write (nothing and the working directory for `out/b.png`, `/tmp` for
    `/tmp/out/b.png`); then segments `segs` without `..`, each a name the system
    takes, under which nothing exists; then a plain file name `base`, where
    nothing exists either. Let `outputPath` be shorter than 4096 bytes, let the
    umask, when a directory has to be made, leave the owner's write and search
    bits, unless the process runs as the superuser, and let no failure be
    injected. Then `GetImage("", localPath, outputPath)` returns `nil`; every
    directory on the way exists afterwards; `outputPath` names a regular file
    whose content is exactly `c`; and `localPath` still names the file it named,
    with content `c`. -/
theorem local_copy_creates_directories (localPath outputPath : String) (w : World) (c : Bytes)
    (q : Perm) (lead segs : List String) (base : String) (top : Key)
    (hsrc : stat w.fs w.superuser w.cwd localPath = some (Node.file c q))
    (hread : q.readable w.superuser = true)
    (hund : Undisturbed w)
    (hpath : splitPath outputPath = lead ++ segs ++ [base])
    (hlen : byteLen outputPath < pathMax)
    (hsegs : ".." ∉ segs) (hfits : ∀ s ∈ segs, FitsName s) (hbase : PlainName base)
    (htop : walk w.fs w.superuser (startDir w.cwd outputPath) lead = some top)
    (htopdir : w.fs.canSearch w.superuser top = true ∧ w.fs.canWrite w.superuser top = true)
    (hmissing : ∀ i, 1 ≤ i → i ≤ (namesOf segs).length + 1 →
      w.fs.node (top ++ (namesOf segs ++ [base]).take i) = none)
    (humask : namesOf segs ≠ [] →
      w.superuser = true ∨ (w.umask.owner.w = false ∧ w.umask.owner.x = false)) :
    (GetImage "" localPath outputPath w).1 = none
    ∧ (∀ i, i ≤ (namesOf segs).length →
        (GetImage "" localPath outputPath w).2.fs.isDir (top ++ (namesOf segs).take i) = true)
    ∧ stat (GetImage "" localPath outputPath w).2.fs w.superuser w.cwd outputPath
        = some (Node.file c (Perm.made os.createMode w.umask))
    ∧ stat (GetImage "" localPath outputPath w).2.fs w.superuser w.cwd localPath
        = some (Node.file c q) := by
  obtain ⟨ks, hks, hnd, hl⟩ := stat_some hsrc
  have hd := plain_namesOf outputPath lead segs base hpath hsegs hfits
  have hstart : w.fs.canSearch w.superuser (startDir w.cwd outputPath) = true := by
    cases lead with
    | nil =>
      simp only [walk] at htop
      cases htop
      exact htopdir.1
    | cons a rest => exact (canLookup_of_walk_cons htop).1
  have hdc := dirComps_split outputPath lead segs base hpath hsegs
  have hwclean : walk w.fs w.superuser (startDir w.cwd outputPath)
      (cleanComps (isAbs outputPath) [] lead) = some top := by
    refine walk_cleanComps w.fs _ _ _ ?_ [] lead _ top (fun a ha => by cases ha) rfl htop
    intro habs
    unfold startDir
    rw [if_pos habs]
  have hlenD : byteLen (joinPath ((dirDone outputPath ++ cleanComps (isAbs outputPath) [] lead)
      ++ namesOf segs)) < pathMax := by
    have := dirPrefix_len outputPath
    rw [hdc, ← List.append_assoc] at this
    omega
  have hlenL : byteLen (joinPath (dirDone outputPath ++ cleanComps (isAbs outputPath) [] lead))
      < pathMax := by
    have := byteLen_joinPath_prefix
      (dirDone outputPath ++ cleanComps (isAbs outputPath) [] lead) (namesOf segs)
    omega
  have hmade : namesOf segs ≠ [] →
      (Perm.made os.ModePerm w.umask).searchable w.superuser = true
        ∧ (Perm.made os.ModePerm w.umask).writable w.superuser = true :=
    fun hne => made_dir_perm _ _ (humask hne)
  obtain ⟨fs1, hm, hall, hother⟩ := mkdirWalk_missing w.superuser
    (Perm.made os.ModePerm w.umask) w.fs top
    (dirDone outputPath ++ cleanComps (isAbs outputPath) [] lead) (namesOf segs) hd htopdir.1
    (fun _ => htopdir.2) hmade
    (by
      intro i hi1 hi2
      have := hmissing i hi1 (by omega)
      rw [List.take_append_of_le_length hi2] at this
      exact this)
    hlenD
  have hm2 : mkdirWalk w.superuser (Perm.made os.ModePerm w.umask) w.fs
      (startDir w.cwd (filepath.Dir outputPath)) []
      (splitPath (filepath.Dir outputPath)) = (none, fs1) := by
    rw [mkdirWalk_Dir _ _ _ _ _ hstart, hdc,
      mkdirWalk_through _ _ _ _ top _ _ _ hwclean (isDir_of_canSearch htopdir.1) hlenL]
    exact hm
  have hperm : ∀ i, i ≤ (namesOf segs).length →
      fs1.canSearch w.superuser (top ++ (namesOf segs).take i) = true
        ∧ fs1.canWrite w.superuser (top ++ (namesOf segs).take i) = true := by
    intro i hi
    cases i with
    | zero =>
      simp only [List.take_zero, List.append_nil]
      exact ⟨mkdirWalk_canSearch_of hm htopdir.1, mkdirWalk_canWrite_of hm htopdir.2⟩
    | succ j =>
      have hne : namesOf segs ≠ [] := by
        intro h0
        rw [h0] at hi
        simp at hi
      have hn := hall (j + 1) (by omega) hi
      exact ⟨canSearch_iff.mpr ⟨_, hn, (hmade hne).1⟩, canWrite_iff.mpr ⟨_, hn, (hmade hne).2⟩⟩
  have hlast := hperm (namesOf segs).length (Nat.le_refl _)
  rw [List.take_length] at hlast
  have hne0 : outputPath ≠ "" := by
    intro h0
    rw [h0] at hpath
    have hsp : splitPath "" = [""] := by decide
    rw [hsp] at hpath
    have hlen0 := congrArg List.length hpath
    simp only [List.length_cons, List.length_nil, List.length_append] at hlen0
    have h1 : lead = [] := List.length_eq_zero.mp (by omega)
    have h2 : segs = [] := List.length_eq_zero.mp (by omega)
    subst h1
    subst h2
    simp only [List.nil_append, List.cons.injEq, and_true] at hpath
    exact hbase.1 hpath.symm
  have hk : resolve fs1 w.superuser w.cwd outputPath
      = some (top ++ namesOf segs ++ [base]) := by
    apply resolve_of_walk hne0 hlen
    rw [hpath, walk_append, walk_append,
      walk_mono (fun k hkd => mkdirWalk_canSearch_of hm hkd) _ _ _ htop]
    simp only [Option.bind]
    rw [walk_names fs1 _ _ segs hsegs hfits (fun i hi => (hperm i hi).1)]
    exact walk_name ⟨hlast.1, hbase.2.2.2.2⟩ hbase.1 hbase.2.1 hbase.2.2.1
  have hdest : w.fs.node (top ++ namesOf segs ++ [base]) = none := by
    have := hmissing ((namesOf segs).length + 1) (by omega) (Nat.le_refl _)
    rw [List.take_of_length_le (by simp)] at this
    rw [List.append_assoc]
    exact this
  have hdest1 : fs1.node (top ++ namesOf segs ++ [base]) = none := by
    rw [hother _ (by
      intro i _ hi2 he
      have := congrArg List.length he
      simp only [List.length_append, List.length_take, List.length_cons,
        List.length_nil] at this
      omega)]
    exact hdest
  have hcr : Creatable fs1 w.superuser w.umask (top ++ namesOf segs ++ [base])
      (Perm.made os.createMode w.umask) := by
    refine Or.inr ⟨hdest1, by simp, ?_, rfl⟩
    rw [List.dropLast_concat]
    exact hlast.2
  have hne : ks ≠ top ++ namesOf segs ++ [base] := by
    intro he
    rw [he, hdest] at hnd
    cases hnd
  have hnd1 : fs1.node ks = some (Node.file c q) := mkdirWalk_keeps_of hm hnd
  have hsucc : Succeeds "" localPath outputPath w
      ((fs1.set (top ++ namesOf segs ++ [base])
          (Node.file [] (Perm.made os.createMode w.umask))).set
        (top ++ namesOf segs ++ [base]) (Node.file c (Perm.made os.createMode w.umask))) := by
    refine Or.inr ⟨rfl, hl, ks, _, hund _ (by simp [Call.stage]), hks, hnd, hread, fs1, _, _, c,
      hund _ (by simp [Call.stage]), Dir_ne_empty _, hm2, hund _ (by simp [Call.stage]), hk, hcr,
      hund _ (by simp [Call.stage]), ?_, rfl⟩
    simp only [sourceBytes]
    rw [node_set_other _ _ (Ne.symm hne), hnd1]
    rfl
  obtain ⟨h1, h2⟩ := GetImage_succeeds hsucc
  have hdir1 := saved_dirs hcr (Eq.refl ((fs1.set (top ++ namesOf segs ++ [base])
          (Node.file [] (Perm.made os.createMode w.umask))).set
        (top ++ namesOf segs ++ [base]) (Node.file c (Perm.made os.createMode w.umask))))
    w.superuser
  refine ⟨h1, ?_, ?_, ?_⟩
  · intro i hi
    rw [h2, (hdir1 _).1]
    exact isDir_of_canSearch (hperm i hi).1
  · rw [h2]
    exact stat_saved c hk hcr
  · rw [h2]
    unfold stat
    rw [resolve_mono (fun k hkd => by
      rw [(hdir1 k).2.1]
      exact mkdirWalk_canSearch_of hm hkd) hks]
    simp only
    rw [node_set_other _ _ (Ne.symm hne), node_set_other _ _ (Ne.symm hne)]
    exact hnd1

/-- C4 amended, at the sample world: `a.png` copied to `./out/deep/b.png`, where
    neither `out` nor `out/deep` exists. -/
theorem local_copy_creates_directories_witness :
    (GetImage "" "a.png" "./out/deep/b.png" sampleWorld).1 = none
    ∧ (GetImage "" "a.png" "./out/deep/b.png" sampleWorld).2.fs.isDir ["home", "out", "deep"]
        = true
    ∧ stat (GetImage "" "a.png" "./out/deep/b.png" sampleWorld).2.fs false sampleWorld.cwd
        "./out/deep/b.png" = some (Node.file [1, 2, 3] userFile)
    ∧ stat (GetImage "" "a.png" "./out/deep/b.png" sampleWorld).2.fs false sampleWorld.cwd
        "a.png" = some (Node.file [1, 2, 3] userFile) :=
  have h := local_copy_creates_directories "a.png" "./out/deep/b.png" sampleWorld [1, 2, 3]
    userFile ["."] ["out", "deep"] "b.png" ["home"] (by decide) (by decide) (fun _ _ => rfl)
    (by decide) (by decide) (by decide) (by decide) (by decide) (by decide) (by decide)
    (by
      intro i hi1 hi2
      have hl : (namesOf ["out", "deep"]).length = 2 := by decide
      rw [hl] at hi2
      have hi3 : i = 1 ∨ i = 2 ∨ i = 3 := by omega
      rcases hi3 with rfl | rfl | rfl <;> decide)
    (fun _ => Or.inr (by decide))
  ⟨h.1, h.2.1 2 (by decide), h.2.2.1, h.2.2.2⟩

/-- C5, as stated, fails in two ways. When `outputPath` and `localPath` name the
    same file, here `a.png` with content `[1, 2, 3]` copied onto itself: `os.Open`
    opens it, `os.Create` truncates it, `io.Copy` then finds nothing to read;
    `GetImage` returns `nil` and the file is left empty. And when `outputPath` names
    a file the process may write and not read, here `drop.png`: `os.Create` opens
    for reading and writing, is refused, and the old content stays. -/
theorem overwrite_loses_content_or_is_refused :
    (stat sampleWorld.fs false sampleWorld.cwd "a.png" = some (Node.file [1, 2, 3] userFile)
      ∧ userFile.readable false = true ∧ userFile.writable false = true
      ∧ (GetImage "" "a.png" "a.png" sampleWorld).1 = none
      ∧ stat (GetImage "" "a.png" "a.png" sampleWorld).2.fs false sampleWorld.cwd "a.png"
          = some (Node.file [] userFile))
    ∧ (stat sampleWorld.fs false sampleWorld.cwd "drop.png" = some (Node.file [9] writeOnly)
      ∧ writeOnly.writable false = true
      ∧ (GetImage "" "a.png" "drop.png" sampleWorld).1
          = some "error creating the file: open drop.png: permission denied"
      ∧ stat (GetImage "" "a.png" "drop.png" sampleWorld).2.fs false sampleWorld.cwd "drop.png"
          = some (Node.file [9] writeOnly)) := by
  decide

/-- C5, amended: let `outputPath` name an existing regular file that the process
    may read and write, with any old content, and let the source be valid with
    bytes `c`: a response with status 200 and body `c`, or a local regular file
    with content `c` that the process may read and that is not the file
    `outputPath` names; no failure is injected. Then `GetImage` returns `nil` and
    the content of `outputPath` is exactly `c`. -/
theorem overwrite_replaces_content (sourceURL localPath outputPath : String) (w : World)
    (old c : Bytes) (p : Perm)
    (hdest : stat w.fs w.superuser w.cwd outputPath = some (Node.file old p))
    (hrw : p.readable w.superuser = true ∧ p.writable w.superuser = true)
    (hund : Undisturbed w)
    (hsrc : (sourceURL ≠ "" ∧ w.net sourceURL = HttpResult.response 200 c)
      ∨ (sourceURL = ""
          ∧ (∃ q, stat w.fs w.superuser w.cwd localPath = some (Node.file c q)
              ∧ q.readable w.superuser = true)
          ∧ resolve w.fs w.superuser w.cwd localPath
              ≠ resolve w.fs w.superuser w.cwd outputPath)) :
    (GetImage sourceURL localPath outputPath w).1 = none
    ∧ stat (GetImage sourceURL localPath outputPath w).2.fs w.superuser w.cwd outputPath
        = some (Node.file c p) := by
  obtain ⟨k, hk, hkn, _⟩ := stat_some hdest
  have hcr : Creatable w.fs w.superuser w.umask k p := Or.inl ⟨old, hkn, hrw.1, hrw.2⟩
  have hm := mkdirWalk_Dir_of_resolve w.superuser (Perm.made os.ModePerm w.umask) w.fs w.cwd
    outputPath k hk
  have hsaves : ∀ s, sourceBytes (w.fs.set k (Node.file [] p)) s = Except.ok c →
      Saves w s outputPath ((w.fs.set k (Node.file [] p)).set k (Node.file c p)) :=
    fun s hs => ⟨w.fs, k, p, c, hund _ (by simp [Call.stage]), Dir_ne_empty _, hm,
      hund _ (by simp [Call.stage]), hk, hcr, hund _ (by simp [Call.stage]), hs, rfl⟩
  have hsucc : Succeeds sourceURL localPath outputPath w
      ((w.fs.set k (Node.file [] p)).set k (Node.file c p)) := by
    rcases hsrc with ⟨hu, hn⟩ | ⟨hu, ⟨q, hst, hq⟩, hne⟩
    · exact Or.inl ⟨hu, c, hn, hsaves _ rfl⟩
    · obtain ⟨ks, hks, hnd, hl⟩ := stat_some hst
      refine Or.inr ⟨hu, hl, ks, _, hund _ (by simp [Call.stage]), hks, hnd, hq, hsaves _ ?_⟩
      have hkk : k ≠ ks := by
        intro he
        apply hne
        rw [hks, hk, he]
      simp only [sourceBytes]
      rw [node_set_other _ _ hkk, hnd]
      rfl
  obtain ⟨h1, h2⟩ := GetImage_succeeds hsucc
  exact ⟨h1, by rw [h2]; exact stat_saved c hk hcr⟩

/-- C5 amended, at the sample world: `a.png` copied over `old.png`. -/
theorem overwrite_replaces_content_witness :
    (GetImage "" "a.png" "old.png" sampleWorld).1 = none
    ∧ stat (GetImage "" "a.png" "old.png" sampleWorld).2.fs false sampleWorld.cwd "old.png"
        = some (Node.file [1, 2, 3] userFile) :=
  overwrite_replaces_content "" "a.png" "old.png" sampleWorld [4, 5, 6, 7] [1, 2, 3] userFile
    (by decide) (by decide) (fun _ _ => rfl)
    (Or.inr ⟨rfl, ⟨userFile, by decide, by decide⟩, by decide⟩)

/-- C6, as stated, fails in two ways. At the empty local path, which names no
    file: `GetImage("", "", "out.png")` takes the last branch and returns the
    no-source error, not a source-open error. And at a local path that names a
    directory, which is not a file either, here `.`: `os.Open` opens the
    directory, the destination `out.png`, which did not exist, is created, and
    the error is the copy error. -/
theorem empty_or_directory_local_path_is_no_open_error :
    (stat sampleWorld.fs false sampleWorld.cwd "" = none
      ∧ (GetImage "" "" "out.png" sampleWorld).1
          = some "both source URL and local path are empty"
      ∧ ¬ ∃ m, (GetImage "" "" "out.png" sampleWorld).1
          = some ("error opening the local file: " ++ m))
    ∧ (stat sampleWorld.fs false sampleWorld.cwd "." = some (Node.dir userDir)
      ∧ stat sampleWorld.fs false sampleWorld.cwd "out.png" = none
      ∧ (GetImage "" "." "out.png" sampleWorld).1
          = some "error saving the image: read .: is a directory"
      ∧ (¬ ∃ m, (GetImage "" "." "out.png" sampleWorld).1
          = some ("error opening the local file: " ++ m))
      ∧ stat (GetImage "" "." "out.png" sampleWorld).2.fs false sampleWorld.cwd "out.png"
          = some (Node.file [] userFile)) := by
  have h1 : (GetImage "" "" "out.png" sampleWorld).1
      = some "both source URL and local path are empty" := by decide
  have h2 : (GetImage "" "." "out.png" sampleWorld).1
      = some "error saving the image: read .: is a directory" := by decide
  refine ⟨⟨by decide, h1, ?_⟩, by decide, by decide, h2, ?_, by decide⟩
  · rintro ⟨m, hm⟩
    rw [h1] at hm
    exact append_ne_of_mismatch _ _ _ (by decide) (Option.some.inj hm).symm
  · rintro ⟨m, hm⟩
    rw [h2] at hm
    exact append_ne_of_mismatch _ _ _ (by decide) (Option.some.inj hm).symm

/-- C6, amended: for every non-empty `localPath` under which nothing is found,
    neither a file nor a directory, `GetImage("", localPath, outputPath)` returns
    "error opening the local file: " followed by the error of `os.Open`, and the
    only thing it did is that one call: the tree (so the destination, present or
    absent, and every directory) and the open handles are as before. -/
theorem missing_local_file_leaves_destination (localPath outputPath : String) (w : World)
    (hl : localPath ≠ "") (hs : stat w.fs w.superuser w.cwd localPath = none) :
    ∃ m, (GetImage "" localPath outputPath w).1 = some ("error opening the local file: " ++ m)
      ∧ (GetImage "" localPath outputPath w).2 = w.record (Call.osOpen localPath) (some m)
      ∧ (GetImage "" localPath outputPath w).2.fs = w.fs
      ∧ (GetImage "" localPath outputPath w).2.handles = w.handles := by
  rcases Open_cases localPath w with ⟨m, hm⟩ | ⟨k, nd, _, hr, hnd, _, _⟩
  · refine ⟨m, ?_, ?_, ?_, ?_⟩ <;> simp [GetImage, hl, hm, World.record]
  · unfold stat at hs
    rw [hr] at hs
    simp only at hs
    rw [hnd] at hs
    cases hs

/-- C6 amended, at the sample world: there is no `b.png`. -/
theorem missing_local_file_leaves_destination_witness :
    ∃ m, (GetImage "" "b.png" "a.png" sampleWorld).1
        = some ("error opening the local file: " ++ m)
      ∧ (GetImage "" "b.png" "a.png" sampleWorld).2
        = sampleWorld.record (Call.osOpen "b.png") (some m)
      ∧ (GetImage "" "b.png" "a.png" sampleWorld).2.fs = sampleWorld.fs
      ∧ (GetImage "" "b.png" "a.png" sampleWorld).2.handles = sampleWorld.handles :=
  missing_local_file_leaves_destination "b.png" "a.png" sampleWorld (by decide) (by decide)

/-- C7, as stated, fails under a umask that takes the write bit away, here
    `0o222`, for a process that is not the superuser: the first run creates
    `b.png` with mode `0o444`, writes it through the handle it holds and returns
    `nil`; the second run, in the world the first one left, is refused by
    `os.Create`, which opens the file for writing. -/
theorem second_run_is_refused_under_read_only_umask :
    (GetImage "" "a.png" "b.png" readOnlyUmaskWorld).1 = none
    ∧ stat (GetImage "" "a.png" "b.png" readOnlyUmaskWorld).2.fs false readOnlyUmaskWorld.cwd
        "b.png" = some (Node.file [1, 2, 3] ⟨Mode.ofNat 0o444, Who.owner⟩)
    ∧ (GetImage "" "a.png" "b.png" (GetImage "" "a.png" "b.png" readOnlyUmaskWorld).2).1
        = some "error creating the file: open b.png: permission denied" := by
  decide

/-- C7, amended: let a run of `GetImage` in the world `w` succeed, and let the file
    it leaves at `outputPath` be one the process may open for reading and
    writing. Let `w2` be a world with the tree the first run left, with the open
    handles of `w` (which the first run left, too), and with the environment of
    `w`: working directory, user, umask, network and injected failures. Then the
    run with the same arguments in `w2` succeeds too, and `outputPath` names the
    same regular file, with the same content, after the second run as after the
    first. -/
theorem second_run_same_content (sourceURL localPath outputPath : String) (w w2 : World)
    (h : (GetImage sourceURL localPath outputPath w).1 = none)
    (hrw : ∀ c p, stat (GetImage sourceURL localPath outputPath w).2.fs w.superuser w.cwd
        outputPath = some (Node.file c p) →
      p.readable w.superuser = true ∧ p.writable w.superuser = true)
    (hfs : w2.fs = (GetImage sourceURL localPath outputPath w).2.fs)
    (hh : w2.handles = w.handles) (henv : SameEnv w w2) :
    (GetImage sourceURL localPath outputPath w2).1 = none
    ∧ stat (GetImage sourceURL localPath outputPath w2).2.fs w.superuser w.cwd outputPath
        = stat (GetImage sourceURL localPath outputPath w).2.fs w.superuser w.cwd outputPath
    ∧ ∃ c p, stat (GetImage sourceURL localPath outputPath w).2.fs w.superuser w.cwd outputPath
        = some (Node.file c p) := by
  have h1 := GetImage_none h
  obtain ⟨fs2, h2, hst⟩ := h1.rerun hfs henv hh hrw
  obtain ⟨h3, h4⟩ := GetImage_succeeds h2
  refine ⟨h3, by rw [h4]; exact hst, ?_⟩
  rcases h1 with ⟨_, _, _, hs⟩ | ⟨_, _, _, _, _, _, _, _, hs⟩
  · obtain ⟨_, _, p, data, _, _, _, _, _, _, hstat⟩ := hs.result
    exact ⟨data, p, hstat⟩
  · obtain ⟨_, _, p, data, _, _, _, _, _, _, hstat⟩ := hs.result
    exact ⟨data, p, hstat⟩

/-- C7 amended, at the sample world: the local picture copied twice to a new
    place, the second time in the world the first run left. -/
theorem second_run_same_content_witness :
    (GetImage "" "a.png" "out/b.png" sampleWorld).1 = none
    ∧ (GetImage "" "a.png" "out/b.png" (GetImage "" "a.png" "out/b.png" sampleWorld).2).1
        = none
    ∧ stat (GetImage "" "a.png" "out/b.png"
          (GetImage "" "a.png" "out/b.png" sampleWorld).2).2.fs false sampleWorld.cwd
          "out/b.png"
        = stat (GetImage "" "a.png" "out/b.png" sampleWorld).2.fs false sampleWorld.cwd
          "out/b.png" :=
  have h := second_run_same_content "" "a.png" "out/b.png" sampleWorld
    (GetImage "" "a.png" "out/b.png" sampleWorld).2 (by decide)
    (by
      intro c p hst
      have h0 : stat (GetImage "" "a.png" "out/b.png" sampleWorld).2.fs sampleWorld.superuser
          sampleWorld.cwd "out/b.png" = some (Node.file [1, 2, 3] userFile) := by decide
      rw [h0] at hst
      cases hst
      decide)
    rfl (GetImage_handles _ _ _ sampleWorld) (GetImage_env _ _ _ sampleWorld)
  ⟨by decide, h.1, h.2.1⟩

/-- C8, as stated, fails for `Close`: in a world where every `Close` reports an
    error, copying the local picture makes two calls that report an error, the
    `Close` of the destination file and the `Close` of the source file, and
    `GetImage` returns `nil`. -/
theorem close_error_is_dropped :
    (GetImage "" "a.png" "b.png" closeFailsWorld).1 = none
    ∧ (⟨Call.close 2, some "input/output error"⟩ : Event)
        ∈ newEvents closeFailsWorld (GetImage "" "a.png" "b.png" closeFailsWorld).2
    ∧ (⟨Call.close 1, some "input/output error"⟩ : Event)
        ∈ newEvents closeFailsWorld (GetImage "" "a.png" "b.png" closeFailsWorld).2 := by
  decide

/-- C8, amended: when a call that `GetImage` makes to `http.Get`, `os.Open`,
    `os.MkdirAll`, `os.Create` or `io.Copy` reports an error, `GetImage` returns
    an error. -/
theorem collaborator_error_is_returned (sourceURL localPath outputPath : String) (w : World)
    (e : Event) (he : e ∈ newEvents w (GetImage sourceURL localPath outputPath w).2)
    (herr : e.err ≠ none) (hcall : ∀ h, e.call ≠ Call.close h) :
    (GetImage sourceURL localPath outputPath w).1 ≠ none := by
  obtain ⟨evs, ht, hshape⟩ := GetImage_trace sourceURL localPath outputPath w
  rw [newEvents_append _ _ _ ht] at he
  intro hnone
  rw [hnone] at hshape
  have hsave : ∀ {h : Nat} {sevs : List Event}, SaveShape h outputPath none sevs →
      e ∈ sevs → False := by
    intro h sevs hs hmem
    rcases hs with ⟨m, hr, _⟩ | ⟨m, hr, _⟩ | ⟨f, m, ce, hr, _⟩ | ⟨f, ce, _, hev⟩
    · cases hr
    · cases hr
    · cases hr
    · subst hev
      simp only [List.mem_cons, List.mem_singleton, List.not_mem_nil, or_false] at hmem
      rcases hmem with rfl | rfl | rfl | rfl
      · exact herr rfl
      · exact herr rfl
      · exact herr rfl
      · exact hcall f rfl
  rcases hshape with ⟨_, _, hr, _⟩ | ⟨_, m, hr, _⟩ | ⟨_, st, body, hh, ce, _, _, hr, _⟩
      | ⟨_, hh, ce, sevs, hs, hev⟩ | ⟨_, _, m, hr, _⟩ | ⟨_, _, hh, ce, sevs, hs, hev⟩
  · cases hr
  · cases hr
  · cases hr
  · subst hev
    simp only [List.mem_cons, List.mem_append, List.mem_singleton, List.not_mem_nil,
      or_false] at he
    rcases he with rfl | he | rfl
    · exact herr rfl
    · exact hsave hs he
    · exact hcall hh rfl
  · cases hr
  · subst hev
    simp only [List.mem_cons, List.mem_append, List.mem_singleton, List.not_mem_nil,
      or_false] at he
    rcases he with rfl | he | rfl
    · exact herr rfl
    · exact hsave hs he
    · exact hcall hh rfl

/-- C8 amended, at the sample world: `os.Open` of a file that is not there
    reports an error, and `GetImage` returns one. -/
theorem collaborator_error_is_returned_witness :
    (GetImage "" "b.png" "out.png" sampleWorld).1 ≠ none :=
  collaborator_error_is_returned "" "b.png" "out.png" sampleWorld
    ⟨Call.osOpen "b.png", some "open b.png: no such file or directory"⟩
    (by decide) (by decide) (fun _ hc => by cases hc)

/-- C9: the open handles after `GetImage` are the open handles before it, for
    every input and every world, so on every way out: whatever `GetImage`
    acquired, the response body, the source file or the destination file, it
    has closed. -/
theorem handles_released (sourceURL localPath outputPath : String) (w : World) :
    (GetImage sourceURL localPath outputPath w).2.handles = w.handles :=
  GetImage_handles sourceURL localPath outputPath w

/-- C10: the message of every failed run names the stage that failed, and the
    stage can be read off the message alone: `stageOf`, a function of the message
    only, gives the stage of the first failing call of the run (when no call
    failed: the fetch for a status other than 200, the source selection when no
    source was given). When a call failed, the message is the text of its stage
    followed by the error text of that call; otherwise it is "error: status code
    <code>" or the no-source message. So the messages of two runs that failed in
    different stages differ. -/
theorem message_names_stage (sourceURL localPath outputPath : String) (w : World) (msg : String)
    (h : (GetImage sourceURL localPath outputPath w).1 = some msg) :
    stageOf msg
      = some (failedStage sourceURL (newEvents w (GetImage sourceURL localPath outputPath w).2))
    ∧ (match firstFailure (newEvents w (GetImage sourceURL localPath outputPath w).2) with
      | some (st, m) => msg = st.label ++ m
      | none =>
        (sourceURL = "" ∧ localPath = "" ∧ msg = Stage.noSource.label)
        ∨ (sourceURL ≠ "" ∧ ∃ status body, w.net sourceURL = HttpResult.response status body
            ∧ status ≠ 200 ∧ msg = "error: status code " ++ toString status))
    ∧ (∀ (sourceURL2 localPath2 outputPath2 : String) (w2 : World) (msg2 : String),
        (GetImage sourceURL2 localPath2 outputPath2 w2).1 = some msg2 →
        failedStage sourceURL2
            (newEvents w2 (GetImage sourceURL2 localPath2 outputPath2 w2).2)
          ≠ failedStage sourceURL
            (newEvents w (GetImage sourceURL localPath outputPath w).2) →
        msg2 ≠ msg) := by
  obtain ⟨h1, h2⟩ := message_of_run sourceURL localPath outputPath w msg h
  refine ⟨h1, h2, ?_⟩
  intro sourceURL2 localPath2 outputPath2 w2 msg2 h3 hne heq
  obtain ⟨h4, _⟩ := message_of_run sourceURL2 localPath2 outputPath2 w2 msg2 h3
  rw [heq, h1] at h4
  exact hne (Option.some.inj h4).symm

/-- C10, at the sample world: a local file that is not there. -/
theorem message_names_stage_witness :
    (GetImage "" "b.png" "out.png" sampleWorld).1
      = some "error opening the local file: open b.png: no such file or directory"
    ∧ stageOf "error opening the local file: open b.png: no such file or directory"
      = some (failedStage ""
          (newEvents sampleWorld (GetImage "" "b.png" "out.png" sampleWorld).2)) :=
  ⟨by decide,
   (message_names_stage "" "b.png" "out.png" sampleWorld
      "error opening the local file: open b.png: no such file or directory" (by decide)).1⟩

end ImgGet
